import Mathlib

/-!
# Pathfinding: graph backtracking, Dijkstra and grid backtracking

A shallow embedding of `pathfinding/0-backtracking_array.c`,
`pathfinding/1-backtracking_graph.c` and `pathfinding/2-dijkstra_graph.c`.

Modelling conventions
* A `vertex_t *` is the vertex record itself; the heap of vertices is the
  vertex list of the graph, and an edge stores the index of its destination
  (`edge->dest->index`), which `Graph.deref` turns back into the record.
* C arrays (`distance`, `visited`, `path_via`) are total maps from indexes.
* `size_t` is 64 bits wide: `distance[i] + edge->weight` is computed
  modulo `2 ^ 64` after converting the `int` weight.
* A queue is the list of its elements, front first: `queue_push_front` is
  `cons` and `dequeue` drops the head, as `queues.h` documents them (their code
  is not part of the sources).
* Recursion and unbounded loops carry a fuel argument; `none` means the fuel
  ran out. Where a result is claimed, the fuel given is shown to suffice.
  Allocation failures and the diagnostic `printf` are not modelled.
-/

namespace Pathfinding

/-! ## Data model (`graphs.h`, `pathfinding.h`) -/

/-- Record `edge_t`: destination vertex (by index) and `int` weight. -/
structure Edge where
  dest : Nat
  weight : Int
deriving DecidableEq, Repr

/-- Record `vertex_t`: index, label and outgoing edges, in list order. The
coordinates and `nb_edges` are not read by the searches and are left out. -/
structure Vertex where
  index : Nat
  content : String
  edges : List Edge
deriving DecidableEq, Repr

/-- Record `graph_t`: vertex count and the linked list of vertices. -/
structure Graph where
  nb_vertices : Nat
  vertices : List Vertex
deriving DecidableEq, Repr

/-- Constant `INT_MAX` of a 32-bit `int`. -/
def INT_MAX : Nat := 2147483647

/-- Number of values of a 64-bit `size_t`. -/
def SIZE_MOD : Nat := 2 ^ 64

/-- Dereference of a vertex pointer held by an edge. -/
def Graph.deref (g : Graph) (i : Nat) : Option Vertex := g.vertices[i]?

/-- Label of the vertex with index `i` (empty when there is none). -/
def Graph.label (g : Graph) (i : Nat) : String :=
  match g.deref i with
  | some v => v.content
  | none => ""

/-- Well-formed graph: the vertex list has `nb_vertices` entries whose indexes
are `0, 1, ...` in order, every edge leads to a vertex of the graph, and every
weight is a value of type `int`. -/
def Graph.WellFormed (g : Graph) : Prop :=
  g.vertices.map Vertex.index = List.range g.nb_vertices ∧
  ∀ v ∈ g.vertices, ∀ e ∈ v.edges,
    e.dest < g.nb_vertices ∧ -2147483648 ≤ e.weight ∧ e.weight ≤ 2147483647

instance (g : Graph) : Decidable g.WellFormed := by
  unfold Graph.WellFormed; infer_instance

/-- All edge weights are non-negative. -/
def Graph.NonNeg (g : Graph) : Prop :=
  ∀ v ∈ g.vertices, ∀ e ∈ v.edges, 0 ≤ e.weight

instance (g : Graph) : Decidable g.NonNeg := by
  unfold Graph.NonNeg; infer_instance

/-- The record `v` is a vertex of `g` (it sits at its own index). -/
def Graph.HasVertex (g : Graph) (v : Vertex) : Prop := g.deref v.index = some v

instance (g : Graph) (v : Vertex) : Decidable (g.HasVertex v) := by
  unfold Graph.HasVertex; infer_instance

/-- Labels of the graph are pairwise distinct. -/
def Graph.DistinctLabels (g : Graph) : Prop :=
  (g.vertices.map Vertex.content).Nodup

instance (g : Graph) : Decidable g.DistinctLabels := by
  unfold Graph.DistinctLabels; infer_instance

/-! ## Routes and costs (specification side) -/

/-- Weights of the edges from vertex `u` to vertex `v`, in edge order. -/
def Graph.weights (g : Graph) (u v : Nat) : List Int :=
  match g.deref u with
  | some x => (x.edges.filter (fun e => e.dest = v)).map Edge.weight
  | none => []

/-- There is an edge from vertex `u` to vertex `v`. -/
def Graph.HasEdge (g : Graph) (u v : Nat) : Prop := g.weights u v ≠ []

instance (g : Graph) (u v : Nat) : Decidable (g.HasEdge u v) := by
  unfold Graph.HasEdge; infer_instance

/-- Weight of the cheapest edge from `u` to `v` (0 when there is none). -/
def Graph.cheapest (g : Graph) (u v : Nat) : Int :=
  match g.weights u v with
  | [] => 0
  | w :: ws => ws.foldl min w

/-- Cost of a vertex sequence: the cheapest edge between each consecutive
pair, summed. -/
def Graph.pathCost (g : Graph) : List Nat → Int
  | [] => 0
  | [_] => 0
  | u :: v :: rest => g.cheapest u v + g.pathCost (v :: rest)

/-- Route: a non-empty sequence of vertices of the graph from `s` to `t` in
which each vertex has an edge to the next one. -/
def Graph.IsRoute (g : Graph) (s t : Nat) (p : List Nat) : Prop :=
  p.head? = some s ∧ p.getLast? = some t ∧
  (∀ u ∈ p, u < g.nb_vertices) ∧ List.Chain' g.HasEdge p

instance (g : Graph) (s t : Nat) (p : List Nat) : Decidable (g.IsRoute s t p) := by
  unfold Graph.IsRoute; infer_instance

/-- Simple path: a route that visits no vertex twice. -/
def Graph.IsSimplePath (g : Graph) (s t : Nat) (p : List Nat) : Prop :=
  g.IsRoute s t p ∧ p.Nodup

instance (g : Graph) (s t : Nat) (p : List Nat) :
    Decidable (g.IsSimplePath s t p) := by
  unfold Graph.IsSimplePath; infer_instance

/-- Vertex `t` can be reached from `s` along directed edges (`s` reaches
itself). -/
def Graph.Reachable (g : Graph) (s t : Nat) : Prop := ∃ p, g.IsRoute s t p

/-! ## Dijkstra (`2-dijkstra_graph.c`) -/

/-- Working arrays of the search: `distance`, `visited`, `path_via`. -/
structure DState where
  distance : Nat → Nat
  visited : Nat → Nat
  path_via : Nat → Option Vertex

/-- The `for` loop of `get_min_distance`: the pair `(min, *index)` after
scanning the indexes of the list, starting from the pair given. -/
def min_scan (distance visited : Nat → Nat) : List Nat → Nat × Nat → Nat × Nat
  | [], acc => acc
  | i :: is, acc =>
    if visited i = 0 ∧ acc.1 > distance i then
      min_scan distance visited is (distance i, i)
    else
      min_scan distance visited is acc

/-- Function `get_min_distance`: the unvisited vertex of lowest distance below
`INT_MAX`, found by index in the vertex list, or `none` for `NULL`. -/
def get_min_distance (g : Graph) (distance visited : Nat → Nat) : Option Vertex :=
  match g.vertices with
  | [] => none
  | _ :: _ =>
    let index := (min_scan distance visited (List.range g.nb_vertices) (INT_MAX, INT_MAX)).2
    if index = INT_MAX then none
    else g.vertices.find? (fun v => v.index = index)

/-- The sum `distance[i] + edge->weight` in `size_t` arithmetic. -/
def add_weight (d : Nat) (w : Int) : Nat := (((d : Int) + w) % (SIZE_MOD : Int)).toNat

/-- The `while (edge && visited[i] == 0)` loop of `recursive_dijkstra`. -/
def relax_edges (current : Vertex) (i : Nat) : List Edge → DState → DState
  | [], st => st
  | e :: es, st =>
    if st.visited i = 0 then
      let temp := add_weight (st.distance i) e.weight
      if st.distance e.dest > temp then
        relax_edges current i es
          { st with distance := Function.update st.distance e.dest temp,
                    path_via := Function.update st.path_via e.dest (some current) }
      else
        relax_edges current i es st
    else st

/-- Function `recursive_dijkstra`; the unused `idx` argument is dropped. -/
def recursive_dijkstra (g : Graph) (target : Vertex) : Nat → DState → Option DState
  | 0, _ => none
  | fuel + 1, st =>
    match get_min_distance g st.distance st.visited with
    | none => some st
    | some current =>
      let st1 := relax_edges current current.index current.edges st
      let st2 := { st1 with visited := Function.update st1.visited current.index 1 }
      if st2.visited target.index = 1 then some st2
      else recursive_dijkstra g target fuel st2

/-- Function `init_dijkstra` followed by `distance[start->index] = 0`. -/
def init_dijkstra (start : Vertex) : DState :=
  { distance := Function.update (fun _ => INT_MAX) start.index 0,
    visited := fun _ => 0,
    path_via := fun _ => none }

/-- The `while (path_via[i] && i < graph->nb_vertices)` loop of
`insert_into_queue`. -/
def insert_loop (g : Graph) (path_via : Nat → Option Vertex) (start : Vertex) :
    Nat → Nat → List String → Option (List String)
  | 0, _, _ => none
  | fuel + 1, i, path =>
    match path_via i with
    | none => some path
    | some v =>
      if i < g.nb_vertices then
        if v.index = start.index then some (v.content :: path)
        else insert_loop g path_via start fuel v.index (v.content :: path)
      else some path

/-- Function `insert_into_queue`, on a queue given as a list. -/
def insert_into_queue (g : Graph) (fuel : Nat) (path : List String)
    (path_via : Nat → Option Vertex) (start target : Vertex) : Option (List String) :=
  match path_via target.index with
  | none => some path
  | some _ => insert_loop g path_via start fuel target.index (target.content :: path)

/-- Function `dijkstra_graph` for non-`NULL` arguments. The outer `none` means
that a loop ran out of its `nb_vertices + 1` units of fuel; `some none` is the
`NULL` result and `some (some q)` the returned queue. -/
def dijkstra_graph (g : Graph) (start target : Vertex) : Option (Option (List String)) :=
  match recursive_dijkstra g target (g.nb_vertices + 1) (init_dijkstra start) with
  | none => none
  | some st =>
    match insert_into_queue g (g.nb_vertices + 1) [] st.path_via start target with
    | none => none
    | some [] => some none
    | some (x :: q) => some (some (x :: q))

/-! ## Graph backtracking (`1-backtracking_graph.c`) -/

/-- Result of one call of `recursive_backtrack_graph`: the returned flag (true
for 1), the path queue and the `visited` array on return. -/
structure BTResult where
  found : Bool
  path : List String
  visited : Nat → Int

/-- The `for` loop over the edges of `current` in `recursive_backtrack_graph`,
with the recursive call passed in as `call`, followed by the unmarking of
`current` when every edge failed. -/
def explore_edges (g : Graph) (call : List String → (Nat → Int) → Option Vertex → Option BTResult)
    (current : Vertex) : List Edge → List String → (Nat → Int) → Option BTResult
  | [], path, visited =>
    some ⟨false, path, Function.update visited current.index 0⟩
  | e :: es, path, visited =>
    match call path visited (g.deref e.dest) with
    | none => none
    | some r =>
      if r.found then some ⟨true, current.content :: r.path, r.visited⟩
      else explore_edges g call current es r.path r.visited

/-- Function `recursive_backtrack_graph`; `strcmp` on the labels is equality of
the strings. -/
def recursive_backtrack_graph (g : Graph) (target : Vertex) :
    Nat → List String → (Nat → Int) → Option Vertex → Option BTResult
  | 0, _, _, _ => none
  | fuel + 1, path, visited, current =>
    match current with
    | none => some ⟨false, path, visited⟩
    | some cur =>
      if visited cur.index = 1 then some ⟨false, path, visited⟩
      else if cur.content = target.content then
        some ⟨true, cur.content :: path, visited⟩
      else
        explore_edges g (recursive_backtrack_graph g target fuel) cur cur.edges path
          (Function.update visited cur.index 1)

/-- Function `backtracking_graph` for non-`NULL` arguments. The outer `none`
means the recursion ran out of its `nb_vertices + 1` units of fuel; `some none`
is the `NULL` result. -/
def backtracking_graph (g : Graph) (start target : Vertex) : Option (Option (List String)) :=
  match recursive_backtrack_graph g target (g.nb_vertices + 1) [] (fun _ => 0) (some start) with
  | none => none
  | some r => if r.found then some (some r.path) else some none

/-! ## Grid backtracking (`0-backtracking_array.c`) -/

/-- Record `point_t`. -/
structure Point where
  x : Int
  y : Int
deriving DecidableEq, Repr

/-- A character grid: the rows of `char **map`, each without its final NUL. -/
abbrev Grid := List (List Char)

/-- Read of `map[y][x]` (NUL outside the stored characters). -/
def Grid.get (m : Grid) (x y : Int) : Char :=
  if 0 ≤ x ∧ 0 ≤ y then (m.getD y.toNat []).getD x.toNat (Char.ofNat 0) else Char.ofNat 0

/-- Write `map[y][x] = c`. -/
def Grid.put (m : Grid) (x y : Int) (c : Char) : Grid :=
  if 0 ≤ x ∧ 0 ≤ y then m.set y.toNat ((m.getD y.toNat []).set x.toNat c) else m

/-- Rectangular grid of `rows` rows of `cols` characters each. -/
def Grid.Rect (m : Grid) (rows cols : Int) : Prop :=
  (m.length : Int) = rows ∧ ∀ r ∈ m, (r.length : Int) = cols

instance (m : Grid) (rows cols : Int) : Decidable (m.Rect rows cols) := by
  unfold Grid.Rect; infer_instance

/-- Result of one call of `backtrack`: the returned flag, the working grid and
the path queue on return. -/
structure GridResult where
  found : Bool
  map : Grid
  path : List Point

/-- Modelled from the spec: `dequeue` of `queues.h`, whose code is not in the
sources: it removes the front element of the queue. -/
def dequeue (q : List Point) : List Point := q.tail

/-- Function `backtrack`; `queue_push_front` puts the point in front. -/
def backtrack : Nat → Grid → Int → Int → Point → Int → Int → List Point → Option GridResult
  | 0, _, _, _, _, _, _, _ => none
  | fuel + 1, map, rows, cols, target, x, y, path =>
    if x < 0 ∨ x ≥ cols ∨ y < 0 ∨ y ≥ rows ∨ map.get x y ≠ '0' then
      some ⟨false, map, path⟩
    else
      let map1 := map.put x y '1'
      let path1 := (⟨x, y⟩ : Point) :: path
      if x = target.x ∧ y = target.y then some ⟨true, map1, path1⟩
      else
        match backtrack fuel map1 rows cols target (x + 1) y path1 with
        | none => none
        | some r1 =>
          if r1.found then some r1
          else
            match backtrack fuel r1.map rows cols target x (y + 1) r1.path with
            | none => none
            | some r2 =>
              if r2.found then some r2
              else
                match backtrack fuel r2.map rows cols target (x - 1) y r2.path with
                | none => none
                | some r3 =>
                  if r3.found then some r3
                  else
                    match backtrack fuel r3.map rows cols target x (y - 1) r3.path with
                    | none => none
                    | some r4 =>
                      if r4.found then some r4
                      else some ⟨false, r4.map, dequeue r4.path⟩

/-- The copy loop of `backtracking_array`: the first `rows` rows of the
caller's grid. -/
def copy_map (map : Grid) (rows : Int) : Grid := map.take rows.toNat

/-- Number of characters stored in a grid. -/
def Grid.size (m : Grid) : Nat := (m.map List.length).sum

/-- Function `backtracking_array`. The outer `none` means the recursion ran out
of fuel (one unit per character of the private copy, plus one); `some none` is
the `NULL` result. Draining `path` with `dequeue` while pushing each point in
front of `reverse_path` reverses the queue. -/
def backtracking_array (map : Grid) (rows cols : Int) (start target : Point) :
    Option (Option (List Point)) :=
  let mymap := copy_map map rows
  match backtrack (mymap.size + 1) mymap rows cols target start.x start.y [] with
  | none => none
  | some r => if r.found then some (some r.path.reverse) else some none

/-! ## Examples used below -/

/-- Scenario 2 of the specification: A-B(2), B-D(2), A-C(1), C-D(1), all
bidirectional. -/
def scenario2 : Graph :=
  { nb_vertices := 4,
    vertices := [
      ⟨0, "A", [⟨1, 2⟩, ⟨2, 1⟩]⟩,
      ⟨1, "B", [⟨0, 2⟩, ⟨3, 2⟩]⟩,
      ⟨2, "C", [⟨0, 1⟩, ⟨3, 1⟩]⟩,
      ⟨3, "D", [⟨1, 2⟩, ⟨2, 1⟩]⟩] }

/-- Vertex A of `scenario2`. -/
def scenario2_A : Vertex := ⟨0, "A", [⟨1, 2⟩, ⟨2, 1⟩]⟩

/-- Vertex D of `scenario2`. -/
def scenario2_D : Vertex := ⟨3, "D", [⟨1, 2⟩, ⟨2, 1⟩]⟩

/-- Grid of scenario 1: a blocking row with one opening. -/
def scenario1 : Grid :=
  ["00000".toList, "00000".toList, "11101".toList, "00000".toList, "00000".toList]

/-- Scenario 3 of the specification: A and B joined in both directions, and a
vertex E without edges. -/
def scenario3 : Graph :=
  { nb_vertices := 3,
    vertices := [⟨0, "A", [⟨1, 1⟩]⟩, ⟨1, "B", [⟨0, 1⟩]⟩, ⟨2, "E", []⟩] }

/-- Vertex A of `scenario3`. -/
def scenario3_A : Vertex := ⟨0, "A", [⟨1, 1⟩]⟩

/-- Vertex B of `scenario3`. -/
def scenario3_B : Vertex := ⟨1, "B", [⟨0, 1⟩]⟩

/-- Vertex E of `scenario3`. -/
def scenario3_E : Vertex := ⟨2, "E", []⟩

/-- Edges of the vertices of `huge`: vertices 0, 1 and `INT_MAX` are joined
pairwise in both directions, 0-1 with weight 10, the other two pairs with
weight 1. -/
def huge_edges (i : Nat) : List Edge :=
  if i = 0 then [⟨1, 10⟩, ⟨INT_MAX, 1⟩]
  else if i = 1 then [⟨0, 10⟩, ⟨INT_MAX, 1⟩]
  else if i = INT_MAX then [⟨0, 1⟩, ⟨1, 1⟩]
  else []

/-- Labels of the vertices of `huge`. -/
def huge_label (i : Nat) : String :=
  if i = 0 then "A" else if i = 1 then "B" else if i = INT_MAX then "Z" else ""

/-- Vertex `i` of `huge`. -/
def huge_vertex (i : Nat) : Vertex := ⟨i, huge_label i, huge_edges i⟩

/-- The vertex list of `huge`. -/
@[irreducible] def huge_vertices : List Vertex := (List.range (INT_MAX + 1)).map huge_vertex

/-- A graph with `INT_MAX + 1` vertices, so that its last vertex has the index
`INT_MAX` that `get_min_distance` uses for "no index". -/
def huge : Graph := { nb_vertices := INT_MAX + 1, vertices := huge_vertices }

/-- The arrays after the first selection step of the search on `huge` from
vertex 0: vertex 0 is visited, vertex 1 has distance 10 and vertex `INT_MAX`
distance 1, both with predecessor 0. -/
def huge_state : DState :=
  { distance := Function.update (Function.update
      (Function.update (fun _ => INT_MAX) 0 0) 1 10) INT_MAX 1,
    visited := Function.update (fun _ => 0) 0 1,
    path_via := Function.update (Function.update (fun _ => none) 1 (some (huge_vertex 0)))
      INT_MAX (some (huge_vertex 0)) }

/-- Number of indexes below `nb_vertices` whose `visited` entry is 0. -/
def unvisited_count (g : Graph) (visited : Nat → Nat) : Nat :=
  (List.range g.nb_vertices).countP (fun i => visited i = 0)

/-- Every edge is mirrored: an edge from `u` to `v` of weight `w` comes with
an edge from `v` to `u` of weight `w`, as `BIDIRECTIONAL` edges are stored. -/
def Graph.Mirrored (g : Graph) : Prop :=
  ∀ x ∈ g.vertices, ∀ e ∈ x.edges, e.weight ∈ g.weights e.dest x.index

instance (g : Graph) : Decidable g.Mirrored := by
  unfold Graph.Mirrored; infer_instance

/-! ## Invariants of the Dijkstra search -/

/-- Facts about the working arrays that hold whatever the weights are: the
start keeps distance 0 and no predecessor, and only vertices that can be
reached from the start get a distance below `INT_MAX` or a predecessor. -/
structure WInv (g : Graph) (s : Nat) (st : DState) : Prop where
  d_start : st.distance s = 0
  via_start : st.path_via s = none
  reach_d : ∀ v, st.distance v < INT_MAX → g.Reachable s v
  reach_via : ∀ v x, st.path_via v = some x → g.Reachable s v

/-- Facts about the working arrays that hold when no weight is negative.
`rank` orders the visited vertices by the time of their selection and `K`
bounds the ranks handed out so far. -/
structure DInv (g : Graph) (s : Nat) (st : DState) (rank : Nat → Nat) (K : Nat) : Prop where
  d_start : st.distance s = 0
  d_le : ∀ v, st.distance v ≤ INT_MAX
  v01 : ∀ v, st.visited v = 0 ∨ st.visited v = 1
  v_dist : ∀ v, st.visited v = 1 → st.distance v < INT_MAX
  via : ∀ v x, st.path_via v = some x →
    g.HasVertex x ∧ st.visited x.index = 1 ∧ v ≠ s ∧ v < g.nb_vertices ∧
    st.distance v < INT_MAX ∧ (st.visited v = 1 → rank x.index < rank v) ∧
    ∃ w ∈ g.weights x.index v, (st.distance v : Int) = st.distance x.index + w
  via_some : ∀ v, v ≠ s → st.distance v < INT_MAX → st.path_via v ≠ none
  closed : ∀ u, st.visited u = 1 → ∀ v, ∀ w ∈ g.weights u v,
    (st.distance v : Int) ≤ st.distance u + w
  sorted : ∀ u v, st.visited u = 1 → st.visited v = 0 → v < g.nb_vertices →
    st.distance u ≤ st.distance v
  rank_lt : ∀ u, st.visited u = 1 → rank u < K
  k_le : K + unvisited_count g st.visited ≤ g.nb_vertices

/-- The arrays after the relaxation loop of the selected vertex `i`, compared
with the arrays `st` before it. -/
structure Relaxed (g : Graph) (current : Vertex) (st st1 : DState) : Prop where
  vis : st1.visited = st.visited
  d_le : ∀ v, st1.distance v ≤ st.distance v
  chg : ∀ v, (st1.distance v = st.distance v ∧ st1.path_via v = st.path_via v) ∨
    (st.visited v = 0 ∧ v ≠ current.index ∧ v < g.nb_vertices ∧
      st1.path_via v = some current ∧ st1.distance v < st.distance v ∧
      ∃ w ∈ g.weights current.index v,
        (st1.distance v : Int) = st.distance current.index + w)

/-! ## Notions used for the graph backtracking search -/

/-- Number of indexes below `nb_vertices` whose `visited` flag is 0. -/
def unmarked_count (g : Graph) (visited : Nat → Int) : Nat :=
  (List.range g.nb_vertices).countP (fun i => visited i = 0)

/-- A route that starts at vertex `c`, runs over unmarked vertices only and
ends at a vertex that carries the label of `target`. -/
def Graph.OpenRoute (g : Graph) (target : Vertex) (visited : Nat → Int) (c : Nat)
    (p : List Nat) : Prop :=
  p.head? = some c ∧ (∀ u ∈ p, u < g.nb_vertices ∧ visited u = 0) ∧
  List.Chain' g.HasEdge p ∧ ∃ t, p.getLast? = some t ∧ g.label t = target.content

/-- Outcome of a call of `recursive_backtrack_graph` entered with queue `path`
and flags `visited` at vertex `c`: a failure leaves both as they were and
means that no open route exists; a success puts the labels of an open route
without repeated vertex in front of the queue and leaves marked exactly the
vertices of that route other than its last one. -/
def BTOutcome (g : Graph) (target : Vertex) (path : List String) (visited : Nat → Int)
    (c : Nat) (r : BTResult) : Prop :=
  (r.found = false ∧ r.path = path ∧ r.visited = visited ∧
    ∀ p, ¬ g.OpenRoute target visited c p) ∨
  (r.found = true ∧ ∃ p, r.path = p.map g.label ++ path ∧
    g.OpenRoute target visited c p ∧ p.Nodup ∧
    ∀ i, r.visited i = if i ∈ p.dropLast then 1 else visited i)

/-! ## Notions used for the grid backtracking search -/

/-- Number of open cells (`'0'`) stored in a grid. -/
def Grid.zeros (m : Grid) : Nat := (m.map (fun r => r.count '0')).sum

/-- Grid `m2` is grid `m1` with some open cells claimed: every cell open in
`m2` is open in `m1`, and `m2` has no more open cells than `m1`. -/
def GridSub (m1 m2 : Grid) : Prop :=
  (∀ a b, m2.get a b = '0' → m1.get a b = '0') ∧ m2.zeros ≤ m1.zeros

/-- Orthogonal step: the two points differ by exactly 1 in exactly one
coordinate. -/
def Point.Adjacent (a b : Point) : Prop :=
  (a.y = b.y ∧ (a.x = b.x + 1 ∨ b.x = a.x + 1)) ∨
  (a.x = b.x ∧ (a.y = b.y + 1 ∨ b.y = a.y + 1))

instance (a b : Point) : Decidable (a.Adjacent b) := by
  unfold Point.Adjacent; infer_instance

/-- The point lies inside the `rows` x `cols` grid and its cell is open. -/
def Grid.OpenAt (m : Grid) (rows cols : Int) (q : Point) : Prop :=
  0 ≤ q.x ∧ q.x < cols ∧ 0 ≤ q.y ∧ q.y < rows ∧ m.get q.x q.y = '0'

instance (m : Grid) (rows cols : Int) (q : Point) : Decidable (m.OpenAt rows cols q) := by
  unfold Grid.OpenAt; infer_instance

/-- Outcome of a call of `backtrack` entered at `(x, y)` with grid `map` and
queue `path`: cells are only ever claimed; a failure leaves the queue as it
was; a success puts in front of the queue a trail from the target (front) back
to `(x, y)` made of orthogonal steps over distinct cells open in `map`. -/
def GridOutcome (map : Grid) (rows cols : Int) (target : Point) (x y : Int)
    (path : List Point) (r : GridResult) : Prop :=
  GridSub map r.map ∧
  ((r.found = false ∧ r.path = path) ∨
   (r.found = true ∧ ∃ p, r.path = p ++ path ∧ p.head? = some target ∧
      p.getLast? = some ⟨x, y⟩ ∧ (∀ q ∈ p, map.OpenAt rows cols q) ∧
      List.Chain' Point.Adjacent p ∧ p.Nodup))

/-- Open path: a sequence of in-grid open cells from `start` to `target`, each
an orthogonal step away from the next. -/
def Grid.OpenPath (m : Grid) (rows cols : Int) (start target : Point) (q : List Point) : Prop :=
  q.head? = some start ∧ q.getLast? = some target ∧
  (∀ pt ∈ q, m.OpenAt rows cols pt) ∧ List.Chain' Point.Adjacent q

instance (m : Grid) (rows cols : Int) (start target : Point) (q : List Point) :
    Decidable (m.OpenPath rows cols start target q) := by
  unfold Grid.OpenPath; infer_instance

/-- What a failed call of `backtrack` at `(x, y)` leaves behind, `m1` being the
grid on entry and `m2` the grid on return: cells were only claimed, `(x, y)` is
not open any more (or never was), every cell claimed during the call has no
open neighbour left, and the target cell was not claimed. -/
def GridClosed (m1 m2 : Grid) (rows cols : Int) (target : Point) (x y : Int) : Prop :=
  GridSub m1 m2 ∧ ¬ m2.OpenAt rows cols ⟨x, y⟩ ∧
  (∀ c, m1.OpenAt rows cols c → ¬ m2.OpenAt rows cols c →
    ∀ n : Point, n.Adjacent c → ¬ m2.OpenAt rows cols n) ∧
  (m1.OpenAt rows cols target → m2.OpenAt rows cols target)

/-- Function `backtrack` once more, this time with the cells reported by
`printf("Checking coordinates [%d, %d]\n", x, y)` collected in the order of
the calls: `log` holds the cells reported so far. -/
def backtrack_log : Nat → Grid → Int → Int → Point → Int → Int → List Point → List Point →
    Option (GridResult × List Point)
  | 0, _, _, _, _, _, _, _, _ => none
  | fuel + 1, map, rows, cols, target, x, y, path, log =>
    if x < 0 ∨ x ≥ cols ∨ y < 0 ∨ y ≥ rows ∨ map.get x y ≠ '0' then
      some (⟨false, map, path⟩, log)
    else
      let map1 := map.put x y '1'
      let path1 := (⟨x, y⟩ : Point) :: path
      let log1 := log ++ [(⟨x, y⟩ : Point)]
      if x = target.x ∧ y = target.y then some (⟨true, map1, path1⟩, log1)
      else
        match backtrack_log fuel map1 rows cols target (x + 1) y path1 log1 with
        | none => none
        | some (r1, l1) =>
          if r1.found then some (r1, l1)
          else
            match backtrack_log fuel r1.map rows cols target x (y + 1) r1.path l1 with
            | none => none
            | some (r2, l2) =>
              if r2.found then some (r2, l2)
              else
                match backtrack_log fuel r2.map rows cols target (x - 1) y r2.path l2 with
                | none => none
                | some (r3, l3) =>
                  if r3.found then some (r3, l3)
                  else
                    match backtrack_log fuel r3.map rows cols target x (y - 1) r3.path l3 with
                    | none => none
                    | some (r4, l4) =>
                      if r4.found then some (r4, l4)
                      else some (⟨false, r4.map, dequeue r4.path⟩, l4)

/-- The cells `cl` were claimed between grid `m1` and grid `m2`: they are
pairwise distinct, each was open in `m1` and is not open in `m2`, and each
accounts for one open cell fewer. -/
def Claimed (m1 m2 : Grid) (rows cols : Int) (cl : List Point) : Prop :=
  cl.Nodup ∧ (∀ c ∈ cl, m1.OpenAt rows cols c ∧ ¬ m2.OpenAt rows cols c) ∧
  cl.length + m2.zeros = m1.zeros ∧ GridSub m1 m2

/-! ## Grid backtracking over a memory of row buffers

The same code once more, with the rows of a `char **` table kept in a memory
of buffers, so that the caller's rows and the rows of the private copy can be
told apart. -/

/-- Memory of row buffers: the characters stored at each address (without the
final NUL), and the first address that `malloc` has not handed out yet. -/
structure Mem where
  rows : Nat → List Char
  next : Nat

/-- The grid that a table of row addresses denotes. -/
def Mem.view (mem : Mem) (tbl : List Nat) : Grid := tbl.map mem.rows

/-- Read of `map[y][x]` through the table of row addresses. -/
def Mem.get (mem : Mem) (tbl : List Nat) (x y : Int) : Char :=
  if 0 ≤ x ∧ 0 ≤ y then
    match tbl[y.toNat]? with
    | some a => (mem.rows a).getD x.toNat (Char.ofNat 0)
    | none => Char.ofNat 0
  else Char.ofNat 0

/-- Write `map[y][x] = c` through the table of row addresses. -/
def Mem.put (mem : Mem) (tbl : List Nat) (x y : Int) (c : Char) : Mem :=
  if 0 ≤ x ∧ 0 ≤ y then
    match tbl[y.toNat]? with
    | some a => { mem with rows := Function.update mem.rows a ((mem.rows a).set x.toNat c) }
    | none => mem
  else mem

/-- Result of one call of `backtrack` over the memory. -/
structure MemResult where
  found : Bool
  mem : Mem
  path : List Point

/-- The result with the working grid read off the memory. -/
def MemResult.erase (tbl : List Nat) (r : MemResult) : GridResult :=
  ⟨r.found, r.mem.view tbl, r.path⟩

/-- Function `backtrack` over the memory; `tbl` is its `char **map`. -/
def backtrack_mem : Nat → Mem → List Nat → Int → Int → Point → Int → Int → List Point →
    Option MemResult
  | 0, _, _, _, _, _, _, _, _ => none
  | fuel + 1, mem, tbl, rows, cols, target, x, y, path =>
    if x < 0 ∨ x ≥ cols ∨ y < 0 ∨ y ≥ rows ∨ mem.get tbl x y ≠ '0' then
      some ⟨false, mem, path⟩
    else
      let mem1 := mem.put tbl x y '1'
      let path1 := (⟨x, y⟩ : Point) :: path
      if x = target.x ∧ y = target.y then some ⟨true, mem1, path1⟩
      else
        match backtrack_mem fuel mem1 tbl rows cols target (x + 1) y path1 with
        | none => none
        | some r1 =>
          if r1.found then some r1
          else
            match backtrack_mem fuel r1.mem tbl rows cols target x (y + 1) r1.path with
            | none => none
            | some r2 =>
              if r2.found then some r2
              else
                match backtrack_mem fuel r2.mem tbl rows cols target (x - 1) y r2.path with
                | none => none
                | some r3 =>
                  if r3.found then some r3
                  else
                    match backtrack_mem fuel r3.mem tbl rows cols target x (y - 1) r3.path with
                    | none => none
                    | some r4 =>
                      if r4.found then some r4
                      else some ⟨false, r4.mem, dequeue r4.path⟩

/-- The copy loop of `backtracking_array` over the memory: for each source row
a fresh buffer is taken (`malloc(cols + 1)`) and filled with the characters of
the source row (`strcpy`). Returns the memory and the table `mymap`. -/
def copy_rows : Mem → List Nat → Mem × List Nat
  | mem, [] => (mem, [])
  | mem, a :: as =>
    let mem1 : Mem :=
      { rows := Function.update mem.rows mem.next (mem.rows a), next := mem.next + 1 }
    let rest := copy_rows mem1 as
    (rest.1, mem.next :: rest.2)

/-- Function `backtracking_array` over the memory: `map` is the caller's table
of row addresses. Returns the result (`none` for `NULL`) together with the
memory after the call; the outer `none` means the fuel ran out. -/
def backtracking_array_mem (mem : Mem) (map : List Nat) (rows cols : Int)
    (start target : Point) : Option (Option (List Point) × Mem) :=
  let copied := copy_rows mem (map.take rows.toNat)
  let mymap := copied.2
  match backtrack_mem ((copied.1.view mymap).size + 1) copied.1 mymap rows cols target
      start.x start.y [] with
  | none => none
  | some r => if r.found then some (some r.path.reverse, r.mem) else some (none, r.mem)

/-! ## Further notions for the graph backtracking search -/

/-- The `visited` arrays with which the loop over the edges of `current`
enters its nested calls, in the order of the calls (the loop of
`explore_edges`, recording the argument of each call). -/
def nested_entries (g : Graph)
    (call : List String → (Nat → Int) → Option Vertex → Option BTResult) :
    List Edge → List String → (Nat → Int) → List (Nat → Int)
  | [], _, _ => []
  | e :: es, path, visited =>
    visited ::
      (match call path visited (g.deref e.dest) with
       | none => []
       | some r => if r.found then [] else nested_entries g call es r.path r.visited)

/-- Depth-first route: the route that a depth-first search in edge order
takes from vertex `c` when the vertices marked in `vis` are closed. It ends at
the first vertex that carries the label of `target`; at every other vertex it
follows the first edge, in the order of the edge list, whose destination
starts an open route once the vertex itself is marked. -/
def Graph.FirstRoute (g : Graph) (target : Vertex) : (Nat → Int) → Nat → List Nat → Prop
  | _, _, [] => False
  | _, c, [u] => u = c ∧ g.label c = target.content
  | vis, c, u :: v :: rest =>
    u = c ∧ g.label c ≠ target.content ∧
    (∃ x es1 e es2, g.deref c = some x ∧ x.edges = es1 ++ e :: es2 ∧ e.dest = v ∧
      ∀ e1 ∈ es1, ∀ p, ¬ g.OpenRoute target (Function.update vis c 1) e1.dest p) ∧
    g.FirstRoute target (Function.update vis c 1) v (v :: rest)

/-! ## The selections of the Dijkstra search -/

/-- Function `recursive_dijkstra` once more, this time with the indexes of the
vertices it selects (the vertices reported by `printf("Checking %s, ...")`)
collected in order: `sel` holds the selections made so far. -/
def recursive_dijkstra_log (g : Graph) (target : Vertex) :
    Nat → DState → List Nat → Option (DState × List Nat)
  | 0, _, _ => none
  | fuel + 1, st, sel =>
    match get_min_distance g st.distance st.visited with
    | none => some (st, sel)
    | some current =>
      let st1 := relax_edges current current.index current.edges st
      let st2 := { st1 with visited := Function.update st1.visited current.index 1 }
      if st2.visited target.index = 1 then some (st2, sel ++ [current.index])
      else recursive_dijkstra_log g target fuel st2 (sel ++ [current.index])

/-- The selections made so far and the `visited` array agree: the selected
vertices are pairwise distinct vertices of the graph, and they are the
vertices marked visited. -/
def SelInv (g : Graph) (st : DState) (sel : List Nat) : Prop :=
  sel.Nodup ∧ (∀ i, st.visited i = 1 ↔ i ∈ sel) ∧ (∀ i ∈ sel, i < g.nb_vertices)

/-! ## Further examples -/

/-- A graph with a negative weight: A to B costs 5, A to C costs -3 and C to B
costs 4. -/
def negative : Graph :=
  { nb_vertices := 3,
    vertices := [⟨0, "A", [⟨1, 5⟩, ⟨2, -3⟩]⟩, ⟨1, "B", []⟩, ⟨2, "C", [⟨1, 4⟩]⟩] }

/-- Vertex A of `negative`. -/
def negative_A : Vertex := ⟨0, "A", [⟨1, 5⟩, ⟨2, -3⟩]⟩

/-- Vertex B of `negative`. -/
def negative_B : Vertex := ⟨1, "B", []⟩

/-- A graph whose only edge, from A to B, has weight `INT_MAX`. -/
def far : Graph :=
  { nb_vertices := 2,
    vertices := [⟨0, "A", [⟨1, 2147483647⟩]⟩, ⟨1, "B", []⟩] }

/-- Vertex A of `far`. -/
def far_A : Vertex := ⟨0, "A", [⟨1, 2147483647⟩]⟩

/-- Vertex B of `far`. -/
def far_B : Vertex := ⟨1, "B", []⟩

/-- A graph with two vertices labelled T: A has an edge to the first of them,
the second one has no edge at all. -/
def twins : Graph :=
  { nb_vertices := 3,
    vertices := [⟨0, "A", [⟨1, 1⟩]⟩, ⟨1, "T", []⟩, ⟨2, "T", []⟩] }

/-- Vertex A of `twins`. -/
def twins_A : Vertex := ⟨0, "A", [⟨1, 1⟩]⟩

/-- The second vertex labelled T of `twins`. -/
def twins_T : Vertex := ⟨2, "T", []⟩

/-- A 3 x 3 grid whose middle row is blocked. -/
def walled : Grid := ["000".toList, "111".toList, "000".toList]

/-- A 2 x 2 grid with all cells open. -/
def open_square : Grid := ["00".toList, "00".toList]

/-- A memory that holds the two rows of `open_square` at the addresses 0 and
1. -/
def square_mem : Mem :=
  { rows := fun a => if a = 0 then "00".toList else if a = 1 then "00".toList else [],
    next := 2 }

/-! ## Basic facts about well-formed graphs -/

theorem wf_length {g : Graph} (h : g.WellFormed) : g.vertices.length = g.nb_vertices := by
  have := congrArg List.length h.1
  simpa using this

theorem wf_index {g : Graph} (h : g.WellFormed) {i : Nat} {v : Vertex}
    (hv : g.deref i = some v) : v.index = i ∧ i < g.nb_vertices := by
  unfold Graph.deref at hv
  have hi : i < g.vertices.length := by
    by_contra hcon
    rw [List.getElem?_eq_none (by omega)] at hv
    cases hv
  have hlen := wf_length h
  have h1 : (g.vertices.map Vertex.index)[i]? = (List.range g.nb_vertices)[i]? := by rw [h.1]
  rw [List.getElem?_map, hv, List.getElem?_range (by omega)] at h1
  simp at h1
  exact ⟨h1, by omega⟩

theorem wf_deref {g : Graph} (h : g.WellFormed) {i : Nat} (hi : i < g.nb_vertices) :
    ∃ v, g.deref i = some v ∧ v.index = i := by
  have hlen := wf_length h
  have : i < g.vertices.length := by omega
  refine ⟨g.vertices[i], ?_, ?_⟩
  · unfold Graph.deref; exact List.getElem?_eq_getElem this
  · exact (wf_index h (by unfold Graph.deref; exact List.getElem?_eq_getElem this)).1

theorem deref_mem {g : Graph} {i : Nat} {v : Vertex} (hv : g.deref i = some v) :
    v ∈ g.vertices := by
  unfold Graph.deref at hv
  exact List.getElem?_mem hv

theorem hasVertex_lt {g : Graph} (h : g.WellFormed) {v : Vertex} (hv : g.HasVertex v) :
    v.index < g.nb_vertices := (wf_index h hv).2

theorem label_of_hasVertex {g : Graph} {v : Vertex} (hv : g.HasVertex v) :
    g.label v.index = v.content := by
  unfold Graph.label; rw [hv]

theorem find_index {g : Graph} (h : g.WellFormed) {i : Nat} (hi : i < g.nb_vertices) :
    ∃ v, g.vertices.find? (fun v => v.index = i) = some v ∧ g.HasVertex v ∧ v.index = i := by
  obtain ⟨v, hv, hvi⟩ := wf_deref h hi
  have hmem := deref_mem hv
  cases hf : g.vertices.find? (fun v => v.index = i) with
  | none =>
    rw [List.find?_eq_none] at hf
    have := hf v hmem
    simp [hvi] at this
  | some x =>
    have hx := List.find?_some hf
    have hxm := List.mem_of_find?_eq_some hf
    simp at hx
    obtain ⟨j, hj, hjx⟩ := List.getElem_of_mem hxm
    have hd : g.deref j = some x := by
      unfold Graph.deref; rw [← hjx]; exact List.getElem?_eq_getElem hj
    have := (wf_index h hd).1
    refine ⟨x, rfl, ?_, hx⟩
    unfold Graph.HasVertex
    rw [this]; exact hd

/-! ## Selection of the next vertex -/

theorem min_scan_spec (distance visited : Nat → Nat) (l : List Nat) (acc : Nat × Nat) :
    (∀ i ∈ l, visited i = 0 → (min_scan distance visited l acc).1 ≤ distance i) ∧
    (min_scan distance visited l acc).1 ≤ acc.1 ∧
    (min_scan distance visited l acc = acc ∨
      ((min_scan distance visited l acc).2 ∈ l ∧
        visited (min_scan distance visited l acc).2 = 0 ∧
        distance (min_scan distance visited l acc).2 = (min_scan distance visited l acc).1 ∧
        (min_scan distance visited l acc).1 < acc.1)) := by
  induction l generalizing acc with
  | nil => simp [min_scan]
  | cons i is ih =>
    unfold min_scan
    split
    · rename_i hc
      obtain ⟨h1, h2, h3⟩ := ih (distance i, i)
      refine ⟨?_, ?_, ?_⟩
      · intro j hj hvj
        rcases List.mem_cons.1 hj with rfl | hj
        · exact h2
        · exact h1 j hj hvj
      · simp at h2; omega
      · right
        rcases h3 with h3 | ⟨h3, h4, h5, h6⟩
        · rw [h3]; simp; exact ⟨hc.1, hc.2⟩
        · refine ⟨List.mem_cons_of_mem _ h3, h4, h5, ?_⟩
          simp at h6; omega
    · rename_i hc
      obtain ⟨h1, h2, h3⟩ := ih acc
      refine ⟨?_, h2, ?_⟩
      · intro j hj hvj
        rcases List.mem_cons.1 hj with rfl | hj
        · have : ¬ acc.1 > distance j := fun hgt => hc ⟨hvj, hgt⟩
          omega
        · exact h1 j hj hvj
      · rcases h3 with h3 | ⟨h3, h4, h5, h6⟩
        · left; exact h3
        · right; exact ⟨List.mem_cons_of_mem _ h3, h4, h5, h6⟩

/-- What `get_min_distance` returns when it returns a vertex. -/
theorem get_min_some {g : Graph} (h : g.WellFormed) {distance visited : Nat → Nat}
    {cur : Vertex} (hc : get_min_distance g distance visited = some cur) :
    g.HasVertex cur ∧ cur.index < g.nb_vertices ∧ visited cur.index = 0 ∧
    distance cur.index < INT_MAX ∧
    ∀ j, j < g.nb_vertices → visited j = 0 → distance cur.index ≤ distance j := by
  unfold get_min_distance at hc
  split at hc
  · cases hc
  · simp only at hc
    split at hc
    · cases hc
    · rename_i hne
      obtain ⟨h1, h2, h3⟩ :=
        min_scan_spec distance visited (List.range g.nb_vertices) (INT_MAX, INT_MAX)
      rcases h3 with h3 | ⟨h3, h4, h5, h6⟩
      · rw [h3] at hne; exact absurd rfl hne
      · have hlt : (min_scan distance visited (List.range g.nb_vertices)
            (INT_MAX, INT_MAX)).2 < g.nb_vertices := List.mem_range.1 h3
        obtain ⟨v, hv, hhv, hvi⟩ := find_index h hlt
        rw [hv] at hc
        cases hc
        rw [hvi]
        refine ⟨hhv, hlt, h4, ?_, ?_⟩
        · rw [h5]; exact h6
        · intro j hj hvj
          rw [h5]; exact h1 j (List.mem_range.2 hj) hvj

/-- What holds when `get_min_distance` returns `NULL` on a graph whose vertex
count does not reach the `INT_MAX` used for "no index". -/
theorem get_min_none {g : Graph} (h : g.WellFormed) (hsize : g.nb_vertices ≤ INT_MAX)
    {distance visited : Nat → Nat}
    (hc : get_min_distance g distance visited = none) :
    ∀ j, j < g.nb_vertices → visited j = 0 → INT_MAX ≤ distance j := by
  intro j hj hvj
  unfold get_min_distance at hc
  split at hc
  · rename_i hnil
    have := wf_length h
    rw [hnil] at this
    simp at this
    omega
  · simp only at hc
    obtain ⟨h1, h2, h3⟩ :=
      min_scan_spec distance visited (List.range g.nb_vertices) (INT_MAX, INT_MAX)
    split at hc
    · rename_i heq
      rcases h3 with h3 | ⟨h3, h4, h5, h6⟩
      · have := h1 j (List.mem_range.2 hj) hvj
        rw [h3] at this; exact this
      · have := List.mem_range.1 h3
        omega
    · rename_i hne
      rcases h3 with h3 | ⟨h3, h4, h5, h6⟩
      · rw [h3] at hne; exact absurd rfl hne
      · exfalso
        obtain ⟨v, hv, -, -⟩ := find_index h (List.mem_range.1 h3)
        rw [hv] at hc
        cases hc

theorem countP_lt_of_imp {α : Type} (p q : α → Bool) (l : List α) (a : α)
    (himp : ∀ x ∈ l, p x = true → q x = true) (ha : a ∈ l) (hq : q a = true)
    (hp : p a = false) : l.countP p < l.countP q := by
  induction l with
  | nil => cases ha
  | cons x xs ih =>
    have hle : xs.countP p ≤ xs.countP q := by
      apply List.countP_mono_left
      intro y hy hpy
      exact himp y (List.mem_cons_of_mem _ hy) hpy
    rcases List.mem_cons.1 ha with rfl | hmem
    · rw [List.countP_cons_of_neg _ _ (by simp [hp]), List.countP_cons_of_pos _ _ hq]
      omega
    · have := ih (fun y hy => himp y (List.mem_cons_of_mem _ hy)) hmem
      rw [List.countP_cons, List.countP_cons]
      have hx := himp x (List.mem_cons_self _ _)
      by_cases hpx : p x = true
      · simp [hpx, hx hpx]; omega
      · simp [hpx]; omega

theorem unvisited_count_le (g : Graph) (visited : Nat → Nat) :
    unvisited_count g visited ≤ g.nb_vertices := by
  unfold unvisited_count
  calc _ ≤ (List.range g.nb_vertices).length := List.countP_le_length _
    _ = g.nb_vertices := List.length_range _

theorem unvisited_count_mark (g : Graph) (visited : Nat → Nat) (i : Nat)
    (hi : i < g.nb_vertices) (hv : visited i = 0) :
    unvisited_count g (Function.update visited i 1) < unvisited_count g visited := by
  unfold unvisited_count
  apply countP_lt_of_imp _ _ _ i
  · intro x _ hx
    simp only [decide_eq_true_eq] at hx ⊢
    by_cases hxi : x = i
    · subst hxi; simp at hx
    · rwa [Function.update_noteq hxi] at hx
  · exact List.mem_range.2 hi
  · simpa using hv
  · simp

/-! ## Routes -/

theorem mem_weights {g : Graph} {u : Nat} {x : Vertex} (hx : g.deref u = some x)
    {e : Edge} (he : e ∈ x.edges) : e.weight ∈ g.weights u e.dest := by
  unfold Graph.weights
  rw [hx]
  simp only [List.mem_map, List.mem_filter, decide_eq_true_eq]
  exact ⟨e, ⟨he, rfl⟩, rfl⟩

theorem hasEdge_of_mem {g : Graph} {u v : Nat} {w : Int} (h : w ∈ g.weights u v) :
    g.HasEdge u v := by
  unfold Graph.HasEdge
  exact List.ne_nil_of_mem h

theorem route_self {g : Graph} {s : Nat} (hs : s < g.nb_vertices) : g.IsRoute s s [s] := by
  refine ⟨rfl, rfl, ?_, List.chain'_singleton _⟩
  intro u hu
  rw [List.mem_singleton.1 hu]; exact hs

theorem route_snoc {g : Graph} {s u v : Nat} {p : List Nat} (hp : g.IsRoute s u p)
    (he : g.HasEdge u v) (hv : v < g.nb_vertices) : g.IsRoute s v (p ++ [v]) := by
  obtain ⟨h1, h2, h3, h4⟩ := hp
  refine ⟨?_, ?_, ?_, ?_⟩
  · cases p with
    | nil => cases h1
    | cons a as => simpa using h1
  · simp
  · intro x hx
    rcases List.mem_append.1 hx with hx | hx
    · exact h3 x hx
    · rw [List.mem_singleton.1 hx]; exact hv
  · apply List.Chain'.append h4 (List.chain'_singleton _)
    intro x hx y hy
    rw [h2] at hx
    simp at hx hy
    subst hx; subst hy
    exact he

theorem reachable_snoc {g : Graph} {s u v : Nat} (hu : g.Reachable s u)
    (he : g.HasEdge u v) (hv : v < g.nb_vertices) : g.Reachable s v := by
  obtain ⟨p, hp⟩ := hu
  exact ⟨p ++ [v], route_snoc hp he hv⟩

/-! ## The relaxation loop, for any weights -/

theorem relax_visited (current : Vertex) (i : Nat) (es : List Edge) (st : DState) :
    (relax_edges current i es st).visited = st.visited := by
  induction es generalizing st with
  | nil => rfl
  | cons e es ih =>
    unfold relax_edges
    split
    · simp only
      split
      · rw [ih]
      · rw [ih]
    · rfl

theorem relax_winv {g : Graph} {s : Nat} {current : Vertex}
    (hcur : g.HasVertex current) (hreach : g.Reachable s current.index)
    (es : List Edge) (hes : ∀ e ∈ es, e ∈ current.edges ∧ e.dest < g.nb_vertices)
    (st : DState) (hst : WInv g s st) :
    WInv g s (relax_edges current current.index es st) := by
  induction es generalizing st with
  | nil => exact hst
  | cons e es ih =>
    have hes' : ∀ e ∈ es, e ∈ current.edges ∧ e.dest < g.nb_vertices :=
      fun e he => hes e (List.mem_cons_of_mem _ he)
    obtain ⟨hemem, hedest⟩ := hes e (List.mem_cons_self _ _)
    unfold relax_edges
    split
    · simp only
      split
      · rename_i hgt
        apply ih hes'
        have hne : s ≠ e.dest := by
          intro heq
          rw [← heq, hst.d_start] at hgt
          omega
        have hr : g.Reachable s e.dest :=
          reachable_snoc hreach (hasEdge_of_mem (mem_weights hcur hemem)) hedest
        constructor
        · simp only
          rw [Function.update_noteq hne]; exact hst.d_start
        · simp only
          rw [Function.update_noteq hne]; exact hst.via_start
        · intro v hv
          simp only at hv
          by_cases hve : v = e.dest
          · rw [hve]; exact hr
          · rw [Function.update_noteq hve] at hv; exact hst.reach_d v hv
        · intro v x hv
          simp only at hv
          by_cases hve : v = e.dest
          · rw [hve]; exact hr
          · rw [Function.update_noteq hve] at hv; exact hst.reach_via v x hv
      · exact ih hes' st hst
    · exact hst

/-! ## The search loop -/

/-- Induction rule for `recursive_dijkstra`: a property kept by every
selection step holds on return, the fuel `nb_vertices + 1` is enough, and the
search stops because the target is visited or no vertex can be selected. -/
theorem recursive_dijkstra_rule {g : Graph} (h : g.WellFormed) (target : Vertex)
    (P : DState → Prop)
    (step : ∀ st cur, P st → get_min_distance g st.distance st.visited = some cur →
      P { relax_edges cur cur.index cur.edges st with
          visited := Function.update (relax_edges cur cur.index cur.edges st).visited
            cur.index 1 }) :
    ∀ fuel st, P st → unvisited_count g st.visited < fuel →
      ∃ st1, recursive_dijkstra g target fuel st = some st1 ∧ P st1 ∧
        (st1.visited target.index = 1 ∨
          get_min_distance g st1.distance st1.visited = none) := by
  intro fuel
  induction fuel with
  | zero => intro st _ hf; omega
  | succ fuel ih =>
    intro st hP hf
    unfold recursive_dijkstra
    cases hmin : get_min_distance g st.distance st.visited with
    | none => exact ⟨st, rfl, hP, Or.inr hmin⟩
    | some cur =>
      simp only
      have hP2 := step st cur hP hmin
      obtain ⟨-, hlt, hv0, -, -⟩ := get_min_some h hmin
      split
      · rename_i hvis
        exact ⟨_, rfl, hP2, Or.inl hvis⟩
      · apply ih _ hP2
        simp only
        rw [relax_visited]
        have := unvisited_count_mark g st.visited cur.index hlt hv0
        omega

theorem winv_init {g : Graph} {start : Vertex} (hs : start.index < g.nb_vertices) :
    WInv g start.index (init_dijkstra start) := by
  constructor
  · simp [init_dijkstra]
  · rfl
  · intro v hv
    by_cases hvs : v = start.index
    · rw [hvs]; exact ⟨[start.index], route_self hs⟩
    · simp [init_dijkstra, Function.update_noteq hvs] at hv
  · intro v x hv
    cases hv

theorem winv_step {g : Graph} (h : g.WellFormed) {s : Nat} (st : DState) (cur : Vertex)
    (hst : WInv g s st) (hmin : get_min_distance g st.distance st.visited = some cur) :
    WInv g s { relax_edges cur cur.index cur.edges st with
      visited := Function.update (relax_edges cur cur.index cur.edges st).visited
        cur.index 1 } := by
  obtain ⟨hcur, -, -, hd, -⟩ := get_min_some h hmin
  have hes : ∀ e ∈ cur.edges, e ∈ cur.edges ∧ e.dest < g.nb_vertices :=
    fun e he => ⟨he, (h.2 cur (deref_mem hcur) e he).1⟩
  have := relax_winv hcur (hst.reach_d _ hd) cur.edges hes st hst
  exact ⟨this.d_start, this.via_start, this.reach_d, this.reach_via⟩

/-- The search returns, whatever the weights, in a state that satisfies the
weak invariant. -/
theorem recursive_dijkstra_winv {g : Graph} (h : g.WellFormed) {start : Vertex}
    (target : Vertex) (hs : g.HasVertex start) :
    ∃ st, recursive_dijkstra g target (g.nb_vertices + 1) (init_dijkstra start) = some st ∧
      WInv g start.index st := by
  obtain ⟨st, h1, h2, -⟩ := recursive_dijkstra_rule h target (WInv g start.index)
    (fun st cur => winv_step h st cur) (g.nb_vertices + 1) (init_dijkstra start)
    (winv_init (hasVertex_lt h hs))
    (Nat.lt_succ_of_le (unvisited_count_le g _))
  exact ⟨st, h1, h2⟩

/-- When the target has no predecessor after the search, the result is
`NULL`. -/
theorem dijkstra_graph_of_via_none {g : Graph} {start target : Vertex} {st : DState}
    (hrun : recursive_dijkstra g target (g.nb_vertices + 1) (init_dijkstra start) = some st)
    (hvia : st.path_via target.index = none) :
    dijkstra_graph g start target = some none := by
  unfold dijkstra_graph
  rw [hrun]
  simp only
  unfold insert_into_queue
  rw [hvia]

theorem dijkstra_unreachable {g : Graph} (h : g.WellFormed) {start target : Vertex}
    (hs : g.HasVertex start) (hno : ¬ g.Reachable start.index target.index) :
    dijkstra_graph g start target = some none := by
  obtain ⟨st, hrun, hinv⟩ := recursive_dijkstra_winv h target hs
  apply dijkstra_graph_of_via_none hrun
  cases hv : st.path_via target.index with
  | none => rfl
  | some x => exact absurd (hinv.reach_via _ x hv) hno

theorem dijkstra_same_vertex {g : Graph} (h : g.WellFormed) {v : Vertex}
    (hv : g.HasVertex v) : dijkstra_graph g v v = some none := by
  obtain ⟨st, hrun, hinv⟩ := recursive_dijkstra_winv h v hv
  exact dijkstra_graph_of_via_none hrun hinv.via_start

/-- A vertex without incoming edges cannot be reached from another vertex. -/
theorem not_reachable_of_no_incoming {g : Graph} {s t : Nat} (hst : s ≠ t)
    (hin : ∀ u ∈ List.range g.nb_vertices, ¬ g.HasEdge u t) : ¬ g.Reachable s t := by
  rintro ⟨p, h1, h2, h3, h4⟩
  rcases List.eq_nil_or_concat p with rfl | ⟨q, b, rfl⟩
  · cases h1
  · rw [List.concat_eq_append] at h1 h2 h3 h4
    rw [List.getLast?_concat] at h2
    cases h2
    rcases List.eq_nil_or_concat q with rfl | ⟨r, a, rfl⟩
    · simp at h1; exact hst h1.symm
    · rw [List.concat_eq_append] at h1 h3 h4
      have ha : a < g.nb_vertices := h3 a (by simp)
      have hch : g.HasEdge a t := by
        rw [List.append_assoc] at h4
        have := (List.chain'_append.1 h4).2.1
        simpa using this
      exact hin a (List.mem_range.2 ha) hch

/-! ## The relaxation loop, for non-negative weights -/

theorem add_weight_nonneg {d : Nat} {w : Int} (hd : d < INT_MAX) (h0 : 0 ≤ w)
    (h1 : w ≤ 2147483647) : ((add_weight d w : Nat) : Int) = d + w := by
  unfold add_weight SIZE_MOD
  unfold INT_MAX at hd
  have hlt : (d : Int) + w < ((2 ^ 64 : Nat) : Int) := by
    have : ((2 ^ 64 : Nat) : Int) = 18446744073709551616 := by norm_num
    omega
  have hnn : 0 ≤ (d : Int) + w := by omega
  rw [Int.emod_eq_of_lt hnn hlt]
  exact Int.toNat_of_nonneg hnn

theorem relax_mono (current : Vertex) (i : Nat) (es : List Edge) (st : DState) (v : Nat) :
    (relax_edges current i es st).distance v ≤ st.distance v := by
  induction es generalizing st with
  | nil => exact Nat.le_refl _
  | cons e es ih =>
    unfold relax_edges
    split
    · simp only
      split
      · rename_i hgt
        refine Nat.le_trans (ih _) ?_
        simp only
        by_cases hve : v = e.dest
        · rw [hve, Function.update_same]; omega
        · rw [Function.update_noteq hve]
      · exact ih st
    · exact Nat.le_refl _

theorem relaxed_refl (g : Graph) (current : Vertex) (st : DState) :
    Relaxed g current st st :=
  ⟨rfl, fun _ => Nat.le_refl _, fun _ => Or.inl ⟨rfl, rfl⟩⟩

theorem relaxed_dist_self {g : Graph} {current : Vertex} {st st1 : DState}
    (hr : Relaxed g current st st1) :
    st1.distance current.index = st.distance current.index := by
  rcases hr.chg current.index with h | h
  · exact h.1
  · exact absurd rfl h.2.1

theorem relaxed_of_visited {g : Graph} {current : Vertex} {st st1 : DState}
    (hr : Relaxed g current st st1) {v : Nat} (hv : st.visited v = 1) :
    st1.distance v = st.distance v ∧ st1.path_via v = st.path_via v := by
  rcases hr.chg v with h | h
  · exact h
  · rw [hv] at h; exact absurd h.1 (by decide)

theorem relax_relaxed {g : Graph} (h : g.WellFormed) (hnn : g.NonNeg) {s : Nat}
    {st : DState} {rank : Nat → Nat} {K : Nat} (hinv : DInv g s st rank K)
    {current : Vertex} (hcur : g.HasVertex current) (hlt : current.index < g.nb_vertices)
    (hv0 : st.visited current.index = 0) (hd : st.distance current.index < INT_MAX)
    (es : List Edge) (hes : ∀ e ∈ es, e ∈ current.edges) (st1 : DState)
    (hr : Relaxed g current st st1) :
    Relaxed g current st (relax_edges current current.index es st1) ∧
    ∀ e ∈ es, ((relax_edges current current.index es st1).distance e.dest : Int) ≤
      st.distance current.index + e.weight := by
  induction es generalizing st1 with
  | nil => exact ⟨hr, fun e he => by cases he⟩
  | cons e es ih =>
    have hes' : ∀ e ∈ es, e ∈ current.edges := fun e he => hes e (List.mem_cons_of_mem _ he)
    have hemem := hes e (List.mem_cons_self _ _)
    obtain ⟨hedest, -, hwmax⟩ := h.2 current (deref_mem hcur) e hemem
    have hw0 := hnn current (deref_mem hcur) e hemem
    have hself := relaxed_dist_self hr
    have htemp : ((add_weight (st1.distance current.index) e.weight : Nat) : Int) =
        st.distance current.index + e.weight := by
      rw [hself]; exact add_weight_nonneg hd hw0 hwmax
    have hvis1 : st1.visited current.index = 0 := by rw [hr.vis]; exact hv0
    unfold relax_edges
    rw [if_pos hvis1]
    simp only
    split
    · rename_i hgt
      have hr' : Relaxed g current st
          { st1 with
            distance := Function.update st1.distance e.dest
              (add_weight (st1.distance current.index) e.weight),
            path_via := Function.update st1.path_via e.dest (some current) } := by
        have hle1 := hr.d_le e.dest
        constructor
        · exact hr.vis
        · intro v
          simp only
          by_cases hve : v = e.dest
          · rw [hve, Function.update_same]; omega
          · rw [Function.update_noteq hve]; exact hr.d_le v
        · intro v
          simp only
          by_cases hve : v = e.dest
          · right
            rw [hve, Function.update_same, Function.update_same]
            have hne : e.dest ≠ current.index := by
              intro heq
              rw [heq] at hgt
              omega
            refine ⟨?_, hne, hedest, rfl, by omega, e.weight, mem_weights hcur hemem, htemp⟩
            rcases hinv.v01 e.dest with h0 | h1
            · exact h0
            · exfalso
              have h2 := (relaxed_of_visited hr h1).1
              have h3 := hinv.sorted e.dest current.index h1 hv0 hlt
              omega
          · rw [Function.update_noteq hve, Function.update_noteq hve]
            exact hr.chg v
      obtain ⟨ih1, ih2⟩ := ih hes' _ hr'
      refine ⟨ih1, ?_⟩
      intro e' he'
      rcases List.mem_cons.1 he' with rfl | he'
      · have := relax_mono current current.index es
          { st1 with
            distance := Function.update st1.distance e'.dest
              (add_weight (st1.distance current.index) e'.weight),
            path_via := Function.update st1.path_via e'.dest (some current) } e'.dest
        simp only [Function.update_same] at this
        omega
      · exact ih2 e' he'
    · rename_i hngt
      obtain ⟨ih1, ih2⟩ := ih hes' _ hr
      refine ⟨ih1, ?_⟩
      intro e' he'
      rcases List.mem_cons.1 he' with rfl | he'
      · have := relax_mono current current.index es st1 e'.dest
        omega
      · exact ih2 e' he'

theorem weights_mem {g : Graph} {u v : Nat} {w : Int} (hw : w ∈ g.weights u v) :
    ∃ x, g.deref u = some x ∧ ∃ e ∈ x.edges, e.dest = v ∧ e.weight = w := by
  unfold Graph.weights at hw
  cases hx : g.deref u with
  | none => rw [hx] at hw; cases hw
  | some x =>
    rw [hx] at hw
    simp only [List.mem_map, List.mem_filter, decide_eq_true_eq] at hw
    obtain ⟨e, ⟨he, hd⟩, hew⟩ := hw
    exact ⟨x, rfl, e, he, hd, hew⟩

theorem weights_nonneg {g : Graph} (hnn : g.NonNeg) {u v : Nat} {w : Int}
    (hw : w ∈ g.weights u v) : 0 ≤ w := by
  obtain ⟨x, hx, e, he, -, rfl⟩ := weights_mem hw
  exact hnn x (deref_mem hx) e he

theorem dinv_init (g : Graph) (start : Vertex) :
    DInv g start.index (init_dijkstra start) (fun _ => 0) 0 := by
  constructor
  · simp [init_dijkstra]
  · intro v
    by_cases hv : v = start.index
    · simp [init_dijkstra, hv]
    · simp [init_dijkstra, Function.update_noteq hv]
  · intro v; left; rfl
  · intro v hv; cases hv
  · intro v x hv; cases hv
  · intro v hv hd
    simp [init_dijkstra, Function.update_noteq hv] at hd
  · intro u hu; cases hu
  · intro u v hu; cases hu
  · intro u hu; cases hu
  · have := unvisited_count_le g (init_dijkstra start).visited
    omega

theorem dinv_step {g : Graph} (h : g.WellFormed) (hnn : g.NonNeg) {s : Nat}
    (st : DState) (cur : Vertex)
    (hP : ∃ rank K, DInv g s st rank K)
    (hmin : get_min_distance g st.distance st.visited = some cur) :
    ∃ rank K, DInv g s { relax_edges cur cur.index cur.edges st with
      visited := Function.update (relax_edges cur cur.index cur.edges st).visited
        cur.index 1 } rank K := by
  obtain ⟨rank, K, hinv⟩ := hP
  obtain ⟨hcur, hlt, hv0, hd, hminimal⟩ := get_min_some h hmin
  obtain ⟨hr, hclosed⟩ := relax_relaxed h hnn hinv hcur hlt hv0 hd cur.edges
    (fun e he => he) st (relaxed_refl g cur st)
  have hself := relaxed_dist_self hr
  generalize relax_edges cur cur.index cur.edges st = st1 at hr hclosed hself ⊢
  have hvis := hr.vis
  have hne_of_vis : ∀ u, st.visited u = 1 → u ≠ cur.index := by
    intro u hu heq
    rw [heq, hv0] at hu
    exact absurd hu (by decide)
  have hvis2 : ∀ u, Function.update st1.visited cur.index 1 u = 1 →
      u = cur.index ∨ (u ≠ cur.index ∧ st.visited u = 1) := by
    intro u hu
    by_cases huc : u = cur.index
    · exact Or.inl huc
    · rw [Function.update_noteq huc, hvis] at hu
      exact Or.inr ⟨huc, hu⟩
  refine ⟨Function.update rank cur.index K, K + 1, ?_⟩
  constructor
  · have := hr.d_le s
    rw [hinv.d_start] at this
    simp only
    omega
  · intro v
    exact Nat.le_trans (hr.d_le v) (hinv.d_le v)
  · intro v
    simp only
    by_cases hvc : v = cur.index
    · right; rw [hvc, Function.update_same]
    · rw [Function.update_noteq hvc, hvis]; exact hinv.v01 v
  · intro v hv
    simp only at hv ⊢
    rcases hvis2 v hv with hvc | ⟨-, hv1⟩
    · rw [hvc, hself]; exact hd
    · exact Nat.lt_of_le_of_lt (hr.d_le v) (hinv.v_dist v hv1)
  · intro v x hvx
    simp only at hvx ⊢
    rcases hr.chg v with ⟨hd1, hp1⟩ | ⟨hu0, hvne, hvlt, hp1, hd1, w, hw, hdw⟩
    · rw [hp1] at hvx
      obtain ⟨a1, a2, a3, a4, a5, a6, w, hw, a7⟩ := hinv.via v x hvx
      have hxne := hne_of_vis _ a2
      refine ⟨a1, ?_, a3, a4, by omega, ?_, w, hw, ?_⟩
      · rw [Function.update_noteq hxne, hvis]; exact a2
      · intro hv2
        rw [Function.update_noteq hxne]
        rcases hvis2 v hv2 with hvc | ⟨hvc, hv1⟩
        · rw [hvc, Function.update_same]; exact hinv.rank_lt _ a2
        · rw [Function.update_noteq hvc]; exact a6 hv1
      · rw [hd1, (relaxed_of_visited hr a2).1]; exact a7
    · rw [hp1] at hvx
      cases hvx
      have hdle := hinv.d_le v
      refine ⟨hcur, by rw [Function.update_same], ?_, hvlt, by omega, ?_, w, hw, ?_⟩
      · intro hvs
        rw [hvs, hinv.d_start] at hd1
        omega
      · intro hv2
        rcases hvis2 v hv2 with hvc | ⟨-, hv1⟩
        · exact absurd hvc hvne
        · rw [hu0] at hv1; exact absurd hv1 (by decide)
      · rw [hself]; exact hdw
  · intro v hvs hdv
    simp only at hdv ⊢
    rcases hr.chg v with ⟨hd1, hp1⟩ | ⟨-, -, -, hp1, -, -⟩
    · rw [hp1]; rw [hd1] at hdv; exact hinv.via_some v hvs hdv
    · rw [hp1]; simp
  · intro u hu v w hw
    simp only at hu ⊢
    rcases hvis2 u hu with huc | ⟨-, hu1⟩
    · subst huc
      obtain ⟨x, hx, e, he, hed, hew⟩ := weights_mem hw
      have hxc : x = cur := by
        unfold Graph.HasVertex at hcur
        rw [hcur] at hx
        exact (Option.some.inj hx).symm
      subst hxc
      have := hclosed e he
      rw [hed, hew] at this
      rw [hself]; exact this
    · have h1 := hinv.closed u hu1 v w hw
      have h2 := hr.d_le v
      rw [(relaxed_of_visited hr hu1).1]
      omega
  · intro u v hu hv hvlt
    simp only at hu hv ⊢
    have hvc : v ≠ cur.index := by
      intro heq
      rw [heq, Function.update_same] at hv
      exact absurd hv (by decide)
    rw [Function.update_noteq hvc, hvis] at hv
    have hcv : st.distance cur.index ≤ st1.distance v := by
      rcases hr.chg v with ⟨hd1, -⟩ | ⟨-, -, -, -, -, w, hw, hdw⟩
      · rw [hd1]; exact hminimal v hvlt hv
      · have := weights_nonneg hnn hw
        omega
    rcases hvis2 u hu with huc | ⟨-, hu1⟩
    · rw [huc, hself]; exact hcv
    · rw [(relaxed_of_visited hr hu1).1]
      exact Nat.le_trans (hinv.sorted u cur.index hu1 hv0 hlt) hcv
  · intro u hu
    simp only at hu
    rcases hvis2 u hu with huc | ⟨huc, hu1⟩
    · rw [huc, Function.update_same]; omega
    · rw [Function.update_noteq huc]
      have := hinv.rank_lt u hu1
      omega
  · simp only
    rw [hvis]
    have h1 := unvisited_count_mark g st.visited cur.index hlt hv0
    have h2 := hinv.k_le
    omega

/-- With non-negative weights the search returns in a state that satisfies the
strong invariant, having stopped for one of its two reasons. -/
theorem recursive_dijkstra_dinv {g : Graph} (h : g.WellFormed) (hnn : g.NonNeg)
    (start target : Vertex) :
    ∃ st rank K, recursive_dijkstra g target (g.nb_vertices + 1) (init_dijkstra start) = some st ∧
      DInv g start.index st rank K ∧
      (st.visited target.index = 1 ∨ get_min_distance g st.distance st.visited = none) := by
  obtain ⟨st, h1, ⟨rank, K, h2⟩, h3⟩ := recursive_dijkstra_rule h target
    (fun st => ∃ rank K, DInv g start.index st rank K)
    (fun st cur => dinv_step h hnn st cur) (g.nb_vertices + 1) (init_dijkstra start)
    ⟨_, _, dinv_init g start⟩
    (Nat.lt_succ_of_le (unvisited_count_le g _))
  exact ⟨st, rank, K, h1, h2, h3⟩

/-! ## Costs -/

theorem foldl_min_spec (ws : List Int) (w0 : Int) :
    ws.foldl min w0 ≤ w0 ∧ (∀ x ∈ ws, ws.foldl min w0 ≤ x) ∧
    (ws.foldl min w0 = w0 ∨ ws.foldl min w0 ∈ ws) := by
  induction ws generalizing w0 with
  | nil => simp
  | cons a as ih =>
    obtain ⟨h1, h2, h3⟩ := ih (min w0 a)
    simp only [List.foldl_cons]
    refine ⟨le_trans h1 (min_le_left _ _), ?_, ?_⟩
    · intro x hx
      rcases List.mem_cons.1 hx with rfl | hx
      · exact le_trans h1 (min_le_right _ _)
      · exact h2 x hx
    · rcases h3 with h3 | h3
      · rcases min_choice w0 a with hm | hm
        · left; rw [h3, hm]
        · right; rw [h3, hm]; exact List.mem_cons_self _ _
      · right; exact List.mem_cons_of_mem _ h3

theorem cheapest_mem {g : Graph} {u v : Nat} (he : g.HasEdge u v) :
    g.cheapest u v ∈ g.weights u v := by
  unfold Graph.HasEdge at he
  unfold Graph.cheapest
  split
  · rename_i hnil; exact absurd hnil he
  · rename_i w ws heq
    rw [heq]
    rcases (foldl_min_spec ws w).2.2 with h | h
    · rw [h]; exact List.mem_cons_self _ _
    · exact List.mem_cons_of_mem _ h

theorem cheapest_le {g : Graph} {u v : Nat} {w : Int} (hw : w ∈ g.weights u v) :
    g.cheapest u v ≤ w := by
  unfold Graph.cheapest
  split
  · rename_i hnil; rw [hnil] at hw; cases hw
  · rename_i w0 ws heq
    rw [heq] at hw
    rcases List.mem_cons.1 hw with rfl | hw
    · exact (foldl_min_spec ws w).1
    · exact (foldl_min_spec ws w0).2.1 w hw

theorem cheapest_eq {g : Graph} {u v : Nat} {w : Int} (hw : w ∈ g.weights u v)
    (hmin : ∀ x ∈ g.weights u v, w ≤ x) : g.cheapest u v = w :=
  le_antisymm (cheapest_le hw) (hmin _ (cheapest_mem (hasEdge_of_mem hw)))

theorem cheapest_nonneg {g : Graph} (hnn : g.NonNeg) (u v : Nat) : 0 ≤ g.cheapest u v := by
  by_cases he : g.HasEdge u v
  · exact weights_nonneg hnn (cheapest_mem he)
  · unfold Graph.HasEdge at he
    unfold Graph.cheapest
    simp only [ne_eq, not_not] at he
    rw [he]

theorem pathCost_nonneg {g : Graph} (hnn : g.NonNeg) (p : List Nat) : 0 ≤ g.pathCost p := by
  induction p with
  | nil => simp [Graph.pathCost]
  | cons a as ih =>
    cases as with
    | nil => simp [Graph.pathCost]
    | cons b bs =>
      simp only [Graph.pathCost]
      have := cheapest_nonneg hnn a b
      omega

theorem pathCost_snoc (g : Graph) (l : List Nat) (a b : Nat) :
    g.pathCost (l ++ [a, b]) = g.pathCost (l ++ [a]) + g.cheapest a b := by
  induction l with
  | nil => simp [Graph.pathCost]
  | cons x xs ih =>
    cases xs with
    | nil => simp [Graph.pathCost]
    | cons y ys =>
      have e1 : (x :: y :: ys) ++ [a, b] = x :: y :: (ys ++ [a, b]) := rfl
      have e2 : (x :: y :: ys) ++ [a] = x :: y :: (ys ++ [a]) := rfl
      have e3 : (y :: ys) ++ [a, b] = y :: (ys ++ [a, b]) := rfl
      have e4 : (y :: ys) ++ [a] = y :: (ys ++ [a]) := rfl
      rw [e3, e4] at ih
      rw [e1, e2, Graph.pathCost, Graph.pathCost, ih]
      omega

/-! ## Lower bound: no route is cheaper than the distances found -/

theorem route_lower_bound {g : Graph} (hnn : g.NonNeg) {s : Nat} {st : DState}
    {rank : Nat → Nat} {K : Nat} (hinv : DInv g s st rank K) (p : List Nat) (u : Nat)
    (hhead : p.head? = some u) (hchain : List.Chain' g.HasEdge p) :
    ∃ x ∈ p, (st.distance x : Int) ≤ st.distance u + g.pathCost p ∧
      (p.getLast? = some x ∨ st.visited x = 0) := by
  induction p generalizing u with
  | nil => cases hhead
  | cons a as ih =>
    simp at hhead
    subst hhead
    cases as with
    | nil =>
      exact ⟨a, List.mem_cons_self _ _, by simp [Graph.pathCost], Or.inl rfl⟩
    | cons b bs =>
      have hcost := pathCost_nonneg hnn (a :: b :: bs)
      rcases hinv.v01 a with h0 | h1
      · exact ⟨a, List.mem_cons_self _ _, by omega, Or.inr h0⟩
      · have hab : g.HasEdge a b := (List.chain'_cons.1 hchain).1
        have hcl := hinv.closed a h1 b _ (cheapest_mem hab)
        obtain ⟨x, hx, hxd, hxl⟩ := ih b rfl (List.chain'_cons.1 hchain).2
        refine ⟨x, List.mem_cons_of_mem _ hx, ?_, ?_⟩
        · simp only [Graph.pathCost]
          omega
        · rcases hxl with hxl | hxl
          · left; rw [List.getLast?_cons_cons]; exact hxl
          · right; exact hxl

/-! ## Reconstruction of the path -/

theorem insert_loop_spec {g : Graph} (h : g.WellFormed) {start : Vertex} {st : DState}
    {rank : Nat → Nat} {K : Nat} (hinv : DInv g start.index st rank K) :
    ∀ r i x acc fuel, st.path_via i = some x → rank x.index ≤ r → r < fuel →
      ∃ p, insert_loop g st.path_via start fuel i acc = some (p.map g.label ++ acc) ∧
        p.head? = some start.index ∧ p.getLast? = some x.index ∧
        List.Chain' g.HasEdge (p ++ [i]) ∧
        (∀ u ∈ p, st.visited u = 1 ∧ rank u ≤ r ∧ u < g.nb_vertices) ∧
        p.Nodup ∧ g.pathCost (p ++ [i]) = (st.distance i : Int) := by
  intro r
  induction r using Nat.strong_induction_on with
  | _ r ih =>
    intro i x acc fuel hvia hrank hfuel
    obtain ⟨a1, a2, a3, a4, a5, a6, w, hw, a7⟩ := hinv.via i x hvia
    have hxlt := hasVertex_lt h a1
    have hedge : g.HasEdge x.index i := hasEdge_of_mem hw
    have hcheap : g.cheapest x.index i = w := by
      apply cheapest_eq hw
      intro w1 hw1
      have := hinv.closed x.index a2 i w1 hw1
      omega
    cases fuel with
    | zero => omega
    | succ fuel =>
      unfold insert_loop
      rw [hvia]
      simp only
      rw [if_pos a4]
      split
      · rename_i hxs
        refine ⟨[x.index], ?_, ?_, rfl, ?_, ?_, List.nodup_singleton _, ?_⟩
        · simp [label_of_hasVertex a1]
        · simp [hxs]
        · simpa using hedge
        · intro u hu
          rw [List.mem_singleton.1 hu]
          exact ⟨a2, hrank, hxlt⟩
        · have hd0 : st.distance x.index = 0 := by rw [hxs]; exact hinv.d_start
          simp [Graph.pathCost, hcheap]
          omega
      · rename_i hxs
        have hdx := hinv.v_dist x.index a2
        cases hy : st.path_via x.index with
        | none => exact absurd hy (hinv.via_some x.index hxs hdx)
        | some y =>
          obtain ⟨b1, b2, b3, b4, b5, b6, -⟩ := hinv.via x.index y hy
          have hry := b6 a2
          obtain ⟨p, c1, c2, c3, c4, c5, c6, c7⟩ :=
            ih (rank y.index) (by omega) x.index y (x.content :: acc) fuel hy
              (Nat.le_refl _) (by omega)
          have hpne : p ≠ [] := by
            intro hnil; rw [hnil] at c2; cases c2
          refine ⟨p ++ [x.index], ?_, ?_, ?_, ?_, ?_, ?_, ?_⟩
          · rw [c1]; simp [label_of_hasVertex a1]
          · rw [List.head?_append_of_ne_nil _ hpne]; exact c2
          · simp
          · apply List.Chain'.append c4 (List.chain'_singleton _)
            intro a ha b hb
            simp at ha hb
            subst ha; subst hb
            exact hedge
          · intro u hu
            rcases List.mem_append.1 hu with hu | hu
            · obtain ⟨d1, d2, d3⟩ := c5 u hu
              exact ⟨d1, by omega, d3⟩
            · rw [List.mem_singleton.1 hu]
              exact ⟨a2, hrank, hxlt⟩
          · rw [List.nodup_append]
            refine ⟨c6, List.nodup_singleton _, ?_⟩
            intro a ha hb
            rw [List.mem_singleton.1 hb] at ha
            have := (c5 _ ha).2.1
            omega
          · rw [List.append_assoc]
            have : [x.index] ++ [i] = [x.index, i] := rfl
            rw [this, pathCost_snoc, c7, hcheap]
            omega

/-- The two possible results of `dijkstra_graph` on a graph with non-negative
weights, read off the arrays the search ends with. -/
theorem dijkstra_graph_result {g : Graph} (h : g.WellFormed) (hnn : g.NonNeg)
    (start : Vertex) {target : Vertex} (ht : g.HasVertex target) :
    ∃ st rank K, DInv g start.index st rank K ∧
      (st.visited target.index = 1 ∨ get_min_distance g st.distance st.visited = none) ∧
      ((st.path_via target.index = none ∧ dijkstra_graph g start target = some none) ∨
       (st.distance target.index < INT_MAX ∧
        ∃ p, dijkstra_graph g start target = some (some (p.map g.label)) ∧
          g.IsSimplePath start.index target.index p ∧
          g.pathCost p = (st.distance target.index : Int))) := by
  obtain ⟨st, rank, K, hrun, hinv, hstop⟩ := recursive_dijkstra_dinv h hnn start target
  refine ⟨st, rank, K, hinv, hstop, ?_⟩
  cases hvia : st.path_via target.index with
  | none => exact Or.inl ⟨rfl, dijkstra_graph_of_via_none hrun hvia⟩
  | some x =>
    right
    obtain ⟨a1, a2, a3, a4, a5, a6, -⟩ := hinv.via _ x hvia
    have hrk := hinv.rank_lt _ a2
    have hk := hinv.k_le
    obtain ⟨p, c1, c2, c3, c4, c5, c6, c7⟩ :=
      insert_loop_spec h hinv (rank x.index) target.index x [target.content]
        (g.nb_vertices + 1) hvia (Nat.le_refl _) (by omega)
    have hpne : p ≠ [] := by
      intro hnil; rw [hnil] at c2; cases c2
    refine ⟨a5, p ++ [target.index], ?_, ⟨⟨?_, ?_, ?_, c4⟩, ?_⟩, c7⟩
    · unfold dijkstra_graph
      rw [hrun]
      simp only
      unfold insert_into_queue
      rw [hvia]
      simp only
      rw [c1]
      have hq : p.map g.label ++ [target.content] = (p ++ [target.index]).map g.label := by
        simp [label_of_hasVertex ht]
      rw [hq]
      cases hpq : (p ++ [target.index]).map g.label with
      | nil => simp at hpq
      | cons a as => rfl
    · rw [List.head?_append_of_ne_nil _ hpne]; exact c2
    · simp
    · intro u hu
      rcases List.mem_append.1 hu with hu | hu
      · exact (c5 u hu).2.2
      · rw [List.mem_singleton.1 hu]; exact a4
    · rw [List.nodup_append]
      refine ⟨c6, List.nodup_singleton _, ?_⟩
      intro a ha hb
      rw [List.mem_singleton.1 hb] at ha
      obtain ⟨d1, d2, -⟩ := c5 _ ha
      rcases hinv.v01 target.index with h0 | h1
      · rw [h0] at d1; exact absurd d1 (by decide)
      · have := a6 h1
        omega

/-! ## Specification of `dijkstra_graph` for non-negative weights -/

theorem hasVertex_eq_of_index {g : Graph} {a b : Vertex} (ha : g.HasVertex a)
    (hb : g.HasVertex b) (hab : a.index = b.index) : a = b := by
  unfold Graph.HasVertex at ha hb
  rw [hab, hb] at ha
  exact (Option.some.inj ha).symm

/-- Full description of the result for distinct start and target on a graph
with non-negative weights and at most `INT_MAX` vertices: `NULL` when every
route costs `INT_MAX` or more, otherwise the labels of a cheapest route, which
is a simple path of cost below `INT_MAX`. -/
theorem dijkstra_graph_spec {g : Graph} (h : g.WellFormed) (hnn : g.NonNeg)
    (hsize : g.nb_vertices ≤ INT_MAX) {start target : Vertex}
    (ht : g.HasVertex target) (hne : start.index ≠ target.index) :
    (dijkstra_graph g start target = some none ∧
      ∀ p, g.IsRoute start.index target.index p → (INT_MAX : Int) ≤ g.pathCost p) ∨
    (∃ p, dijkstra_graph g start target = some (some (p.map g.label)) ∧
      g.IsSimplePath start.index target.index p ∧ g.pathCost p < (INT_MAX : Int) ∧
      ∀ q, g.IsRoute start.index target.index q → g.pathCost p ≤ g.pathCost q) := by
  obtain ⟨st, rank, K, hinv, hstop, hres⟩ := dijkstra_graph_result h hnn start ht
  have htlt := hasVertex_lt h ht
  -- every route is bounded below by an unvisited vertex on it or by its end
  have hbound : ∀ q, g.IsRoute start.index target.index q →
      ∃ x, x < g.nb_vertices ∧ (st.distance x : Int) ≤ g.pathCost q ∧
        (x = target.index ∨ st.visited x = 0) := by
    intro q hq
    obtain ⟨x, hx, hxd, hxl⟩ := route_lower_bound hnn hinv q start.index hq.1 hq.2.2.2
    rw [hinv.d_start] at hxd
    refine ⟨x, hq.2.2.1 x hx, by simpa using hxd, ?_⟩
    rcases hxl with hxl | hxl
    · left
      rw [hq.2.1] at hxl
      exact (Option.some.inj hxl).symm
    · right; exact hxl
  rcases hres with ⟨hvia, hnull⟩ | ⟨hdist, p, hp, hsimple, hcost⟩
  · left
    refine ⟨hnull, ?_⟩
    intro q hq
    by_contra hlt
    have hdt : st.distance target.index < INT_MAX := by
      rcases hstop with hvis | hmin
      · exact hinv.v_dist _ hvis
      · have hnone := get_min_none h hsize hmin
        obtain ⟨x, hxlt, hxd, hx⟩ := hbound q hq
        rcases hx with rfl | hx0
        · omega
        · have := hnone x hxlt hx0
          omega
    exact hinv.via_some _ (Ne.symm hne) hdt hvia
  · right
    refine ⟨p, hp, hsimple, by omega, ?_⟩
    intro q hq
    rw [hcost]
    have hvis : st.visited target.index = 1 := by
      rcases hstop with hvis | hmin
      · exact hvis
      · rcases hinv.v01 target.index with h0 | h1
        · have := get_min_none h hsize hmin target.index htlt h0
          omega
        · exact h1
    obtain ⟨x, hxlt, hxd, hx⟩ := hbound q hq
    rcases hx with rfl | hx0
    · exact hxd
    · have := hinv.sorted target.index x hvis hx0 hxlt
      omega

/-- The optimality part for any start and target, equal or not. -/
theorem dijkstra_graph_optimal {g : Graph} (h : g.WellFormed) (hnn : g.NonNeg)
    (hsize : g.nb_vertices ≤ INT_MAX) {start target : Vertex}
    (hs : g.HasVertex start) (ht : g.HasVertex target) :
    (∃ r, dijkstra_graph g start target = some r) ∧
    ∀ q, dijkstra_graph g start target = some (some q) →
      ∃ p, q = p.map g.label ∧ g.IsSimplePath start.index target.index p ∧
        ∀ p1, g.IsSimplePath start.index target.index p1 → g.pathCost p ≤ g.pathCost p1 := by
  by_cases hne : start.index = target.index
  · have heq := hasVertex_eq_of_index hs ht hne
    subst heq
    have := dijkstra_same_vertex h hs
    refine ⟨⟨_, this⟩, ?_⟩
    intro q hq
    rw [this] at hq
    cases hq
  · rcases dijkstra_graph_spec h hnn hsize ht hne with ⟨h1, -⟩ | ⟨p, h1, h2, -, h3⟩
    · refine ⟨⟨_, h1⟩, ?_⟩
      intro q hq
      rw [h1] at hq
      cases hq
    · refine ⟨⟨_, h1⟩, ?_⟩
      intro q hq
      rw [h1] at hq
      cases hq
      exact ⟨p, rfl, h2, fun p1 hp1 => h3 p1 hp1.1⟩

/-- The shape of a returned path, without a bound on the vertex count. -/
theorem dijkstra_graph_shape {g : Graph} (h : g.WellFormed) (hnn : g.NonNeg)
    {start target : Vertex} (hs : g.HasVertex start) (ht : g.HasVertex target) :
    (∃ r, dijkstra_graph g start target = some r) ∧
    ∀ q, dijkstra_graph g start target = some (some q) →
      q.head? = some start.content ∧ q.getLast? = some target.content ∧
      ∃ p, q = p.map g.label ∧ g.IsSimplePath start.index target.index p := by
  obtain ⟨st, rank, K, hinv, hstop, hres⟩ := dijkstra_graph_result h hnn start ht
  rcases hres with ⟨-, h1⟩ | ⟨-, p, h1, h2, -⟩
  · refine ⟨⟨_, h1⟩, ?_⟩
    intro q hq
    rw [h1] at hq
    cases hq
  · refine ⟨⟨_, h1⟩, ?_⟩
    intro q hq
    rw [h1] at hq
    cases hq
    refine ⟨?_, ?_, p, rfl, h2⟩
    · rw [List.head?_map, h2.1.1]
      simp [label_of_hasVertex hs]
    · rw [List.getLast?_map, h2.1.2.1]
      simp [label_of_hasVertex ht]

/-! ## Mirrored graphs -/

theorem mirrored_weights {g : Graph} (hm : g.Mirrored) {u v : Nat} {w : Int}
    (hw : w ∈ g.weights u v) (h : g.WellFormed) : w ∈ g.weights v u := by
  obtain ⟨x, hx, e, he, hed, hew⟩ := weights_mem hw
  have := hm x (deref_mem hx) e he
  rw [hed, hew, (wf_index h hx).1] at this
  exact this

theorem mirrored_hasEdge {g : Graph} (h : g.WellFormed) (hm : g.Mirrored) {u v : Nat}
    (he : g.HasEdge u v) : g.HasEdge v u :=
  hasEdge_of_mem (mirrored_weights hm (cheapest_mem he) h)

theorem mirrored_cheapest {g : Graph} (h : g.WellFormed) (hm : g.Mirrored) (u v : Nat) :
    g.cheapest u v = g.cheapest v u := by
  by_cases he : g.HasEdge u v
  · have he2 := mirrored_hasEdge h hm he
    apply le_antisymm
    · exact cheapest_le (mirrored_weights hm (cheapest_mem he2) h)
    · exact cheapest_le (mirrored_weights hm (cheapest_mem he) h)
  · have he2 : ¬ g.HasEdge v u := fun h2 => he (mirrored_hasEdge h hm h2)
    unfold Graph.HasEdge at he he2
    simp only [ne_eq, not_not] at he he2
    unfold Graph.cheapest
    rw [he, he2]

theorem mirrored_pathCost_reverse {g : Graph} (h : g.WellFormed) (hm : g.Mirrored)
    (p : List Nat) : g.pathCost p.reverse = g.pathCost p := by
  induction p with
  | nil => rfl
  | cons a as ih =>
    cases as with
    | nil => rfl
    | cons b bs =>
      have e1 : (a :: b :: bs).reverse = bs.reverse ++ [b, a] := by simp
      have e2 : (b :: bs).reverse = bs.reverse ++ [b] := by simp
      rw [e2] at ih
      rw [e1, pathCost_snoc, ih, Graph.pathCost, mirrored_cheapest h hm b a]
      omega

theorem mirrored_route_reverse {g : Graph} (h : g.WellFormed) (hm : g.Mirrored)
    {s t : Nat} {p : List Nat} (hp : g.IsRoute s t p) : g.IsRoute t s p.reverse := by
  obtain ⟨h1, h2, h3, h4⟩ := hp
  refine ⟨?_, ?_, ?_, ?_⟩
  · rw [List.head?_reverse]; exact h2
  · rw [List.getLast?_reverse]; exact h1
  · intro u hu
    exact h3 u (List.mem_reverse.1 hu)
  · rw [List.chain'_reverse]
    exact h4.imp (fun {a b} hab => mirrored_hasEdge h hm hab)

/-- On a mirrored graph the two directions agree: both results are `NULL`, or
both are paths of the same cost. -/
theorem dijkstra_graph_mirrored {g : Graph} (h : g.WellFormed) (hnn : g.NonNeg)
    (hsize : g.nb_vertices ≤ INT_MAX) (hm : g.Mirrored) {a b : Vertex}
    (ha : g.HasVertex a) (hb : g.HasVertex b) :
    (dijkstra_graph g a b = some none ∧ dijkstra_graph g b a = some none) ∨
    (∃ pa pb, dijkstra_graph g a b = some (some (pa.map g.label)) ∧
      dijkstra_graph g b a = some (some (pb.map g.label)) ∧
      g.IsSimplePath a.index b.index pa ∧ g.IsSimplePath b.index a.index pb ∧
      g.pathCost pa = g.pathCost pb) := by
  by_cases hne : a.index = b.index
  · have heq := hasVertex_eq_of_index ha hb hne
    subst heq
    exact Or.inl ⟨dijkstra_same_vertex h ha, dijkstra_same_vertex h ha⟩
  · have hne2 : b.index ≠ a.index := fun e => hne e.symm
    rcases dijkstra_graph_spec h hnn hsize hb hne with ⟨h1, h2⟩ | ⟨pa, h1, h2, h3, h4⟩
    · rcases dijkstra_graph_spec h hnn hsize ha hne2 with ⟨k1, k2⟩ | ⟨pb, k1, k2, k3, k4⟩
      · exact Or.inl ⟨h1, k1⟩
      · exfalso
        have := h2 _ (mirrored_route_reverse h hm k2.1)
        rw [mirrored_pathCost_reverse h hm] at this
        omega
    · rcases dijkstra_graph_spec h hnn hsize ha hne2 with ⟨k1, k2⟩ | ⟨pb, k1, k2, k3, k4⟩
      · exfalso
        have := k2 _ (mirrored_route_reverse h hm h2.1)
        rw [mirrored_pathCost_reverse h hm] at this
        omega
      · right
        refine ⟨pa, pb, h1, k1, h2, k2, ?_⟩
        have c1 := h4 _ (mirrored_route_reverse h hm k2.1)
        have c2 := k4 _ (mirrored_route_reverse h hm h2.1)
        rw [mirrored_pathCost_reverse h hm] at c1 c2
        omega

/-! ## Graph backtracking -/

theorem unmarked_count_le (g : Graph) (visited : Nat → Int) :
    unmarked_count g visited ≤ g.nb_vertices := by
  unfold unmarked_count
  calc _ ≤ (List.range g.nb_vertices).length := List.countP_le_length _
    _ = g.nb_vertices := List.length_range _

theorem unmarked_count_mark (g : Graph) (visited : Nat → Int) (i : Nat)
    (hi : i < g.nb_vertices) (hv : visited i = 0) :
    unmarked_count g (Function.update visited i 1) < unmarked_count g visited := by
  unfold unmarked_count
  apply countP_lt_of_imp _ _ _ i
  · intro x _ hx
    simp only [decide_eq_true_eq] at hx ⊢
    by_cases hxi : x = i
    · subst hxi; simp at hx
    · rwa [Function.update_noteq hxi] at hx
  · exact List.mem_range.2 hi
  · simpa using hv
  · simp

theorem hasEdge_dest {g : Graph} {c : Vertex} (hc : g.HasVertex c) {v : Nat}
    (he : g.HasEdge c.index v) : ∃ e ∈ c.edges, e.dest = v := by
  obtain ⟨x, hx, e, hexs, hed, -⟩ := weights_mem (cheapest_mem he)
  unfold Graph.HasVertex at hc
  rw [hc] at hx
  cases hx
  exact ⟨e, hexs, hed⟩

/-- The loop over the edges of `cur`, given that every call made with the
remaining fuel meets `BTOutcome`. -/
theorem explore_edges_spec {g : Graph} (h : g.WellFormed) (target : Vertex) {cur : Vertex}
    (hcur : g.HasVertex cur)
    (call : List String → (Nat → Int) → Option Vertex → Option BTResult)
    (vis : Nat → Int) (path : List String)
    (hcall : ∀ d, g.HasVertex d →
      ∃ r, call path vis (some d) = some r ∧ BTOutcome g target path vis d.index r)
    (es : List Edge) (hes : ∀ e ∈ es, e ∈ cur.edges) :
    ∃ r, explore_edges g call cur es path vis = some r ∧
      ((r.found = false ∧ r.path = path ∧
          r.visited = Function.update vis cur.index 0 ∧
          ∀ e ∈ es, ∀ p, ¬ g.OpenRoute target vis e.dest p) ∨
       (r.found = true ∧ ∃ e ∈ es, ∃ p, r.path = cur.content :: (p.map g.label ++ path) ∧
          g.OpenRoute target vis e.dest p ∧ p.Nodup ∧
          ∀ i, r.visited i = if i ∈ p.dropLast then 1 else vis i)) := by
  induction es with
  | nil =>
    refine ⟨_, rfl, Or.inl ⟨rfl, rfl, rfl, ?_⟩⟩
    intro e he; cases he
  | cons e es ih =>
    have hemem := hes e (List.mem_cons_self _ _)
    have hedest := (h.2 cur (deref_mem hcur) e hemem).1
    obtain ⟨d, hd, hdi⟩ := wf_deref h hedest
    have hdv : g.HasVertex d := by unfold Graph.HasVertex; rw [hdi]; exact hd
    obtain ⟨r1, hr1, hout⟩ := hcall d hdv
    rw [hdi] at hout
    unfold explore_edges
    rw [hd, hr1]
    simp only
    rcases hout with ⟨f1, f2, f3, f4⟩ | ⟨f1, p, f2, f3, f4, f5⟩
    · rw [if_neg (by simp [f1]), f2, f3]
      obtain ⟨r, hr, hres⟩ := ih (fun e he => hes e (List.mem_cons_of_mem _ he))
      refine ⟨r, hr, ?_⟩
      rcases hres with ⟨k1, k2, k3, k4⟩ | ⟨k1, e', he', p, k2⟩
      · left
        refine ⟨k1, k2, k3, ?_⟩
        intro e' he'
        rcases List.mem_cons.1 he' with rfl | he'
        · exact f4
        · exact k4 e' he'
      · right
        exact ⟨k1, e', List.mem_cons_of_mem _ he', p, k2⟩
    · rw [if_pos f1]
      refine ⟨_, rfl, Or.inr ⟨rfl, e, List.mem_cons_self _ _, p, ?_, f3, f4, f5⟩⟩
      simp only
      rw [f2]

/-- When no edge of `cur` starts an open route once `cur` is marked, and
`cur` does not carry the label of the target, no open route leaves `cur`. -/
theorem no_open_route_of_edges {g : Graph} {target cur : Vertex} (hcur : g.HasVertex cur)
    (vis : Nat → Int) (hlab : ¬ cur.content = target.content)
    (k4 : ∀ e ∈ cur.edges, ∀ p,
      ¬ g.OpenRoute target (Function.update vis cur.index 1) e.dest p) :
    ∀ n p, p.length = n → ¬ g.OpenRoute target vis cur.index p := by
  intro n
  induction n using Nat.strong_induction_on with
  | _ n ihn =>
    intro p hn hp
    obtain ⟨h1, h2, h3, t, h4, h5⟩ := hp
    cases p with
    | nil => cases h1
    | cons a rest =>
      simp at h1
      subst h1
      cases rest with
      | nil =>
        simp at h4
        subst h4
        rw [label_of_hasVertex hcur] at h5
        exact hlab h5
      | cons b bs =>
        by_cases hmem : cur.index ∈ b :: bs
        · obtain ⟨l1, l2, hl⟩ := List.append_of_mem hmem
          apply ihn (cur.index :: l2).length _ (cur.index :: l2) rfl
          · refine ⟨rfl, ?_, ?_, t, ?_, h5⟩
            · intro u hu
              apply h2 u
              rw [hl]
              exact List.mem_cons_of_mem _ (List.mem_append_right _ hu)
            · have hc2 := (List.chain'_cons.1 h3).2
              rw [hl] at hc2
              exact (List.chain'_append.1 hc2).2.1
            · rw [← h4, hl]
              rw [← List.cons_append, List.getLast?_append_of_ne_nil _ (by simp)]
          · subst hn
            rw [hl]
            simp
            omega
        · obtain ⟨e, he, hed⟩ := hasEdge_dest hcur (List.chain'_cons.1 h3).1
          apply k4 e he (b :: bs)
          refine ⟨by simp [hed], ?_, (List.chain'_cons.1 h3).2, t, ?_, h5⟩
          · intro u hu
            have hu2 := h2 u (List.mem_cons_of_mem _ hu)
            have hne : u ≠ cur.index := fun e => hmem (e ▸ hu)
            rw [Function.update_noteq hne]
            exact hu2
          · rw [← h4, List.getLast?_cons_cons]

theorem recursive_backtrack_graph_spec {g : Graph} (h : g.WellFormed) (target : Vertex) :
    ∀ fuel path vis cur, (∀ i, vis i = 0 ∨ vis i = 1) → g.HasVertex cur →
      unmarked_count g vis < fuel →
      ∃ r, recursive_backtrack_graph g target fuel path vis (some cur) = some r ∧
        BTOutcome g target path vis cur.index r := by
  intro fuel
  induction fuel with
  | zero => intro _ _ _ _ _ hf; omega
  | succ fuel ih =>
    intro path vis cur hv01 hcur hf
    have hclt := hasVertex_lt h hcur
    unfold recursive_backtrack_graph
    simp only
    split
    · rename_i hv1
      refine ⟨_, rfl, Or.inl ⟨rfl, rfl, rfl, ?_⟩⟩
      intro p hp
      obtain ⟨h1, h2, -, -⟩ := hp
      have hmem : cur.index ∈ p := by
        cases p with
        | nil => cases h1
        | cons a as => simp at h1; simp [h1]
      have := (h2 _ hmem).2
      rw [hv1] at this
      exact absurd this (by decide)
    · rename_i hv1
      have hv0 : vis cur.index = 0 := by
        rcases hv01 cur.index with h0 | h1
        · exact h0
        · exact absurd h1 hv1
      split
      · rename_i hlab
        refine ⟨_, rfl, Or.inr ⟨rfl, [cur.index], ?_, ⟨rfl, ?_, List.chain'_singleton _,
          cur.index, rfl, ?_⟩, List.nodup_singleton _, ?_⟩⟩
        · simp [label_of_hasVertex hcur]
        · intro u hu
          rw [List.mem_singleton.1 hu]; exact ⟨hclt, hv0⟩
        · rw [label_of_hasVertex hcur]; exact hlab
        · intro i; simp
      · rename_i hlab
        have hv01' : ∀ i, Function.update vis cur.index 1 i = 0 ∨
            Function.update vis cur.index 1 i = 1 := by
          intro i
          by_cases hic : i = cur.index
          · right; rw [hic, Function.update_same]
          · rw [Function.update_noteq hic]; exact hv01 i
        have hcnt := unmarked_count_mark g vis cur.index hclt hv0
        obtain ⟨r, hr, hres⟩ := explore_edges_spec h target hcur
          (recursive_backtrack_graph g target fuel) (Function.update vis cur.index 1) path
          (fun d hd => ih path _ d hv01' hd (by omega)) cur.edges (fun e he => he)
        refine ⟨r, hr, ?_⟩
        rcases hres with ⟨k1, k2, k3, k4⟩ | ⟨k1, e, he, p, k2, k3, k4, k5⟩
        · left
          refine ⟨k1, k2, ?_, ?_⟩
          · rw [k3]
            funext i
            by_cases hic : i = cur.index
            · rw [hic, Function.update_same, hv0]
            · rw [Function.update_noteq hic, Function.update_noteq hic]
          · exact fun p => no_open_route_of_edges hcur vis hlab k4 p.length p rfl
        · right
          obtain ⟨m1, m2, m3, t, m4, m5⟩ := k3
          have hpne : p ≠ [] := by
            intro hnil; rw [hnil] at m1; cases m1
          have hnot : cur.index ∉ p := by
            intro hmem
            have := (m2 _ hmem).2
            rw [Function.update_same] at this
            exact absurd this (by decide)
          refine ⟨k1, cur.index :: p, ?_, ⟨rfl, ?_, ?_, t, ?_, m5⟩, ?_, ?_⟩
          · rw [k2]; simp [label_of_hasVertex hcur]
          · intro u hu
            rcases List.mem_cons.1 hu with rfl | hu
            · exact ⟨hclt, hv0⟩
            · have hne : u ≠ cur.index := fun e => hnot (e ▸ hu)
              have := m2 u hu
              rw [Function.update_noteq hne] at this
              exact this
          · cases p with
            | nil => exact absurd rfl hpne
            | cons b bs =>
              simp at m1
              apply List.chain'_cons.2 ⟨?_, m3⟩
              rw [m1]
              exact hasEdge_of_mem (mem_weights hcur he)
          · cases p with
            | nil => exact absurd rfl hpne
            | cons b bs => rw [List.getLast?_cons_cons]; exact m4
          · exact List.nodup_cons.2 ⟨hnot, k4⟩
          · intro i
            rw [k5 i]
            cases p with
            | nil => exact absurd rfl hpne
            | cons b bs =>
              rw [List.dropLast_cons₂]
              by_cases hic : i = cur.index
              · subst hic
                simp
              · rw [Function.update_noteq hic]
                simp [hic]

/-- The two possible results of `backtracking_graph`. -/
theorem backtracking_graph_spec {g : Graph} (h : g.WellFormed) {start : Vertex}
    (target : Vertex) (hs : g.HasVertex start) :
    (backtracking_graph g start target = some none ∧
      ∀ p, ¬ g.OpenRoute target (fun _ => 0) start.index p) ∨
    (∃ p, backtracking_graph g start target = some (some (p.map g.label)) ∧
      g.OpenRoute target (fun _ => 0) start.index p ∧ p.Nodup) := by
  obtain ⟨r, hr, hout⟩ := recursive_backtrack_graph_spec h target (g.nb_vertices + 1) []
    (fun _ => 0) start (fun _ => Or.inl rfl) hs
    (Nat.lt_succ_of_le (unmarked_count_le g _))
  unfold backtracking_graph
  rw [hr]
  simp only
  rcases hout with ⟨f1, -, -, f4⟩ | ⟨f1, p, f2, f3, f4, -⟩
  · left
    rw [if_neg (by simp [f1])]
    exact ⟨rfl, f4⟩
  · right
    rw [if_pos f1, f2]
    exact ⟨p, by simp, f3, f4⟩

theorem backtracking_graph_same (g : Graph) (v : Vertex) :
    backtracking_graph g v v = some (some [v.content]) := by
  simp [backtracking_graph, recursive_backtrack_graph]

theorem label_injective {g : Graph} (h : g.WellFormed) (hd : g.DistinctLabels)
    {i j : Nat} (hi : i < g.nb_vertices) (hj : j < g.nb_vertices)
    (hij : g.label i = g.label j) : i = j := by
  obtain ⟨vi, hvi, -⟩ := wf_deref h hi
  obtain ⟨vj, hvj, -⟩ := wf_deref h hj
  have hlen := wf_length h
  unfold Graph.label at hij
  rw [hvi, hvj] at hij
  simp only at hij
  unfold Graph.DistinctLabels at hd
  unfold Graph.deref at hvi hvj
  have hi2 : i < (g.vertices.map Vertex.content).length := by simp; omega
  have hj2 : j < (g.vertices.map Vertex.content).length := by simp; omega
  have e1 : (g.vertices.map Vertex.content)[i] = vi.content := by
    rw [List.getElem_map]
    have := @List.getElem?_eq_getElem _ g.vertices i (by omega)
    rw [hvi] at this
    rw [← Option.some.inj this]
  have e2 : (g.vertices.map Vertex.content)[j] = vj.content := by
    rw [List.getElem_map]
    have := @List.getElem?_eq_getElem _ g.vertices j (by omega)
    rw [hvj] at this
    rw [← Option.some.inj this]
  exact (List.Nodup.getElem_inj_iff hd).1 (by rw [e1, e2, hij])

theorem openRoute_isRoute {g : Graph} {target : Vertex} {vis : Nat → Int} {c : Nat}
    {p : List Nat} (hp : g.OpenRoute target vis c p) :
    ∃ t, g.label t = target.content ∧ g.IsRoute c t p := by
  obtain ⟨h1, h2, h3, t, h4, h5⟩ := hp
  exact ⟨t, h5, h1, h4, fun u hu => (h2 u hu).1, h3⟩

theorem isRoute_openRoute {g : Graph} {target : Vertex} (ht : g.HasVertex target)
    {c : Nat} {p : List Nat} (hp : g.IsRoute c target.index p) :
    g.OpenRoute target (fun _ => 0) c p :=
  ⟨hp.1, fun u hu => ⟨hp.2.2.1 u hu, rfl⟩, hp.2.2.2, target.index, hp.2.1,
    label_of_hasVertex ht⟩

/-- With pairwise distinct labels the result is `NULL` exactly when the target
cannot be reached from the start. -/
theorem backtracking_graph_absent_iff {g : Graph} (h : g.WellFormed)
    (hd : g.DistinctLabels) {start target : Vertex} (hs : g.HasVertex start)
    (ht : g.HasVertex target) :
    (∃ r, backtracking_graph g start target = some r) ∧
    (backtracking_graph g start target = some none ↔
      ¬ g.Reachable start.index target.index) := by
  rcases backtracking_graph_spec h target hs with ⟨h1, h2⟩ | ⟨p, h1, h2, -⟩
  · refine ⟨⟨_, h1⟩, fun _ => ?_, fun _ => h1⟩
    rintro ⟨p, hp⟩
    exact h2 p (isRoute_openRoute ht hp)
  · refine ⟨⟨_, h1⟩, fun hnone => ?_, fun hno => ?_⟩
    · rw [h1] at hnone
      cases hnone
    · exfalso
      obtain ⟨t, hlab, hroute⟩ := openRoute_isRoute h2
      have htlt : t < g.nb_vertices := by
        apply hroute.2.2.1
        exact List.mem_of_mem_getLast? hroute.2.1
      have hteq : t = target.index := by
        apply label_injective h hd htlt (hasVertex_lt h ht)
        rw [hlab, label_of_hasVertex ht]
      rw [hteq] at hroute
      exact hno ⟨p, hroute⟩

/-! ## Reading and writing grid cells -/

theorem zero_ne_nul : (Char.ofNat 0) ≠ '0' := by decide

theorem one_ne_zero_char : ('1' : Char) ≠ '0' := by decide

/-- An open cell lies inside the stored characters. -/
theorem get_zero_bounds {m : Grid} {x y : Int} (h : m.get x y = '0') :
    0 ≤ x ∧ 0 ≤ y ∧ ∃ row, m[y.toNat]? = some row ∧ x.toNat < row.length ∧
      row[x.toNat]? = some '0' := by
  unfold Grid.get at h
  split at h
  · rename_i hxy
    refine ⟨hxy.1, hxy.2, ?_⟩
    rw [List.getD_eq_getElem?_getD, List.getD_eq_getElem?_getD] at h
    cases hrow : m[y.toNat]? with
    | none =>
      rw [hrow] at h
      simp at h
    | some row =>
      rw [hrow] at h
      simp only [Option.getD_some] at h
      cases hc : row[x.toNat]? with
      | none =>
        rw [hc] at h
        simp at h
      | some c =>
        rw [hc] at h
        simp only [Option.getD_some] at h
        rw [h] at hc
        refine ⟨row, rfl, ?_, hc⟩
        by_contra hge
        rw [List.getElem?_eq_none (by omega)] at hc
        cases hc
  · exact absurd h zero_ne_nul

theorem get_put_self {m : Grid} {x y : Int} (h : m.get x y = '0') (c : Char) :
    (m.put x y c).get x y = c := by
  obtain ⟨hx, hy, row, hrow, hlt, -⟩ := get_zero_bounds h
  have hylt : y.toNat < m.length := by
    by_contra hge
    rw [List.getElem?_eq_none (by omega)] at hrow
    cases hrow
  unfold Grid.get Grid.put
  rw [if_pos ⟨hx, hy⟩, if_pos ⟨hx, hy⟩]
  simp only [List.getD_eq_getElem?_getD]
  rw [List.getElem?_set_self hylt, hrow]
  simp only [Option.getD_some]
  rw [List.getElem?_set_self hlt]
  rfl

theorem get_put_other (m : Grid) (x y a b : Int) (c : Char) (hne : ¬ (a = x ∧ b = y)) :
    (m.put x y c).get a b = m.get a b := by
  unfold Grid.get Grid.put
  by_cases hxy : 0 ≤ x ∧ 0 ≤ y
  · simp only [if_pos hxy]
    by_cases hab : 0 ≤ a ∧ 0 ≤ b
    · simp only [if_pos hab, List.getD_eq_getElem?_getD]
      by_cases hyb : y.toNat = b.toNat
      · have hax : x.toNat ≠ a.toNat := by
          intro hxa
          apply hne
          constructor <;> omega
        rw [hyb]
        by_cases hlt : b.toNat < m.length
        · rw [List.getElem?_set_self hlt]
          simp only [Option.getD_some]
          rw [List.getElem?_set_ne hax]
        · rw [List.set_eq_of_length_le (by omega)]
      · rw [List.getElem?_set_ne hyb]
    · simp only [if_neg hab]
  · simp only [if_neg hxy]

theorem count_set_zero (row : List Char) (i : Nat) (h : row[i]? = some '0') :
    (row.set i '1').count '0' + 1 = row.count '0' := by
  induction row generalizing i with
  | nil => simp at h
  | cons a as ih =>
    cases i with
    | zero =>
      simp at h
      subst h
      simp [List.count_cons]
    | succ i =>
      simp at h
      have := ih i h
      simp only [List.set_cons_succ, List.count_cons]
      omega

theorem zeros_set (m : Grid) (j : Nat) (row row1 : List Char) (h : m[j]? = some row)
    (hc : row1.count '0' + 1 = row.count '0') :
    Grid.zeros (m.set j row1) + 1 = Grid.zeros m := by
  induction m generalizing j with
  | nil => simp at h
  | cons a as ih =>
    cases j with
    | zero =>
      simp at h
      subst h
      simp only [Grid.zeros, List.set_cons_zero, List.map_cons, List.sum_cons]
      omega
    | succ j =>
      simp at h
      have := ih j h
      simp only [Grid.zeros, List.set_cons_succ, List.map_cons, List.sum_cons] at this ⊢
      omega

theorem zeros_put {m : Grid} {x y : Int} (h : m.get x y = '0') :
    (m.put x y '1').zeros + 1 = m.zeros := by
  obtain ⟨hx, hy, row, hrow, hlt, hcell⟩ := get_zero_bounds h
  unfold Grid.put
  rw [if_pos ⟨hx, hy⟩]
  apply zeros_set m y.toNat row _ hrow
  rw [List.getD_eq_getElem?_getD, hrow]
  exact count_set_zero row x.toNat hcell

theorem gridSub_refl (m : Grid) : GridSub m m := ⟨fun _ _ h => h, Nat.le_refl _⟩

theorem gridSub_trans {m1 m2 m3 : Grid} (h12 : GridSub m1 m2) (h23 : GridSub m2 m3) :
    GridSub m1 m3 :=
  ⟨fun a b h => h12.1 a b (h23.1 a b h), Nat.le_trans h23.2 h12.2⟩

theorem gridSub_put {m : Grid} {x y : Int} (h : m.get x y = '0') :
    GridSub m (m.put x y '1') := by
  constructor
  · intro a b hab
    by_cases hne : a = x ∧ b = y
    · rw [hne.1, hne.2, get_put_self h] at hab
      exact absurd hab one_ne_zero_char
    · rw [get_put_other m x y a b '1' hne] at hab
      exact hab
  · have := zeros_put h
    omega

/-! ## Grid backtracking -/

/-- What the caller at `(x, y)` learns from the call made for its neighbour
`(a, b)` after it has claimed its own cell. -/
theorem backtrack_child {map map1 mapk : Grid} {rows cols : Int} {target : Point}
    {x y a b : Int} {path : List Point} {r : GridResult}
    (hopen : map.OpenAt rows cols ⟨x, y⟩)
    (h01 : GridSub map map1) (hclaimed : map1.get x y ≠ '0') (h1k : GridSub map1 mapk)
    (hadj : Point.Adjacent ⟨a, b⟩ ⟨x, y⟩)
    (hout : GridOutcome mapk rows cols target a b (⟨x, y⟩ :: path) r) :
    GridSub map1 r.map ∧
    ((r.found = false ∧ r.path = ⟨x, y⟩ :: path) ∨
     (r.found = true ∧ GridOutcome map rows cols target x y path r)) := by
  obtain ⟨hsub, hcase⟩ := hout
  have h1r := gridSub_trans h1k hsub
  refine ⟨h1r, ?_⟩
  rcases hcase with ⟨f, hp⟩ | ⟨f, p, hp, c1, c2, c3, c4, c5⟩
  · exact Or.inl ⟨f, hp⟩
  · right
    refine ⟨f, gridSub_trans h01 h1r, Or.inr ⟨f, p ++ [⟨x, y⟩], ?_, ?_, ?_, ?_, ?_, ?_⟩⟩
    · rw [hp]; simp
    · have hpne : p ≠ [] := by
        intro hnil; rw [hnil] at c1; cases c1
      rw [List.head?_append_of_ne_nil _ hpne]; exact c1
    · simp
    · intro q hq
      rcases List.mem_append.1 hq with hq | hq
      · obtain ⟨d1, d2, d3, d4, d5⟩ := c3 q hq
        exact ⟨d1, d2, d3, d4, h01.1 _ _ (h1k.1 _ _ d5)⟩
      · rw [List.mem_singleton.1 hq]; exact hopen
    · apply List.Chain'.append c4 (List.chain'_singleton _)
      intro u hu v hv
      rw [c2] at hu
      simp at hu hv
      subst hu; subst hv
      exact hadj
    · rw [List.nodup_append]
      refine ⟨c5, List.nodup_singleton _, ?_⟩
      intro q hq hq2
      rw [List.mem_singleton.1 hq2] at hq
      exact hclaimed (h1k.1 _ _ (c3 _ hq).2.2.2.2)

theorem backtrack_spec (rows cols : Int) (target : Point) :
    ∀ fuel map x y path, Grid.zeros map < fuel →
      ∃ r, backtrack fuel map rows cols target x y path = some r ∧
        GridOutcome map rows cols target x y path r := by
  intro fuel
  induction fuel with
  | zero => intro _ _ _ _ hf; omega
  | succ fuel ih =>
    intro map x y path hf
    unfold backtrack
    split
    · exact ⟨_, rfl, gridSub_refl map, Or.inl ⟨rfl, rfl⟩⟩
    · rename_i hg
      have hopen : map.OpenAt rows cols ⟨x, y⟩ := by
        unfold Grid.OpenAt
        simp only
        by_contra hcon
        apply hg
        by_cases h1 : x < 0
        · exact Or.inl h1
        · by_cases h2 : x ≥ cols
          · exact Or.inr (Or.inl h2)
          · by_cases h3 : y < 0
            · exact Or.inr (Or.inr (Or.inl h3))
            · by_cases h4 : y ≥ rows
              · exact Or.inr (Or.inr (Or.inr (Or.inl h4)))
              · refine Or.inr (Or.inr (Or.inr (Or.inr ?_)))
                intro h5
                exact hcon ⟨by omega, by omega, by omega, by omega, h5⟩
      have hcell : map.get x y = '0' := hopen.2.2.2.2
      have h01 := gridSub_put hcell
      have hclaimed : (map.put x y '1').get x y ≠ '0' := by
        rw [get_put_self hcell]; exact one_ne_zero_char
      have hz := zeros_put hcell
      simp only
      split
      · rename_i htgt
        refine ⟨_, rfl, h01, Or.inr ⟨rfl, [⟨x, y⟩], rfl, ?_, rfl, ?_,
          List.chain'_singleton _, List.nodup_singleton _⟩⟩
        · cases target
          simp only at htgt
          rw [htgt.1, htgt.2]
          rfl
        · intro q hq
          rw [List.mem_singleton.1 hq]; exact hopen
      · obtain ⟨r1, hr1, ho1⟩ := ih (map.put x y '1') (x + 1) y (⟨x, y⟩ :: path) (by omega)
        rw [hr1]
        simp only
        rcases backtrack_child hopen h01 hclaimed (gridSub_refl _)
          (show Point.Adjacent ⟨x + 1, y⟩ ⟨x, y⟩ from Or.inl ⟨rfl, Or.inl rfl⟩) ho1 with ⟨s1, ⟨f1, p1⟩ | ⟨f1, o1⟩⟩
        · rw [if_neg (by simp [f1]), p1]
          obtain ⟨r2, hr2, ho2⟩ := ih r1.map x (y + 1) (⟨x, y⟩ :: path)
            (by have := s1.2; omega)
          rw [hr2]
          simp only
          rcases backtrack_child hopen h01 hclaimed s1
            (show Point.Adjacent ⟨x, y + 1⟩ ⟨x, y⟩ from Or.inr ⟨rfl, Or.inl rfl⟩) ho2 with ⟨s2, ⟨f2, p2⟩ | ⟨f2, o2⟩⟩
          · rw [if_neg (by simp [f2]), p2]
            obtain ⟨r3, hr3, ho3⟩ := ih r2.map (x - 1) y (⟨x, y⟩ :: path)
              (by have := s2.2; omega)
            rw [hr3]
            simp only
            rcases backtrack_child hopen h01 hclaimed s2
              (show Point.Adjacent ⟨x - 1, y⟩ ⟨x, y⟩ from Or.inl ⟨rfl, Or.inr (by simp)⟩)
              ho3 with ⟨s3, ⟨f3, p3⟩ | ⟨f3, o3⟩⟩
            · rw [if_neg (by simp [f3]), p3]
              obtain ⟨r4, hr4, ho4⟩ := ih r3.map x (y - 1) (⟨x, y⟩ :: path)
                (by have := s3.2; omega)
              rw [hr4]
              simp only
              rcases backtrack_child hopen h01 hclaimed s3
                (show Point.Adjacent ⟨x, y - 1⟩ ⟨x, y⟩ from Or.inr ⟨rfl, Or.inr (by simp)⟩)
                ho4 with ⟨s4, ⟨f4, p4⟩ | ⟨f4, o4⟩⟩
              · rw [if_neg (by simp [f4]), p4]
                exact ⟨_, rfl, gridSub_trans h01 s4, Or.inl ⟨rfl, rfl⟩⟩
              · rw [if_pos f4]
                exact ⟨r4, rfl, o4⟩
            · rw [if_pos f3]
              exact ⟨r3, rfl, o3⟩
          · rw [if_pos f2]
            exact ⟨r2, rfl, o2⟩
        · rw [if_pos f1]
          exact ⟨r1, rfl, o1⟩

theorem zeros_le_size (m : Grid) : m.zeros ≤ m.size := by
  induction m with
  | nil => simp [Grid.zeros, Grid.size]
  | cons r rs ih =>
    have := List.count_le_length '0' r
    simp only [Grid.zeros, Grid.size, List.map_cons, List.sum_cons] at ih ⊢
    omega

theorem copy_map_rect {map : Grid} {rows cols : Int} (h : map.Rect rows cols) :
    copy_map map rows = map := by
  unfold copy_map
  apply List.take_of_length_le
  have := h.1
  omega

theorem adjacent_symm {a b : Point} (h : a.Adjacent b) : b.Adjacent a := by
  unfold Point.Adjacent at h ⊢
  rcases h with ⟨h1, h2⟩ | ⟨h1, h2⟩
  · exact Or.inl ⟨h1.symm, h2.symm⟩
  · exact Or.inr ⟨h1.symm, h2.symm⟩

/-- A trail of orthogonal steps that starts below row `k` and ends above it
has a point on row `k`. -/
theorem trail_crosses_up (k : Int) (q : List Point) (a b : Point)
    (hchain : List.Chain' Point.Adjacent q) (hhead : q.head? = some a)
    (hlast : q.getLast? = some b) (ha : a.y < k) (hb : k < b.y) :
    ∃ pt ∈ q, pt.y = k := by
  induction q generalizing a with
  | nil => cases hhead
  | cons c cs ih =>
    simp at hhead
    subst hhead
    cases cs with
    | nil =>
      simp at hlast
      subst hlast
      omega
    | cons d ds =>
      have hadj : c.Adjacent d := (List.chain'_cons.1 hchain).1
      by_cases hd : d.y = k
      · exact ⟨d, by simp, hd⟩
      · have hdlt : d.y < k := by
          unfold Point.Adjacent at hadj
          omega
        rw [List.getLast?_cons_cons] at hlast
        obtain ⟨pt, hpt, hk⟩ := ih d (List.chain'_cons.1 hchain).2 rfl hlast hdlt
        exact ⟨pt, List.mem_cons_of_mem _ hpt, hk⟩

/-- The same for a trail that starts above row `k` and ends below it. -/
theorem trail_crosses_down (k : Int) (q : List Point) (a b : Point)
    (hchain : List.Chain' Point.Adjacent q) (hhead : q.head? = some a)
    (hlast : q.getLast? = some b) (ha : k < a.y) (hb : b.y < k) :
    ∃ pt ∈ q, pt.y = k := by
  induction q generalizing a with
  | nil => cases hhead
  | cons c cs ih =>
    simp at hhead
    subst hhead
    cases cs with
    | nil =>
      simp at hlast
      subst hlast
      omega
    | cons d ds =>
      have hadj : c.Adjacent d := (List.chain'_cons.1 hchain).1
      by_cases hd : d.y = k
      · exact ⟨d, by simp, hd⟩
      · have hdlt : k < d.y := by
          unfold Point.Adjacent at hadj
          omega
        rw [List.getLast?_cons_cons] at hlast
        obtain ⟨pt, hpt, hk⟩ := ih d (List.chain'_cons.1 hchain).2 rfl hlast hdlt
        exact ⟨pt, List.mem_cons_of_mem _ hpt, hk⟩

/-- The two possible results of `backtracking_array` on a rectangular grid. -/
theorem backtracking_array_spec {map : Grid} {rows cols : Int} (h : map.Rect rows cols)
    (start target : Point) :
    backtracking_array map rows cols start target = some none ∨
    ∃ q, backtracking_array map rows cols start target = some (some q) ∧
      q.head? = some start ∧ q.getLast? = some target ∧
      (∀ pt ∈ q, map.OpenAt rows cols pt) ∧ List.Chain' Point.Adjacent q ∧ q.Nodup := by
  unfold backtracking_array
  simp only
  rw [copy_map_rect h]
  obtain ⟨r, hr, -, hcase⟩ := backtrack_spec rows cols target (map.size + 1) map
    start.x start.y [] (Nat.lt_succ_of_le (zeros_le_size map))
  rw [hr]
  simp only
  rcases hcase with ⟨f, -⟩ | ⟨f, p, hp, c1, c2, c3, c4, c5⟩
  · left
    rw [if_neg (by simp [f])]
  · right
    rw [if_pos f]
    simp only [List.append_nil] at hp
    refine ⟨_, rfl, ?_, ?_, ?_, ?_, ?_⟩
    · rw [hp, List.head?_reverse, c2]
    · rw [hp, List.getLast?_reverse, c1]
    · intro pt hpt
      rw [hp] at hpt
      exact c3 pt (List.mem_reverse.1 hpt)
    · rw [hp, List.chain'_reverse]
      exact c4.imp (fun {a b} hab => adjacent_symm hab)
    · rw [hp]
      exact List.nodup_reverse.2 c5


/-! ## The index `INT_MAX` -/

/-- When a single unvisited vertex has the lowest distance, and that distance
is below `INT_MAX`, `get_min_distance` returns this vertex, unless its index is
`INT_MAX`: then it returns `NULL`. -/
theorem get_min_unique {g : Graph} (h : g.WellFormed) (distance visited : Nat → Nat)
    {i : Nat} (hi : i < g.nb_vertices) (hv : visited i = 0) (hd : distance i < INT_MAX)
    (hu : ∀ j, j < g.nb_vertices → visited j = 0 → j ≠ i → distance i < distance j) :
    (i = INT_MAX → get_min_distance g distance visited = none) ∧
    (i ≠ INT_MAX → ∃ v, get_min_distance g distance visited = some v ∧
      g.HasVertex v ∧ v.index = i) := by
  obtain ⟨h1, h2, h3⟩ :=
    min_scan_spec distance visited (List.range g.nb_vertices) (INT_MAX, INT_MAX)
  have hle := h1 i (List.mem_range.2 hi) hv
  have hidx : (min_scan distance visited (List.range g.nb_vertices) (INT_MAX, INT_MAX)).2 = i := by
    rcases h3 with h3 | ⟨a1, a2, a3, a4⟩
    · rw [h3] at hle
      simp only at hle
      omega
    · by_contra hne
      have := hu _ (List.mem_range.1 a1) a2 hne
      omega
  have hne : g.vertices ≠ [] := by
    intro hnil
    have := wf_length h
    rw [hnil] at this
    simp at this
    omega
  unfold get_min_distance
  split
  · rename_i hnil; exact absurd hnil hne
  · simp only
    rw [hidx]
    constructor
    · intro hi2
      rw [if_pos hi2]
    · intro hi2
      rw [if_neg hi2]
      obtain ⟨v, hv1, hv2, hv3⟩ := find_index h hi
      exact ⟨v, hv1, hv2, hv3⟩

theorem huge_vertices_eq : huge.vertices = (List.range (INT_MAX + 1)).map huge_vertex := by
  unfold huge huge_vertices
  simp only

theorem huge_nb : huge.nb_vertices = INT_MAX + 1 := by
  unfold huge
  simp only

theorem huge_deref {i : Nat} (hi : i < INT_MAX + 1) : huge.deref i = some (huge_vertex i) := by
  unfold Graph.deref
  rw [huge_vertices_eq, List.getElem?_map, List.getElem?_range hi]
  simp only [Option.map_some']

theorem huge_hasVertex {i : Nat} (hi : i < INT_MAX + 1) : huge.HasVertex (huge_vertex i) :=
  huge_deref hi

theorem huge_mem {v : Vertex} (hv : v ∈ huge.vertices) :
    ∃ i, i < INT_MAX + 1 ∧ v = huge_vertex i := by
  rw [huge_vertices_eq, List.mem_map] at hv
  obtain ⟨i, hi, rfl⟩ := hv
  exact ⟨i, List.mem_range.1 hi, rfl⟩

theorem huge_edges_mem {i : Nat} {e : Edge} (he : e ∈ huge_edges i) :
    (i = 0 ∧ (e = ⟨1, 10⟩ ∨ e = ⟨INT_MAX, 1⟩)) ∨
    (i = 1 ∧ (e = ⟨0, 10⟩ ∨ e = ⟨INT_MAX, 1⟩)) ∨
    (i = INT_MAX ∧ (e = ⟨0, 1⟩ ∨ e = ⟨1, 1⟩)) := by
  unfold huge_edges at he
  split at he
  · rename_i h0
    simp at he
    exact Or.inl ⟨h0, he⟩
  · split at he
    · rename_i h1
      simp at he
      exact Or.inr (Or.inl ⟨h1, he⟩)
    · split at he
      · rename_i h2
        simp at he
        exact Or.inr (Or.inr ⟨h2, he⟩)
      · cases he

theorem huge_wf : huge.WellFormed := by
  constructor
  · rw [huge_vertices_eq, huge_nb, List.map_map]
    have : Vertex.index ∘ huge_vertex = id := rfl
    rw [this, List.map_id]
  · intro v hv e he
    obtain ⟨i, -, rfl⟩ := huge_mem hv
    rw [huge_nb]
    rcases huge_edges_mem he with ⟨-, rfl | rfl⟩ | ⟨-, rfl | rfl⟩ | ⟨-, rfl | rfl⟩ <;>
      simp [INT_MAX]

theorem huge_nonneg : huge.NonNeg := by
  intro v hv e he
  obtain ⟨i, -, rfl⟩ := huge_mem hv
  rcases huge_edges_mem he with ⟨-, rfl | rfl⟩ | ⟨-, rfl | rfl⟩ | ⟨-, rfl | rfl⟩ <;> simp

theorem weights_of_deref {g : Graph} {i : Nat} {x : Vertex} (hx : g.deref i = some x)
    (j : Nat) :
    g.weights i j = (x.edges.filter (fun e => e.dest = j)).map Edge.weight := by
  unfold Graph.weights
  rw [hx]

theorem huge_weights {i : Nat} (hi : i < INT_MAX + 1) (j : Nat) :
    huge.weights i j = ((huge_edges i).filter (fun e => e.dest = j)).map Edge.weight :=
  weights_of_deref (huge_deref hi) j

theorem huge_mirrored : huge.Mirrored := by
  intro v hv e he
  obtain ⟨i, -, rfl⟩ := huge_mem hv
  rcases huge_edges_mem he with ⟨hi, rfl | rfl⟩ | ⟨hi, rfl | rfl⟩ | ⟨hi, rfl | rfl⟩ <;>
    (simp only [huge_vertex, hi]
     rw [huge_weights (by simp [INT_MAX])]
     simp [huge_edges, INT_MAX])


theorem huge_vertex_of_index {v : Vertex} (hv : huge.HasVertex v) {i : Nat}
    (hi : i < INT_MAX + 1) (hvi : v.index = i) : v = huge_vertex i := by
  unfold Graph.HasVertex at hv
  rw [hvi, huge_deref hi] at hv
  exact (Option.some.inj hv).symm

theorem recursive_dijkstra_succ (g : Graph) (target : Vertex) (fuel : Nat) (st : DState) :
    recursive_dijkstra g target (fuel + 1) st =
      match get_min_distance g st.distance st.visited with
      | none => some st
      | some current =>
        if (Function.update (relax_edges current current.index current.edges st).visited
            current.index 1) target.index = 1 then
          some { relax_edges current current.index current.edges st with
            visited := Function.update
              (relax_edges current current.index current.edges st).visited current.index 1 }
        else
          recursive_dijkstra g target fuel
            { relax_edges current current.index current.edges st with
              visited := Function.update
                (relax_edges current current.index current.edges st).visited
                current.index 1 } := by
  rw [recursive_dijkstra]

/-- First selection on `huge` from vertex 0: vertex 0 itself. -/
theorem huge_select_first :
    get_min_distance huge (init_dijkstra (huge_vertex 0)).distance
      (init_dijkstra (huge_vertex 0)).visited = some (huge_vertex 0) := by
  have hlt : 0 < huge.nb_vertices := by rw [huge_nb]; exact Nat.succ_pos _
  obtain ⟨-, hsome⟩ := get_min_unique huge_wf
    (init_dijkstra (huge_vertex 0)).distance
    (init_dijkstra (huge_vertex 0)).visited hlt rfl
    (by simp [init_dijkstra, huge_vertex, INT_MAX])
    (by
      intro j _ _ hj
      simp [init_dijkstra, huge_vertex, Function.update_noteq hj, INT_MAX])
  obtain ⟨v, hv1, hv2, hv3⟩ := hsome (by simp [INT_MAX])
  rw [hv1, huge_vertex_of_index hv2 (Nat.succ_pos _) hv3]

/-- The relaxation of the two edges of vertex 0. -/
theorem huge_relax_first :
    { relax_edges (huge_vertex 0) (huge_vertex 0).index (huge_vertex 0).edges
        (init_dijkstra (huge_vertex 0)) with
      visited := Function.update
        (relax_edges (huge_vertex 0) (huge_vertex 0).index (huge_vertex 0).edges
          (init_dijkstra (huge_vertex 0))).visited (huge_vertex 0).index 1 } = huge_state := by
  have e1 : (huge_vertex 0).index = 0 := rfl
  have e2 : (huge_vertex 0).edges = [⟨1, 10⟩, ⟨INT_MAX, 1⟩] := rfl
  rw [e1, e2]
  simp [relax_edges, init_dijkstra, e1, add_weight, SIZE_MOD, INT_MAX, huge_state]

/-- Second selection: the unvisited vertex of lowest distance has index
`INT_MAX`, and `get_min_distance` returns `NULL`. -/
theorem huge_select_second :
    get_min_distance huge huge_state.distance huge_state.visited = none := by
  have hlt : INT_MAX < huge.nb_vertices := by rw [huge_nb]; exact Nat.lt_succ_self _
  obtain ⟨hnone, -⟩ := get_min_unique huge_wf huge_state.distance huge_state.visited hlt
    (by simp [huge_state, INT_MAX])
    (by simp [huge_state, INT_MAX])
    (by
      intro j _ hj hne
      have hj0 : j ≠ 0 := by
        intro h0
        rw [h0] at hj
        simp [huge_state] at hj
      by_cases hj1 : j = 1
      · subst hj1
        simp [huge_state, INT_MAX]
      · have hne2 : j ≠ 2147483647 := hne
        simp [huge_state, Function.update_noteq hne2, Function.update_noteq hj1,
          Function.update_noteq hj0, INT_MAX])
  exact hnone rfl

/-- The search on `huge` from vertex 0 stops after one step although vertices
1 and `INT_MAX` are not visited. -/
theorem huge_run (target : Vertex) (ht : target.index ≠ 0) :
    recursive_dijkstra huge target (huge.nb_vertices + 1) (init_dijkstra (huge_vertex 0)) =
      some huge_state := by
  rw [huge_nb, recursive_dijkstra_succ, huge_select_first]
  simp only
  rw [huge_relax_first]
  have hvis : ¬ (Function.update (relax_edges (huge_vertex 0) (huge_vertex 0).index
      (huge_vertex 0).edges (init_dijkstra (huge_vertex 0))).visited
      (huge_vertex 0).index 1) target.index = 1 := by
    have e1 : (huge_vertex 0).index = 0 := rfl
    rw [relax_visited, e1, Function.update_noteq ht]
    simp [init_dijkstra]
  rw [if_neg hvis, recursive_dijkstra_succ, huge_select_second]

theorem insert_loop_last (g : Graph) (path_via : Nat → Option Vertex) (start : Vertex)
    (fuel i : Nat) (path : List String) {v : Vertex} (h1 : path_via i = some v)
    (h2 : i < g.nb_vertices) (h3 : v.index = start.index) :
    insert_loop g path_via start (fuel + 1) i path = some (v.content :: path) := by
  rw [insert_loop, h1]
  simp only
  rw [if_pos h2, if_pos h3]

/-- The result when the predecessor of the target is the start itself. -/
theorem dijkstra_graph_of_via_start {g : Graph} {start target : Vertex} {st : DState}
    (hrun : recursive_dijkstra g target (g.nb_vertices + 1) (init_dijkstra start) = some st)
    {v : Vertex} (hvia : st.path_via target.index = some v)
    (ht : target.index < g.nb_vertices) (hv : v.index = start.index) :
    dijkstra_graph g start target = some (some [v.content, target.content]) := by
  unfold dijkstra_graph
  rw [hrun]
  simp only
  unfold insert_into_queue
  rw [hvia]
  simp only
  rw [insert_loop_last g st.path_via start g.nb_vertices target.index _ hvia ht hv]

theorem huge_dijkstra_0_1 :
    dijkstra_graph huge (huge_vertex 0) (huge_vertex 1) = some (some ["A", "B"]) := by
  have hvia : huge_state.path_via (huge_vertex 1).index = some (huge_vertex 0) := by
    simp [huge_state, huge_vertex, INT_MAX]
  have := dijkstra_graph_of_via_start (huge_run (huge_vertex 1) (by simp [huge_vertex]))
    hvia (by rw [huge_nb]; simp [huge_vertex, INT_MAX]) rfl
  rw [this]
  rfl

theorem huge_dijkstra_0_max :
    dijkstra_graph huge (huge_vertex 0) (huge_vertex INT_MAX) = some (some ["A", "Z"]) := by
  have hvia : huge_state.path_via (huge_vertex INT_MAX).index = some (huge_vertex 0) := by
    simp [huge_state, huge_vertex]
  have := dijkstra_graph_of_via_start
    (huge_run (huge_vertex INT_MAX) (by simp [huge_vertex, INT_MAX]))
    hvia (by rw [huge_nb]; simp [huge_vertex]) rfl
  rw [this]
  rfl

/-- From the vertex of index `INT_MAX` nothing is ever selected. -/
theorem huge_dijkstra_max_0 :
    dijkstra_graph huge (huge_vertex INT_MAX) (huge_vertex 0) = some none := by
  have hlt : INT_MAX < huge.nb_vertices := by rw [huge_nb]; exact Nat.lt_succ_self _
  obtain ⟨hnone, -⟩ := get_min_unique huge_wf
    (init_dijkstra (huge_vertex INT_MAX)).distance
    (init_dijkstra (huge_vertex INT_MAX)).visited hlt rfl
    (by simp [init_dijkstra, huge_vertex, INT_MAX])
    (by
      intro j _ _ hj
      have hj2 : j ≠ 2147483647 := hj
      simp [init_dijkstra, huge_vertex, Function.update_noteq hj2, INT_MAX])
  have hrun : recursive_dijkstra huge (huge_vertex 0) (huge.nb_vertices + 1)
      (init_dijkstra (huge_vertex INT_MAX)) = some (init_dijkstra (huge_vertex INT_MAX)) := by
    rw [recursive_dijkstra_succ, hnone rfl]
  exact dijkstra_graph_of_via_none hrun rfl

theorem cheapest_of_weights {g : Graph} {u v : Nat} {w : Int} {ws : List Int}
    (h : g.weights u v = w :: ws) : g.cheapest u v = ws.foldl min w := by
  unfold Graph.cheapest
  rw [h]

theorem hasEdge_of_weights {g : Graph} {u v : Nat} {w : Int} {ws : List Int}
    (h : g.weights u v = w :: ws) : g.HasEdge u v := by
  unfold Graph.HasEdge
  rw [h]
  exact List.cons_ne_nil _ _

theorem huge_weights_0_1 : huge.weights 0 1 = [10] := by
  rw [huge_weights (Nat.succ_pos _)]
  simp [huge_edges, INT_MAX]

theorem huge_weights_0_max : huge.weights 0 INT_MAX = [1] := by
  rw [huge_weights (Nat.succ_pos _)]
  simp [huge_edges, INT_MAX]

theorem huge_weights_max_1 : huge.weights INT_MAX 1 = [1] := by
  rw [huge_weights (Nat.lt_succ_self _)]
  simp [huge_edges, INT_MAX]

theorem huge_cheapest_0_1 : huge.cheapest 0 1 = 10 := by
  rw [cheapest_of_weights huge_weights_0_1]
  rfl

theorem huge_cheapest_0_max : huge.cheapest 0 INT_MAX = 1 := by
  rw [cheapest_of_weights huge_weights_0_max]
  rfl

theorem huge_cheapest_max_1 : huge.cheapest INT_MAX 1 = 1 := by
  rw [cheapest_of_weights huge_weights_max_1]
  rfl

/-- The route 0, `INT_MAX`, 1 of `huge` is a simple path of cost 2. -/
theorem huge_cheap_path :
    huge.IsSimplePath 0 1 [0, INT_MAX, 1] ∧ huge.pathCost [0, INT_MAX, 1] = 2 := by
  refine ⟨⟨⟨rfl, rfl, ?_, ?_⟩, ?_⟩, ?_⟩
  · intro u hu
    rw [huge_nb]
    simp [INT_MAX] at hu ⊢
    omega
  · have h1 : huge.HasEdge 0 INT_MAX := hasEdge_of_weights huge_weights_0_max
    have h2 : huge.HasEdge INT_MAX 1 := hasEdge_of_weights huge_weights_max_1
    exact List.chain'_cons.2 ⟨h1, List.chain'_cons.2 ⟨h2, List.chain'_singleton _⟩⟩
  · simp [INT_MAX]
  · rw [Graph.pathCost, Graph.pathCost, Graph.pathCost, huge_cheapest_0_max,
      huge_cheapest_max_1]
    rfl

/-! ## Evaluation on the scenarios of the specification -/

theorem scenario2_dijkstra :
    dijkstra_graph scenario2 scenario2_A scenario2_D = some (some ["A", "C", "D"]) := by
  decide

theorem scenario2_backtracking :
    backtracking_graph scenario2 scenario2_A scenario2_D = some (some ["A", "B", "D"]) := by
  decide

theorem scenario3_absent :
    dijkstra_graph scenario3 scenario3_A scenario3_E = some none ∧
    backtracking_graph scenario3 scenario3_A scenario3_E = some none := by
  decide

theorem scenario1_opening :
    ∃ q, backtracking_array scenario1 5 5 ⟨0, 0⟩ ⟨4, 4⟩ = some (some q) ∧
      (⟨3, 2⟩ : Point) ∈ q := by
  refine ⟨_, rfl, ?_⟩
  decide

/-! ## Claims -/

/-- C1: the returned path is not always a cheapest one. The graph `huge` is
well formed and has non-negative weights, `dijkstra_graph` from vertex 0 to
vertex 1 returns the queue A, B, which can only be read as the path 0, 1 of
cost 10, and the simple path 0, `INT_MAX`, 1 costs 2. The search stops early
because the vertex it should select next has the index `INT_MAX`, which
`get_min_distance` takes for "no index". -/
theorem c1_huge_graph_path_is_not_cheapest :
    huge.WellFormed ∧ huge.NonNeg ∧ huge.HasVertex (huge_vertex 0) ∧
    huge.HasVertex (huge_vertex 1) ∧
    dijkstra_graph huge (huge_vertex 0) (huge_vertex 1) = some (some ["A", "B"]) ∧
    ¬ ∃ p, ["A", "B"] = p.map huge.label ∧ huge.IsSimplePath 0 1 p ∧
      ∀ p1, huge.IsSimplePath 0 1 p1 → huge.pathCost p ≤ huge.pathCost p1 := by
  refine ⟨huge_wf, huge_nonneg, huge_hasVertex (Nat.succ_pos _),
    huge_hasVertex (by simp [INT_MAX]), huge_dijkstra_0_1, ?_⟩
  rintro ⟨p, hp, hsimple, hmin⟩
  have hlen : p.length = 2 := by
    have := congrArg List.length hp
    simpa using this.symm
  obtain ⟨a, b, rfl⟩ := List.length_eq_two.1 hlen
  have ha : a = 0 := by
    have := hsimple.1.1
    simpa using this
  have hb : b = 1 := by
    have := hsimple.1.2.1
    simpa using this
  subst ha; subst hb
  have h1 := hmin _ huge_cheap_path.1
  rw [huge_cheap_path.2, Graph.pathCost, Graph.pathCost, huge_cheapest_0_1] at h1
  omega

/-- C2: on a well-formed graph with non-negative weights a queue returned by
`dijkstra_graph` begins with the label of start, ends with the label of target
and is the sequence of labels of a route (each vertex has an edge to the
next) from start to target without repeated vertex. -/
theorem c2_dijkstra_path_shape (g : Graph) (start target : Vertex)
    (h : g.WellFormed) (hnn : g.NonNeg)
    (hs : g.HasVertex start) (ht : g.HasVertex target) :
    (∃ r, dijkstra_graph g start target = some r) ∧
    ∀ q, dijkstra_graph g start target = some (some q) →
      q.head? = some start.content ∧ q.getLast? = some target.content ∧
      ∃ p, q = p.map g.label ∧ g.IsSimplePath start.index target.index p :=
  dijkstra_graph_shape h hnn hs ht

/-- Witness of C2 on scenario 2, from D to A. -/
theorem c2_dijkstra_path_shape_witness :
    (scenario2.WellFormed ∧ scenario2.NonNeg ∧
      scenario2.HasVertex scenario2_D ∧ scenario2.HasVertex scenario2_A) ∧
    ((∃ r, dijkstra_graph scenario2 scenario2_D scenario2_A = some r) ∧
    ∀ q, dijkstra_graph scenario2 scenario2_D scenario2_A = some (some q) →
      q.head? = some "D" ∧ q.getLast? = some "A" ∧
      ∃ p, q = p.map scenario2.label ∧ scenario2.IsSimplePath 3 0 p) :=
  ⟨by decide, c2_dijkstra_path_shape scenario2 scenario2_D scenario2_A
    (by decide) (by decide) (by decide) (by decide)⟩

/-- C3 (the code departs from the claim): with start equal to target,
`dijkstra_graph` returns `NULL` instead of the one-element path; here on
scenario 2 with vertex A. -/
theorem c3_dijkstra_same_vertex_is_absent :
    dijkstra_graph scenario2 scenario2_A scenario2_A = some none ∧
    backtracking_graph scenario2 scenario2_A scenario2_A = some (some ["A"]) := by
  decide

/-- C4: on a well-formed graph, when the target cannot be reached from the
start vertex along directed edges (so that the two differ, a vertex reaching
itself), `dijkstra_graph` returns `NULL`, whatever the weights are. -/
theorem c4_dijkstra_unreachable_is_absent (g : Graph) (start target : Vertex)
    (h : g.WellFormed) (hs : g.HasVertex start)
    (hno : ¬ g.Reachable start.index target.index) :
    dijkstra_graph g start target = some none :=
  dijkstra_unreachable h hs hno

/-- Witness of C4 on scenario 3: E differs from A and has no incoming edge. -/
theorem c4_dijkstra_unreachable_is_absent_witness :
    (scenario3.WellFormed ∧ scenario3.HasVertex scenario3_A ∧
      scenario3.HasVertex scenario3_E ∧ scenario3_A.index ≠ scenario3_E.index ∧
      ¬ scenario3.Reachable scenario3_A.index scenario3_E.index) ∧
    dijkstra_graph scenario3 scenario3_A scenario3_E = some none :=
  ⟨⟨by decide, by decide, by decide, by decide,
      not_reachable_of_no_incoming (by decide) (by decide)⟩,
    c4_dijkstra_unreachable_is_absent scenario3 scenario3_A scenario3_E (by decide)
      (by decide) (not_reachable_of_no_incoming (by decide) (by decide))⟩

/-- C5: the two directions do not always agree. The graph `huge` is well
formed, has non-negative weights and every edge of it is mirrored;
`dijkstra_graph` returns the queue A, Z from vertex 0 to vertex `INT_MAX` and
`NULL` from vertex `INT_MAX` to vertex 0, because a start of index `INT_MAX` is
never selected. -/
theorem c5_huge_graph_directions_differ :
    huge.WellFormed ∧ huge.NonNeg ∧ huge.Mirrored ∧ huge.HasVertex (huge_vertex 0) ∧
    huge.HasVertex (huge_vertex INT_MAX) ∧
    dijkstra_graph huge (huge_vertex 0) (huge_vertex INT_MAX) = some (some ["A", "Z"]) ∧
    dijkstra_graph huge (huge_vertex INT_MAX) (huge_vertex 0) = some none :=
  ⟨huge_wf, huge_nonneg, huge_mirrored, huge_hasVertex (Nat.succ_pos _),
    huge_hasVertex (Nat.lt_succ_self _), huge_dijkstra_0_max, huge_dijkstra_max_0⟩

/-- C6: on a well-formed graph `backtracking_graph` returns, and a returned
queue is in start-to-target order: it begins with the label of start, ends
with the label of target, and is the sequence of labels of vertices of the
graph, the first being start, each having an edge to the next. -/
theorem c6_backtracking_graph_order (g : Graph) (start target : Vertex)
    (h : g.WellFormed) (hs : g.HasVertex start) :
    (∃ r, backtracking_graph g start target = some r) ∧
    ∀ q, backtracking_graph g start target = some (some q) →
      q.head? = some start.content ∧ q.getLast? = some target.content ∧
      ∃ p, q = p.map g.label ∧ p.head? = some start.index ∧
        (∀ u ∈ p, u < g.nb_vertices) ∧ List.Chain' g.HasEdge p := by
  rcases backtracking_graph_spec h target hs with ⟨h1, -⟩ | ⟨p, h1, h2, -⟩
  · refine ⟨⟨_, h1⟩, ?_⟩
    intro q hq
    rw [h1] at hq
    cases hq
  · refine ⟨⟨_, h1⟩, ?_⟩
    intro q hq
    rw [h1] at hq
    cases hq
    obtain ⟨a1, a2, a3, t, a4, a5⟩ := h2
    refine ⟨?_, ?_, p, rfl, a1, fun u hu => (a2 u hu).1, a3⟩
    · rw [List.head?_map, a1]
      simp [label_of_hasVertex hs]
    · rw [List.getLast?_map, a4]
      simp [a5]

/-- Witness of C6 on scenario 2, from A to D. -/
theorem c6_backtracking_graph_order_witness :
    (scenario2.WellFormed ∧ scenario2.HasVertex scenario2_A) ∧
    ((∃ r, backtracking_graph scenario2 scenario2_A scenario2_D = some r) ∧
    ∀ q, backtracking_graph scenario2 scenario2_A scenario2_D = some (some q) →
      q.head? = some "A" ∧ q.getLast? = some "D" ∧
      ∃ p, q = p.map scenario2.label ∧ p.head? = some 0 ∧
        (∀ u ∈ p, u < scenario2.nb_vertices) ∧ List.Chain' scenario2.HasEdge p) :=
  ⟨by decide, c6_backtracking_graph_order scenario2 scenario2_A scenario2_D
    (by decide) (by decide)⟩

/-- C7: with start equal to target, `backtracking_graph` returns the queue
that holds the label of that vertex and nothing else, whatever the edges of
the vertex are. -/
theorem c7_backtracking_graph_same_vertex (g : Graph) (v : Vertex) :
    backtracking_graph g v v = some (some [v.content]) :=
  backtracking_graph_same g v

/-- C8: on a well-formed graph a queue returned by `backtracking_graph` holds
the labels of a sequence of vertices, each with an edge to the next, in which
no vertex occurs twice; when the labels of the graph are pairwise distinct, no
label occurs twice in the queue. -/
theorem c8_backtracking_graph_no_repeat (g : Graph) (start target : Vertex)
    (h : g.WellFormed) (hs : g.HasVertex start) :
    ∀ q, backtracking_graph g start target = some (some q) →
      (∃ p, q = p.map g.label ∧ p.head? = some start.index ∧
        (∀ u ∈ p, u < g.nb_vertices) ∧ List.Chain' g.HasEdge p ∧ p.Nodup) ∧
      (g.DistinctLabels → q.Nodup) := by
  intro q hq
  rcases backtracking_graph_spec h target hs with ⟨h1, -⟩ | ⟨p, h1, h2, h3⟩
  · rw [h1] at hq
    cases hq
  · rw [h1] at hq
    cases hq
    refine ⟨⟨p, rfl, h2.1, fun u hu => (h2.2.1 u hu).1, h2.2.2.1, h3⟩, ?_⟩
    intro hd
    apply List.Nodup.map_on _ h3
    intro x hx y hy hxy
    exact label_injective h hd (h2.2.1 x hx).1 (h2.2.1 y hy).1 hxy

/-- Witness of C8 on scenario 2, whose edges form a cycle, from A to D. -/
theorem c8_backtracking_graph_no_repeat_witness :
    (scenario2.WellFormed ∧ scenario2.HasVertex scenario2_A) ∧
    ∀ q, backtracking_graph scenario2 scenario2_A scenario2_D = some (some q) →
      (∃ p, q = p.map scenario2.label ∧ p.head? = some 0 ∧
        (∀ u ∈ p, u < scenario2.nb_vertices) ∧ List.Chain' scenario2.HasEdge p ∧
        p.Nodup) ∧
      (scenario2.DistinctLabels → q.Nodup) :=
  ⟨by decide, c8_backtracking_graph_no_repeat scenario2 scenario2_A scenario2_D
    (by decide) (by decide)⟩

/-- C9: on a well-formed graph with pairwise distinct labels,
`backtracking_graph` returns, and its result is `NULL` exactly when no route of
directed edges leads from start to target. -/
theorem c9_backtracking_graph_absent_iff (g : Graph) (start target : Vertex)
    (h : g.WellFormed) (hd : g.DistinctLabels)
    (hs : g.HasVertex start) (ht : g.HasVertex target) :
    (∃ r, backtracking_graph g start target = some r) ∧
    (backtracking_graph g start target = some none ↔
      ¬ g.Reachable start.index target.index) :=
  backtracking_graph_absent_iff h hd hs ht

/-- Witness of C9 on scenario 3, from A to the isolated vertex E. -/
theorem c9_backtracking_graph_absent_iff_witness :
    (scenario3.WellFormed ∧ scenario3.DistinctLabels ∧
      scenario3.HasVertex scenario3_A ∧ scenario3.HasVertex scenario3_E) ∧
    ((∃ r, backtracking_graph scenario3 scenario3_A scenario3_E = some r) ∧
    (backtracking_graph scenario3 scenario3_A scenario3_E = some none ↔
      ¬ scenario3.Reachable scenario3_A.index scenario3_E.index)) :=
  ⟨by decide, c9_backtracking_graph_absent_iff scenario3 scenario3_A scenario3_E
    (by decide) (by decide) (by decide) (by decide)⟩

/-- C10: on a rectangular grid `backtracking_array` returns, and a returned
queue starts with the start point, ends with the target point, consists of
points inside the grid whose cell is open in the caller's grid, moves by
orthogonal steps and holds no point twice; when the start and the target lie
on different sides of a row `k` that is blocked except at column `j`, the
queue holds the point `(j, k)`. -/
theorem c10_backtracking_array_path (map : Grid) (rows cols : Int) (start target : Point)
    (h : map.Rect rows cols) :
    (∃ r, backtracking_array map rows cols start target = some r) ∧
    ∀ q, backtracking_array map rows cols start target = some (some q) →
      q.head? = some start ∧ q.getLast? = some target ∧
      (∀ pt ∈ q, map.OpenAt rows cols pt) ∧ List.Chain' Point.Adjacent q ∧ q.Nodup ∧
      ∀ j k : Int, (∀ x, x ≠ j → map.get x k ≠ '0') →
        (start.y < k ∧ k < target.y) ∨ (target.y < k ∧ k < start.y) →
        (⟨j, k⟩ : Point) ∈ q := by
  rcases backtracking_array_spec h start target with h1 | ⟨q, h1, c1, c2, c3, c4, c5⟩
  · refine ⟨⟨_, h1⟩, ?_⟩
    intro q hq
    rw [h1] at hq
    cases hq
  · refine ⟨⟨_, h1⟩, ?_⟩
    intro q1 hq
    rw [h1] at hq
    cases hq
    refine ⟨c1, c2, c3, c4, c5, ?_⟩
    intro j k hrow hside
    have hcross : ∃ pt ∈ q, pt.y = k := by
      rcases hside with ⟨s1, s2⟩ | ⟨s1, s2⟩
      · exact trail_crosses_up k q start target c4 c1 c2 s1 s2
      · exact trail_crosses_down k q start target c4 c1 c2 s2 s1
    obtain ⟨pt, hpt, hk⟩ := hcross
    have hopen := (c3 pt hpt).2.2.2.2
    have hx : pt.x = j := by
      by_contra hne
      rw [hk] at hopen
      exact hrow pt.x hne hopen
    have : pt = ⟨j, k⟩ := by
      cases pt
      simp only at hx hk
      rw [hx, hk]
    rw [← this]
    exact hpt

/-- Witness of C10 on the grid of scenario 1, from (0, 0) to (4, 4). -/
theorem c10_backtracking_array_path_witness :
    scenario1.Rect 5 5 ∧
    ((∃ r, backtracking_array scenario1 5 5 ⟨0, 0⟩ ⟨4, 4⟩ = some r) ∧
    ∀ q, backtracking_array scenario1 5 5 ⟨0, 0⟩ ⟨4, 4⟩ = some (some q) →
      q.head? = some ⟨0, 0⟩ ∧ q.getLast? = some ⟨4, 4⟩ ∧
      (∀ pt ∈ q, scenario1.OpenAt 5 5 pt) ∧ List.Chain' Point.Adjacent q ∧ q.Nodup ∧
      ∀ j k : Int, (∀ x, x ≠ j → scenario1.get x k ≠ '0') →
        ((0 : Int) < k ∧ k < 4) ∨ ((4 : Int) < k ∧ k < 0) →
        (⟨j, k⟩ : Point) ∈ q) :=
  ⟨by decide, c10_backtracking_array_path scenario1 5 5 ⟨0, 0⟩ ⟨4, 4⟩ (by decide)⟩

/-! ## Completeness of the grid search -/

theorem not_openAt_mono {m1 m2 : Grid} {rows cols : Int} (h : GridSub m1 m2) {q : Point}
    (hq : ¬ m1.OpenAt rows cols q) : ¬ m2.OpenAt rows cols q := by
  intro h2
  exact hq ⟨h2.1, h2.2.1, h2.2.2.1, h2.2.2.2.1, h.1 _ _ h2.2.2.2.2⟩

theorem openAt_put_other {m : Grid} {rows cols : Int} {x y : Int} {q : Point}
    (hq : m.OpenAt rows cols q) (hne : q ≠ ⟨x, y⟩) : (m.put x y '1').OpenAt rows cols q := by
  refine ⟨hq.1, hq.2.1, hq.2.2.1, hq.2.2.2.1, ?_⟩
  rw [get_put_other m x y q.x q.y '1']
  · exact hq.2.2.2.2
  · intro hxy
    apply hne
    cases q
    simp only at hxy
    rw [hxy.1, hxy.2]

theorem adjacent_cases {n : Point} {x y : Int} (h : n.Adjacent ⟨x, y⟩) :
    n = ⟨x + 1, y⟩ ∨ n = ⟨x, y + 1⟩ ∨ n = ⟨x - 1, y⟩ ∨ n = ⟨x, y - 1⟩ := by
  cases n with
  | mk a b =>
    unfold Point.Adjacent at h
    simp only at h
    rcases h with ⟨h1, h2 | h2⟩ | ⟨h1, h2 | h2⟩
    · left; rw [h1, h2]
    · right; right; left
      have : a = x - 1 := by omega
      rw [h1, this]
    · right; left; rw [h1, h2]
    · right; right; right
      have : b = y - 1 := by omega
      rw [h1, this]

/-- A failed call of `backtrack` leaves a closed region behind. -/
theorem backtrack_fail_closed (rows cols : Int) (target : Point) :
    ∀ fuel map x y path r, backtrack fuel map rows cols target x y path = some r →
      r.found = false → GridClosed map r.map rows cols target x y := by
  intro fuel
  induction fuel with
  | zero =>
    intro map x y path r h
    unfold backtrack at h
    cases h
  | succ fuel ih =>
    intro map x y path r h hfound
    unfold backtrack at h
    split at h
    · rename_i hg
      cases h
      refine ⟨gridSub_refl map, ?_, fun c h1 h2 => absurd h1 h2, fun ht => ht⟩
      rintro ⟨a1, a2, a3, a4, a5⟩
      simp only at a1 a2 a3 a4 a5
      rcases hg with hg | hg | hg | hg | hg
      · omega
      · omega
      · omega
      · omega
      · exact hg a5
    · rename_i hg
      have hopen : map.OpenAt rows cols ⟨x, y⟩ := by
        unfold Grid.OpenAt
        simp only
        by_contra hcon
        apply hg
        by_cases h1 : x < 0
        · exact Or.inl h1
        · by_cases h2 : x ≥ cols
          · exact Or.inr (Or.inl h2)
          · by_cases h3 : y < 0
            · exact Or.inr (Or.inr (Or.inl h3))
            · by_cases h4 : y ≥ rows
              · exact Or.inr (Or.inr (Or.inr (Or.inl h4)))
              · refine Or.inr (Or.inr (Or.inr (Or.inr ?_)))
                intro h5
                exact hcon ⟨by omega, by omega, by omega, by omega, h5⟩
      have hcell : map.get x y = '0' := hopen.2.2.2.2
      have h01 := gridSub_put hcell
      have hclaimed : ¬ (map.put x y '1').OpenAt rows cols ⟨x, y⟩ := by
        intro hc
        have := hc.2.2.2.2
        simp only at this
        rw [get_put_self hcell] at this
        exact one_ne_zero_char this
      simp only at h
      split at h
      · cases h
        simp at hfound
      · rename_i htgt
        have htne : target ≠ ⟨x, y⟩ := by
          intro heq
          apply htgt
          rw [heq]
          exact ⟨rfl, rfl⟩
        cases h1 : backtrack fuel (map.put x y '1') rows cols target (x + 1) y
            (⟨x, y⟩ :: path) with
        | none => rw [h1] at h; cases h
        | some r1 =>
          rw [h1] at h
          simp only at h
          by_cases f1 : r1.found = true
          · rw [if_pos f1] at h
            cases h
            rw [f1] at hfound
            cases hfound
          · rw [if_neg f1] at h
            have c1 := ih _ _ _ _ _ h1 (by simpa using f1)
            cases h2 : backtrack fuel r1.map rows cols target x (y + 1) r1.path with
            | none => rw [h2] at h; cases h
            | some r2 =>
              rw [h2] at h
              simp only at h
              by_cases f2 : r2.found = true
              · rw [if_pos f2] at h
                cases h
                rw [f2] at hfound
                cases hfound
              · rw [if_neg f2] at h
                have c2 := ih _ _ _ _ _ h2 (by simpa using f2)
                cases h3 : backtrack fuel r2.map rows cols target (x - 1) y r2.path with
                | none => rw [h3] at h; cases h
                | some r3 =>
                  rw [h3] at h
                  simp only at h
                  by_cases f3 : r3.found = true
                  · rw [if_pos f3] at h
                    cases h
                    rw [f3] at hfound
                    cases hfound
                  · rw [if_neg f3] at h
                    have c3 := ih _ _ _ _ _ h3 (by simpa using f3)
                    cases h4 : backtrack fuel r3.map rows cols target x (y - 1) r3.path with
                    | none => rw [h4] at h; cases h
                    | some r4 =>
                      rw [h4] at h
                      simp only at h
                      by_cases f4 : r4.found = true
                      · rw [if_pos f4] at h
                        cases h
                        rw [f4] at hfound
                        cases hfound
                      · rw [if_neg f4] at h
                        have c4 := ih _ _ _ _ _ h4 (by simpa using f4)
                        cases h
                        simp only
                        have s12 := c2.1
                        have s23 := c3.1
                        have s34 := c4.1
                        have s24 := gridSub_trans s12 (gridSub_trans s23 s34)
                        have s14 := gridSub_trans c1.1 s24
                        refine ⟨gridSub_trans h01 s14, ?_, ?_, ?_⟩
                        · exact not_openAt_mono s14 hclaimed
                        · intro c hc1 hc2 n hn
                          by_cases hcxy : c = ⟨x, y⟩
                          · rw [hcxy] at hn
                            rcases adjacent_cases hn with rfl | rfl | rfl | rfl
                            · exact not_openAt_mono s24 c1.2.1
                            · exact not_openAt_mono (gridSub_trans s23 s34) c2.2.1
                            · exact not_openAt_mono s34 c3.2.1
                            · exact c4.2.1
                          · have o0 := openAt_put_other hc1 hcxy
                            by_cases o1 : r1.map.OpenAt rows cols c
                            · by_cases o2 : r2.map.OpenAt rows cols c
                              · by_cases o3 : r3.map.OpenAt rows cols c
                                · exact c4.2.2.1 c o3 hc2 n hn
                                · exact not_openAt_mono s34 (c3.2.2.1 c o2 o3 n hn)
                              · exact not_openAt_mono (gridSub_trans s23 s34)
                                  (c2.2.2.1 c o1 o2 n hn)
                            · exact not_openAt_mono s24 (c1.2.2.1 c o0 o1 n hn)
                        · intro ht
                          exact c4.2.2.2 (c3.2.2.2 (c2.2.2.2 (c1.2.2.2
                            (openAt_put_other ht htne))))

/-- Along an open path that starts in the claimed region of a failed search,
every cell is claimed. -/
theorem closed_region_path {m1 m2 : Grid} {rows cols : Int} {target : Point} {x y : Int}
    (hc : GridClosed m1 m2 rows cols target x y) (q : List Point) (c : Point)
    (hhead : q.head? = some c) (hopen : ∀ pt ∈ q, m1.OpenAt rows cols pt)
    (hchain : List.Chain' Point.Adjacent q) (hcl : ¬ m2.OpenAt rows cols c) :
    ∀ pt ∈ q, ¬ m2.OpenAt rows cols pt := by
  induction q generalizing c with
  | nil => intro pt hpt; cases hpt
  | cons a as ih =>
    simp at hhead
    subst hhead
    intro pt hpt
    rcases List.mem_cons.1 hpt with rfl | hpt
    · exact hcl
    · cases as with
      | nil => cases hpt
      | cons b bs =>
        have hab : a.Adjacent b := (List.chain'_cons.1 hchain).1
        have hb : ¬ m2.OpenAt rows cols b :=
          hc.2.2.1 a (hopen a (List.mem_cons_self _ _)) hcl b (adjacent_symm hab)
        exact ih b rfl (fun pt hpt => hopen pt (List.mem_cons_of_mem _ hpt))
          (List.chain'_cons.1 hchain).2 hb pt hpt

theorem backtracking_array_absent_run {map : Grid} {rows cols : Int}
    (h : map.Rect rows cols) {start target : Point}
    (hres : backtracking_array map rows cols start target = some none) :
    ∃ r, backtrack (map.size + 1) map rows cols target start.x start.y [] = some r ∧
      r.found = false := by
  unfold backtracking_array at hres
  simp only at hres
  rw [copy_map_rect h] at hres
  cases hr : backtrack (map.size + 1) map rows cols target start.x start.y [] with
  | none => rw [hr] at hres; cases hres
  | some r =>
    rw [hr] at hres
    simp only at hres
    by_cases f : r.found = true
    · rw [if_pos f] at hres
      cases hres
    · exact ⟨r, rfl, by simpa using f⟩

/-- The grid search is complete: when an open path leads from start to target,
the result is not `NULL`. -/
theorem backtracking_array_complete {map : Grid} {rows cols : Int}
    (h : map.Rect rows cols) {start target : Point} {q : List Point}
    (hq : map.OpenPath rows cols start target q) :
    backtracking_array map rows cols start target ≠ some none := by
  intro hres
  obtain ⟨r, hr, hf⟩ := backtracking_array_absent_run h hres
  have hc := backtrack_fail_closed rows cols target _ _ _ _ _ _ hr hf
  obtain ⟨q1, q2, q3, q4⟩ := hq
  have hstart : ¬ r.map.OpenAt rows cols start := by
    have := hc.2.1
    cases start
    exact this
  have hall := closed_region_path hc q start q1 q3 q4 hstart
  have htq : target ∈ q := List.mem_of_mem_getLast? q2
  exact hall target htq (hc.2.2.2 (q3 target htq))

/-! ## The cells reported by the grid search -/

/-- Dropping the log of `backtrack_log` gives `backtrack`. -/
theorem backtrack_log_erase (rows cols : Int) (target : Point) :
    ∀ fuel map x y path log,
      (backtrack_log fuel map rows cols target x y path log).map Prod.fst =
        backtrack fuel map rows cols target x y path := by
  intro fuel
  induction fuel with
  | zero => intro map x y path log; rfl
  | succ fuel ih =>
    intro map x y path log
    unfold backtrack_log backtrack
    split
    · rfl
    · simp only
      split
      · rfl
      · rw [← ih (map.put x y '1') (x + 1) y (⟨x, y⟩ :: path) (log ++ [⟨x, y⟩])]
        cases backtrack_log fuel (map.put x y '1') rows cols target (x + 1) y
            (⟨x, y⟩ :: path) (log ++ [⟨x, y⟩]) with
        | none => rfl
        | some p1 =>
          obtain ⟨r1, l1⟩ := p1
          simp only [Option.map_some']
          split
          · rfl
          · rw [← ih r1.map x (y + 1) r1.path l1]
            cases backtrack_log fuel r1.map rows cols target x (y + 1) r1.path l1 with
            | none => rfl
            | some p2 =>
              obtain ⟨r2, l2⟩ := p2
              simp only [Option.map_some']
              split
              · rfl
              · rw [← ih r2.map (x - 1) y r2.path l2]
                cases backtrack_log fuel r2.map rows cols target (x - 1) y r2.path l2 with
                | none => rfl
                | some p3 =>
                  obtain ⟨r3, l3⟩ := p3
                  simp only [Option.map_some']
                  split
                  · rfl
                  · rw [← ih r3.map x (y - 1) r3.path l3]
                    cases backtrack_log fuel r3.map rows cols target x (y - 1)
                        r3.path l3 with
                    | none => rfl
                    | some p4 =>
                      obtain ⟨r4, l4⟩ := p4
                      simp only [Option.map_some']
                      split
                      · rfl
                      · rfl

theorem claimed_nil (m : Grid) (rows cols : Int) : Claimed m m rows cols [] := by
  refine ⟨List.nodup_nil, ?_, ?_, gridSub_refl m⟩
  · intro c hc
    cases hc
  · simp

theorem claimed_put {m : Grid} {rows cols : Int} {x y : Int}
    (h : m.OpenAt rows cols ⟨x, y⟩) : Claimed m (m.put x y '1') rows cols [⟨x, y⟩] := by
  have hcell : m.get x y = '0' := h.2.2.2.2
  refine ⟨List.nodup_singleton _, ?_, ?_, gridSub_put hcell⟩
  · intro c hc
    rw [List.mem_singleton.1 hc]
    refine ⟨h, ?_⟩
    intro h2
    have := h2.2.2.2.2
    simp only at this
    rw [get_put_self hcell] at this
    exact one_ne_zero_char this
  · have := zeros_put hcell
    simp only [List.length_singleton]
    omega

theorem claimed_append {m1 m2 m3 : Grid} {rows cols : Int} {a b : List Point}
    (ha : Claimed m1 m2 rows cols a) (hb : Claimed m2 m3 rows cols b) :
    Claimed m1 m3 rows cols (a ++ b) := by
  obtain ⟨a1, a2, a3, a4⟩ := ha
  obtain ⟨b1, b2, b3, b4⟩ := hb
  refine ⟨?_, ?_, ?_, gridSub_trans a4 b4⟩
  · rw [List.nodup_append]
    refine ⟨a1, b1, ?_⟩
    intro c hca hcb
    exact (a2 c hca).2 (b2 c hcb).1
  · intro c hc
    rcases List.mem_append.1 hc with hc | hc
    · exact ⟨(a2 c hc).1, not_openAt_mono b4 (a2 c hc).2⟩
    · obtain ⟨o1, o2⟩ := b2 c hc
      exact ⟨⟨o1.1, o1.2.1, o1.2.2.1, o1.2.2.2.1, a4.1 _ _ o1.2.2.2.2⟩, o2⟩
  · rw [List.length_append]
    omega

/-- With enough fuel `backtrack_log` returns, and the cells it adds to the log
are the cells claimed between the grid on entry and the grid on return. -/
theorem backtrack_log_spec (rows cols : Int) (target : Point) :
    ∀ fuel map x y path log, Grid.zeros map < fuel →
      ∃ r cl, backtrack_log fuel map rows cols target x y path log = some (r, log ++ cl) ∧
        Claimed map r.map rows cols cl := by
  intro fuel
  induction fuel with
  | zero => intro _ _ _ _ _ hf; omega
  | succ fuel ih =>
    intro map x y path log hf
    unfold backtrack_log
    split
    · exact ⟨⟨false, map, path⟩, [], by simp, claimed_nil map rows cols⟩
    · rename_i hg
      have hopen : map.OpenAt rows cols ⟨x, y⟩ := by
        unfold Grid.OpenAt
        simp only
        by_contra hcon
        apply hg
        by_cases h1 : x < 0
        · exact Or.inl h1
        · by_cases h2 : x ≥ cols
          · exact Or.inr (Or.inl h2)
          · by_cases h3 : y < 0
            · exact Or.inr (Or.inr (Or.inl h3))
            · by_cases h4 : y ≥ rows
              · exact Or.inr (Or.inr (Or.inr (Or.inl h4)))
              · refine Or.inr (Or.inr (Or.inr (Or.inr ?_)))
                intro h5
                exact hcon ⟨by omega, by omega, by omega, by omega, h5⟩
      have c0 := claimed_put hopen
      have hz0 := c0.2.2.1
      simp only [List.length_singleton] at hz0
      simp only
      split
      · exact ⟨⟨true, map.put x y '1', ⟨x, y⟩ :: path⟩, [⟨x, y⟩], rfl, c0⟩
      · obtain ⟨r1, cl1, hr1, k1⟩ := ih (map.put x y '1') (x + 1) y (⟨x, y⟩ :: path)
          (log ++ [⟨x, y⟩]) (by omega)
        have c1 := claimed_append c0 k1
        have hz1 := k1.2.2.1
        rw [hr1]
        simp only
        split
        · exact ⟨r1, [⟨x, y⟩] ++ cl1, by simp, c1⟩
        · obtain ⟨r2, cl2, hr2, k2⟩ := ih r1.map x (y + 1) r1.path
            (log ++ [⟨x, y⟩] ++ cl1) (by omega)
          have c2 := claimed_append c1 k2
          have hz2 := k2.2.2.1
          rw [hr2]
          simp only
          split
          · exact ⟨r2, [⟨x, y⟩] ++ cl1 ++ cl2, by simp, c2⟩
          · obtain ⟨r3, cl3, hr3, k3⟩ := ih r2.map (x - 1) y r2.path
              (log ++ [⟨x, y⟩] ++ cl1 ++ cl2) (by omega)
            have c3 := claimed_append c2 k3
            have hz3 := k3.2.2.1
            rw [hr3]
            simp only
            split
            · exact ⟨r3, [⟨x, y⟩] ++ cl1 ++ cl2 ++ cl3, by simp, c3⟩
            · obtain ⟨r4, cl4, hr4, k4⟩ := ih r3.map x (y - 1) r3.path
                (log ++ [⟨x, y⟩] ++ cl1 ++ cl2 ++ cl3) (by omega)
              have c4 := claimed_append c3 k4
              rw [hr4]
              simp only
              split
              · exact ⟨r4, [⟨x, y⟩] ++ cl1 ++ cl2 ++ cl3 ++ cl4, by simp, c4⟩
              · exact ⟨⟨false, r4.map, dequeue r4.path⟩,
                  [⟨x, y⟩] ++ cl1 ++ cl2 ++ cl3 ++ cl4, by simp, c4⟩

theorem size_rect {m : Grid} {rows cols : Int} (h : m.Rect rows cols) :
    (m.size : Int) = rows * cols := by
  obtain ⟨h1, h2⟩ := h
  rw [← h1]
  clear h1
  induction m with
  | nil => simp [Grid.size]
  | cons r rs ih =>
    have hr := h2 r (List.mem_cons_self _ _)
    have := ih (fun r hr => h2 r (List.mem_cons_of_mem _ hr))
    simp only [Grid.size, List.map_cons, List.sum_cons, List.length_cons] at this ⊢
    rw [Nat.cast_add, this, hr, Nat.cast_add, Nat.cast_one]
    ring

/-! ## The private copy -/

theorem mem_get_view (mem : Mem) (tbl : List Nat) (x y : Int) :
    mem.get tbl x y = (mem.view tbl).get x y := by
  unfold Mem.get Grid.get Mem.view
  split
  · simp only [List.getD_eq_getElem?_getD, List.getElem?_map]
    cases tbl[y.toNat]? with
    | none => simp
    | some a => simp
  · rfl

theorem map_update_eq_set {α : Type} (tbl : List Nat) (f : Nat → α) (a : Nat) (v : α)
    (j : Nat) (hj : tbl[j]? = some a) (hnd : tbl.Nodup) :
    tbl.map (Function.update f a v) = (tbl.map f).set j v := by
  have hjlt : j < tbl.length := by
    by_contra hge
    rw [List.getElem?_eq_none (by omega)] at hj
    cases hj
  apply List.ext_getElem?
  intro k
  rw [List.getElem?_map, List.getElem?_set]
  by_cases hjk : j = k
  · subst hjk
    rw [if_pos rfl, hj]
    simp [hjlt]
  · rw [if_neg hjk, List.getElem?_map]
    cases hk : tbl[k]? with
    | none => rfl
    | some b =>
      have hklt : k < tbl.length := by
        by_contra hge
        rw [List.getElem?_eq_none (by omega)] at hk
        cases hk
      have hne : b ≠ a := by
        intro hba
        apply hjk
        have e1 : tbl[j] = a := by
          have := List.getElem?_eq_getElem hjlt
          rw [hj] at this
          exact (Option.some.inj this).symm
        have e2 : tbl[k] = b := by
          have := List.getElem?_eq_getElem hklt
          rw [hk] at this
          exact (Option.some.inj this).symm
        exact (List.Nodup.getElem_inj_iff hnd).1 (by rw [e1, e2, hba])
      simp [Function.update_noteq hne]

theorem mem_put_view (mem : Mem) (tbl : List Nat) (hnd : tbl.Nodup) (x y : Int) (c : Char) :
    (mem.put tbl x y c).view tbl = (mem.view tbl).put x y c := by
  unfold Mem.put Grid.put
  split
  · cases hrow : tbl[y.toNat]? with
    | none =>
      simp only
      unfold Mem.view
      rw [List.set_eq_of_length_le]
      rw [List.length_map]
      by_contra hlt
      rw [List.getElem?_eq_getElem (by omega)] at hrow
      cases hrow
    | some a =>
      simp only
      unfold Mem.view
      simp only
      rw [map_update_eq_set tbl mem.rows a _ y.toNat hrow hnd]
      simp [List.getD_eq_getElem?_getD, List.getElem?_map, hrow]
  · rfl

theorem mem_put_frame (mem : Mem) (tbl : List Nat) (x y : Int) (c : Char) :
    (∀ a, a ∉ tbl → (mem.put tbl x y c).rows a = mem.rows a) ∧
    (mem.put tbl x y c).next = mem.next := by
  unfold Mem.put
  split
  · cases hrow : tbl[y.toNat]? with
    | none => exact ⟨fun _ _ => rfl, rfl⟩
    | some b =>
      refine ⟨?_, rfl⟩
      intro a ha
      have hb : b ∈ tbl := List.getElem?_mem hrow
      have hne : a ≠ b := fun e => ha (e ▸ hb)
      simp only
      rw [Function.update_noteq hne]
  · exact ⟨fun _ _ => rfl, rfl⟩

/-- Reading the working grid off the memory turns `backtrack_mem` into
`backtrack`. -/
theorem backtrack_mem_erase (tbl : List Nat) (hnd : tbl.Nodup) (rows cols : Int)
    (target : Point) :
    ∀ fuel mem x y path,
      (backtrack_mem fuel mem tbl rows cols target x y path).map (MemResult.erase tbl) =
        backtrack fuel (mem.view tbl) rows cols target x y path := by
  intro fuel
  induction fuel with
  | zero => intro mem x y path; rfl
  | succ fuel ih =>
    intro mem x y path
    unfold backtrack_mem backtrack
    rw [mem_get_view]
    split
    · rfl
    · simp only
      rw [← mem_put_view mem tbl hnd]
      split
      · rfl
      · rw [← ih (mem.put tbl x y '1') (x + 1) y (⟨x, y⟩ :: path)]
        cases backtrack_mem fuel (mem.put tbl x y '1') tbl rows cols target (x + 1) y
            (⟨x, y⟩ :: path) with
        | none => rfl
        | some r1 =>
          simp only [Option.map_some', MemResult.erase]
          split
          · rfl
          · rw [← ih r1.mem x (y + 1) r1.path]
            cases backtrack_mem fuel r1.mem tbl rows cols target x (y + 1) r1.path with
            | none => rfl
            | some r2 =>
              simp only [Option.map_some', MemResult.erase]
              split
              · rfl
              · rw [← ih r2.mem (x - 1) y r2.path]
                cases backtrack_mem fuel r2.mem tbl rows cols target (x - 1) y r2.path with
                | none => rfl
                | some r3 =>
                  simp only [Option.map_some', MemResult.erase]
                  split
                  · rfl
                  · rw [← ih r3.mem x (y - 1) r3.path]
                    cases backtrack_mem fuel r3.mem tbl rows cols target x (y - 1)
                        r3.path with
                    | none => rfl
                    | some r4 =>
                      simp only [Option.map_some', MemResult.erase]
                      split
                      · rfl
                      · rfl

/-- Every write of `backtrack_mem` goes to a row of its own table. -/
theorem backtrack_mem_frame (tbl : List Nat) (rows cols : Int) (target : Point) :
    ∀ fuel mem x y path r, backtrack_mem fuel mem tbl rows cols target x y path = some r →
      (∀ a, a ∉ tbl → r.mem.rows a = mem.rows a) ∧ r.mem.next = mem.next := by
  intro fuel
  induction fuel with
  | zero =>
    intro mem x y path r h
    unfold backtrack_mem at h
    cases h
  | succ fuel ih =>
    intro mem x y path r h
    unfold backtrack_mem at h
    split at h
    · cases h
      exact ⟨fun _ _ => rfl, rfl⟩
    · have f0 := mem_put_frame mem tbl x y '1'
      simp only at h
      split at h
      · cases h
        exact f0
      · cases h1 : backtrack_mem fuel (mem.put tbl x y '1') tbl rows cols target (x + 1) y
            (⟨x, y⟩ :: path) with
        | none => rw [h1] at h; cases h
        | some r1 =>
          rw [h1] at h
          simp only at h
          have f1 := ih _ _ _ _ _ h1
          have g1 : (∀ a, a ∉ tbl → r1.mem.rows a = mem.rows a) ∧ r1.mem.next = mem.next :=
            ⟨fun a ha => (f1.1 a ha).trans (f0.1 a ha), f1.2.trans f0.2⟩
          split at h
          · cases h
            exact g1
          · cases h2 : backtrack_mem fuel r1.mem tbl rows cols target x (y + 1) r1.path with
            | none => rw [h2] at h; cases h
            | some r2 =>
              rw [h2] at h
              simp only at h
              have f2 := ih _ _ _ _ _ h2
              have g2 : (∀ a, a ∉ tbl → r2.mem.rows a = mem.rows a) ∧
                  r2.mem.next = mem.next :=
                ⟨fun a ha => (f2.1 a ha).trans (g1.1 a ha), f2.2.trans g1.2⟩
              split at h
              · cases h
                exact g2
              · cases h3 : backtrack_mem fuel r2.mem tbl rows cols target (x - 1) y
                    r2.path with
                | none => rw [h3] at h; cases h
                | some r3 =>
                  rw [h3] at h
                  simp only at h
                  have f3 := ih _ _ _ _ _ h3
                  have g3 : (∀ a, a ∉ tbl → r3.mem.rows a = mem.rows a) ∧
                      r3.mem.next = mem.next :=
                    ⟨fun a ha => (f3.1 a ha).trans (g2.1 a ha), f3.2.trans g2.2⟩
                  split at h
                  · cases h
                    exact g3
                  · cases h4 : backtrack_mem fuel r3.mem tbl rows cols target x (y - 1)
                        r3.path with
                    | none => rw [h4] at h; cases h
                    | some r4 =>
                      rw [h4] at h
                      simp only at h
                      have f4 := ih _ _ _ _ _ h4
                      have g4 : (∀ a, a ∉ tbl → r4.mem.rows a = mem.rows a) ∧
                          r4.mem.next = mem.next :=
                        ⟨fun a ha => (f4.1 a ha).trans (g3.1 a ha), f4.2.trans g3.2⟩
                      split at h
                      · cases h
                        exact g4
                      · cases h
                        exact g4

/-- The copy loop hands out fresh addresses only, leaves the buffers below
`mem.next` as they are and stores a copy of each source row. -/
theorem copy_rows_spec : ∀ (src : List Nat) (mem : Mem), (∀ a ∈ src, a < mem.next) →
    (∀ a, a < mem.next → (copy_rows mem src).1.rows a = mem.rows a) ∧
    (∀ a ∈ (copy_rows mem src).2, mem.next ≤ a) ∧
    (copy_rows mem src).2.Nodup ∧
    (copy_rows mem src).1.view (copy_rows mem src).2 = mem.view src := by
  intro src
  induction src with
  | nil =>
    intro mem _
    refine ⟨fun _ _ => rfl, ?_, List.nodup_nil, rfl⟩
    intro a ha
    cases ha
  | cons b bs ih =>
    intro mem hsrc
    have hb := hsrc b (List.mem_cons_self _ _)
    obtain ⟨i1, i2, i3, i4⟩ := ih
      { rows := Function.update mem.rows mem.next (mem.rows b), next := mem.next + 1 }
      (fun a ha => by
        have := hsrc a (List.mem_cons_of_mem _ ha)
        simp only
        omega)
    simp only at i1 i2 i3 i4
    unfold copy_rows
    simp only
    refine ⟨?_, ?_, ?_, ?_⟩
    · intro a ha
      rw [i1 a (by omega), Function.update_noteq (by omega)]
    · intro a ha
      rcases List.mem_cons.1 ha with rfl | ha
      · exact Nat.le_refl _
      · have := i2 a ha
        omega
    · refine List.nodup_cons.2 ⟨?_, i3⟩
      intro hmem
      have := i2 _ hmem
      omega
    · unfold Mem.view at i4 ⊢
      rw [List.map_cons, List.map_cons, i4, i1 mem.next (by omega), Function.update_same]
      congr 1
      apply List.map_congr_left
      intro a ha
      have := hsrc a (List.mem_cons_of_mem _ ha)
      have hne : a ≠ mem.next := by omega
      simp only
      rw [Function.update_noteq hne]

/-- The call over the memory returns what `backtracking_array` returns on the
grid that the caller's table denotes, and leaves every buffer that existed
before the call as it was. -/
theorem backtracking_array_mem_spec (mem : Mem) (map : List Nat) (rows cols : Int)
    (start target : Point) (halloc : ∀ a ∈ map, a < mem.next)
    (hrect : (mem.view map).Rect rows cols) :
    ∃ res mem1, backtracking_array_mem mem map rows cols start target = some (res, mem1) ∧
      (∀ a, a < mem.next → mem1.rows a = mem.rows a) ∧
      backtracking_array (mem.view map) rows cols start target = some res := by
  have htake : map.take rows.toNat = map := by
    apply List.take_of_length_le
    have := hrect.1
    unfold Mem.view at this
    rw [List.length_map] at this
    omega
  obtain ⟨c1, c2, c3, c4⟩ := copy_rows_spec map mem halloc
  obtain ⟨r0, hr0, -⟩ := backtrack_spec rows cols target ((mem.view map).size + 1)
    (mem.view map) start.x start.y [] (Nat.lt_succ_of_le (zeros_le_size _))
  have herase := backtrack_mem_erase (copy_rows mem map).2 c3 rows cols target
    ((mem.view map).size + 1) (copy_rows mem map).1 start.x start.y []
  rw [c4, hr0] at herase
  unfold backtracking_array_mem
  simp only
  rw [htake, c4]
  cases hr : backtrack_mem ((mem.view map).size + 1) (copy_rows mem map).1
      (copy_rows mem map).2 rows cols target start.x start.y [] with
  | none =>
    rw [hr] at herase
    cases herase
  | some r =>
    rw [hr] at herase
    simp only [Option.map_some', MemResult.erase] at herase
    have hfr := backtrack_mem_frame _ rows cols target _ _ _ _ _ _ hr
    have hframe : ∀ a, a < mem.next → r.mem.rows a = mem.rows a := by
      intro a ha
      have hnot : a ∉ (copy_rows mem map).2 := by
        intro hmem
        have := c2 a hmem
        omega
      rw [hfr.1 a hnot, c1 a ha]
    have hr0eq : r0 = ⟨r.found, r.mem.view (copy_rows mem map).2, r.path⟩ :=
      (Option.some.inj herase).symm
    have hback : backtracking_array (mem.view map) rows cols start target =
        (if r.found = true then some (some r.path.reverse) else some none) := by
      unfold backtracking_array
      simp only
      rw [copy_map_rect hrect, hr0, hr0eq]
    simp only
    by_cases hf : r.found = true
    · rw [if_pos hf] at hback ⊢
      exact ⟨_, _, rfl, hframe, hback⟩
    · rw [if_neg hf] at hback ⊢
      exact ⟨_, _, rfl, hframe, hback⟩

/-! ## Marks and call order of the graph backtracking search -/

/-- What a call of `recursive_backtrack_graph` does to the `visited` array and
to the queue, for an array of flags 0 and 1. -/
theorem recursive_backtrack_graph_frame {g : Graph} (h : g.WellFormed) (target : Vertex)
    (fuel : Nat) (path : List String) (vis : Nat → Int) (cur : Vertex)
    (h01 : ∀ i, vis i = 0 ∨ vis i = 1) (hcur : g.HasVertex cur)
    (hf : unmarked_count g vis < fuel) :
    ∃ r, recursive_backtrack_graph g target fuel path vis (some cur) = some r ∧
      (r.found = false → r.visited = vis ∧ r.path = path) ∧
      (r.found = true → ∃ p : List Nat, r.path = p.map g.label ++ path ∧
        p.head? = some cur.index ∧
        (∃ t, p.getLast? = some t ∧ g.label t = target.content) ∧
        (∀ i, (r.visited i = 1 ∧ vis i ≠ 1) ↔ i ∈ p.dropLast) ∧
        (∀ i, i ∉ p.dropLast → r.visited i = vis i)) := by
  obtain ⟨r, hr, hout⟩ := recursive_backtrack_graph_spec h target fuel path vis cur h01 hcur hf
  refine ⟨r, hr, ?_, ?_⟩
  · intro hfalse
    rcases hout with ⟨-, f2, f3, -⟩ | ⟨f1, -⟩
    · exact ⟨f3, f2⟩
    · rw [f1] at hfalse
      cases hfalse
  · intro htrue
    rcases hout with ⟨f1, -⟩ | ⟨-, p, f2, f3, -, f5⟩
    · rw [f1] at htrue
      cases htrue
    · refine ⟨p, f2, f3.1, f3.2.2.2, ?_, ?_⟩
      · intro i
        constructor
        · rintro ⟨h1, h2⟩
          by_contra hnot
          rw [f5 i, if_neg hnot] at h1
          exact h2 h1
        · intro hi
          refine ⟨by rw [f5 i, if_pos hi], ?_⟩
          have := (f3.2.1 i (List.mem_of_mem_dropLast hi)).2
          rw [this]
          decide
      · intro i hi
        rw [f5 i, if_neg hi]

/-- Every nested call of the loop is entered with the array the loop was
entered with: a failed call hands its array back as it got it. -/
theorem nested_entries_spec {g : Graph} (h : g.WellFormed) (target : Vertex) {cur : Vertex}
    (hcur : g.HasVertex cur)
    (call : List String → (Nat → Int) → Option Vertex → Option BTResult)
    (vis : Nat → Int) (path : List String)
    (hcall : ∀ d, g.HasVertex d →
      ∃ r, call path vis (some d) = some r ∧ BTOutcome g target path vis d.index r)
    (es : List Edge) (hes : ∀ e ∈ es, e ∈ cur.edges) :
    ∀ v ∈ nested_entries g call es path vis, v = vis := by
  induction es with
  | nil => intro v hv; cases hv
  | cons e es ih =>
    have hemem := hes e (List.mem_cons_self _ _)
    have hedest := (h.2 cur (deref_mem hcur) e hemem).1
    obtain ⟨d, hd, hdi⟩ := wf_deref h hedest
    have hdv : g.HasVertex d := by unfold Graph.HasVertex; rw [hdi]; exact hd
    obtain ⟨r1, hr1, hout⟩ := hcall d hdv
    intro v hv
    unfold nested_entries at hv
    rw [hd, hr1] at hv
    simp only at hv
    rcases List.mem_cons.1 hv with rfl | hv
    · rfl
    · rcases hout with ⟨f1, f2, f3, -⟩ | ⟨f1, -⟩
      · rw [if_neg (by simp [f1]), f2, f3] at hv
        exact ih (fun e he => hes e (List.mem_cons_of_mem _ he)) v hv
      · rw [if_pos f1] at hv
        cases hv

/-- A frame that does not return at once enters each of its nested calls with
fewer unmarked vertices than it was entered with itself. -/
theorem nested_entries_measure {g : Graph} (h : g.WellFormed) (target : Vertex)
    (fuel : Nat) (path : List String) (vis : Nat → Int) (cur : Vertex)
    (h01 : ∀ i, vis i = 0 ∨ vis i = 1) (hcur : g.HasVertex cur)
    (hf : unmarked_count g vis < fuel + 1) (hv : vis cur.index ≠ 1) :
    ∀ v ∈ nested_entries g (recursive_backtrack_graph g target fuel) cur.edges path
        (Function.update vis cur.index 1),
      unmarked_count g v < unmarked_count g vis := by
  have hv0 : vis cur.index = 0 := by
    rcases h01 cur.index with h0 | h1
    · exact h0
    · exact absurd h1 hv
  have hclt := hasVertex_lt h hcur
  have hcnt := unmarked_count_mark g vis cur.index hclt hv0
  have hv01 : ∀ i, Function.update vis cur.index 1 i = 0 ∨
      Function.update vis cur.index 1 i = 1 := by
    intro i
    by_cases hic : i = cur.index
    · right; rw [hic, Function.update_same]
    · rw [Function.update_noteq hic]; exact h01 i
  intro v hvmem
  have := nested_entries_spec h target hcur (recursive_backtrack_graph g target fuel)
    (Function.update vis cur.index 1) path
    (fun d hd => recursive_backtrack_graph_spec h target fuel path _ d hv01 hd (by omega))
    cur.edges (fun e he => he) v hvmem
  rw [this]
  exact hcnt

theorem firstRoute_head {g : Graph} {target : Vertex} {vis : Nat → Int} {c : Nat}
    {p : List Nat} (hp : g.FirstRoute target vis c p) : p.head? = some c := by
  cases p with
  | nil => unfold Graph.FirstRoute at hp; exact hp.elim
  | cons u rest =>
    cases rest with
    | nil =>
      unfold Graph.FirstRoute at hp
      rw [hp.1]; rfl
    | cons v rest =>
      unfold Graph.FirstRoute at hp
      rw [hp.1]; rfl

/-- When the loop over the edges succeeds, the edge it succeeds with is the
first one that starts an open route. -/
theorem explore_edges_first {g : Graph} (h : g.WellFormed) (target : Vertex) {cur : Vertex}
    (hcur : g.HasVertex cur)
    (call : List String → (Nat → Int) → Option Vertex → Option BTResult)
    (vis : Nat → Int) (path : List String)
    (hcall : ∀ d, g.HasVertex d →
      ∃ r, call path vis (some d) = some r ∧ BTOutcome g target path vis d.index r ∧
        (r.found = true → ∃ p : List Nat, r.path = p.map g.label ++ path ∧
          g.FirstRoute target vis d.index p))
    (es : List Edge) (hes : ∀ e ∈ es, e ∈ cur.edges) :
    ∀ r, explore_edges g call cur es path vis = some r → r.found = true →
      ∃ es1 e es2, ∃ p : List Nat, es = es1 ++ e :: es2 ∧
        (∀ e1 ∈ es1, ∀ q, ¬ g.OpenRoute target vis e1.dest q) ∧
        r.path = cur.content :: (p.map g.label ++ path) ∧
        g.FirstRoute target vis e.dest p := by
  induction es with
  | nil =>
    intro r hr hfound
    unfold explore_edges at hr
    cases hr
    cases hfound
  | cons e es ih =>
    have hemem := hes e (List.mem_cons_self _ _)
    have hedest := (h.2 cur (deref_mem hcur) e hemem).1
    obtain ⟨d, hd, hdi⟩ := wf_deref h hedest
    have hdv : g.HasVertex d := by unfold Graph.HasVertex; rw [hdi]; exact hd
    obtain ⟨r1, hr1, hout, hfirst⟩ := hcall d hdv
    rw [hdi] at hout hfirst
    intro r hr hfound
    unfold explore_edges at hr
    rw [hd, hr1] at hr
    simp only at hr
    by_cases f1 : r1.found = true
    · rw [if_pos f1] at hr
      cases hr
      obtain ⟨p, hp1, hp2⟩ := hfirst f1
      refine ⟨[], e, es, p, rfl, ?_, ?_, hp2⟩
      · intro e1 he1
        cases he1
      · simp only
        rw [hp1]
    · rw [if_neg f1] at hr
      rcases hout with ⟨-, f2, f3, f4⟩ | ⟨f1t, -⟩
      · rw [f2, f3] at hr
        obtain ⟨es1, e2, es2, p, k1, k2, k3, k4⟩ :=
          ih (fun e he => hes e (List.mem_cons_of_mem _ he)) r hr hfound
        refine ⟨e :: es1, e2, es2, p, by rw [k1]; rfl, ?_, k3, k4⟩
        intro e1 he1
        rcases List.mem_cons.1 he1 with rfl | he1
        · exact f4
        · exact k2 e1 he1
      · exact absurd f1t f1

/-- A successful call returns the labels of the depth-first route. -/
theorem recursive_backtrack_graph_first {g : Graph} (h : g.WellFormed) (target : Vertex) :
    ∀ fuel path vis cur, (∀ i, vis i = 0 ∨ vis i = 1) → g.HasVertex cur →
      unmarked_count g vis < fuel →
      ∀ r, recursive_backtrack_graph g target fuel path vis (some cur) = some r →
        r.found = true →
        ∃ p : List Nat, r.path = p.map g.label ++ path ∧
          g.FirstRoute target vis cur.index p := by
  intro fuel
  induction fuel with
  | zero => intro _ _ _ _ _ hf; omega
  | succ fuel ih =>
    intro path vis cur hv01 hcur hf r hr hfound
    have hclt := hasVertex_lt h hcur
    unfold recursive_backtrack_graph at hr
    simp only at hr
    split at hr
    · cases hr
      cases hfound
    · rename_i hv1
      have hv0 : vis cur.index = 0 := by
        rcases hv01 cur.index with h0 | h1
        · exact h0
        · exact absurd h1 hv1
      split at hr
      · rename_i hlab
        cases hr
        refine ⟨[cur.index], by simp [label_of_hasVertex hcur], ?_⟩
        unfold Graph.FirstRoute
        exact ⟨rfl, by rw [label_of_hasVertex hcur]; exact hlab⟩
      · rename_i hlab
        have hv01b : ∀ i, Function.update vis cur.index 1 i = 0 ∨
            Function.update vis cur.index 1 i = 1 := by
          intro i
          by_cases hic : i = cur.index
          · right; rw [hic, Function.update_same]
          · rw [Function.update_noteq hic]; exact hv01 i
        have hcnt := unmarked_count_mark g vis cur.index hclt hv0
        have hcall : ∀ d, g.HasVertex d →
            ∃ r, recursive_backtrack_graph g target fuel path
                (Function.update vis cur.index 1) (some d) = some r ∧
              BTOutcome g target path (Function.update vis cur.index 1) d.index r ∧
              (r.found = true → ∃ p : List Nat, r.path = p.map g.label ++ path ∧
                g.FirstRoute target (Function.update vis cur.index 1) d.index p) := by
          intro d hd
          obtain ⟨r1, hr1, ho1⟩ := recursive_backtrack_graph_spec h target fuel path
            (Function.update vis cur.index 1) d hv01b hd (by omega)
          exact ⟨r1, hr1, ho1, ih path _ d hv01b hd (by omega) r1 hr1⟩
        obtain ⟨es1, e, es2, p, k1, k2, k3, k4⟩ := explore_edges_first h target hcur
          (recursive_backtrack_graph g target fuel) (Function.update vis cur.index 1) path
          hcall cur.edges (fun e he => he) r hr hfound
        have hhead := firstRoute_head k4
        cases p with
        | nil => cases hhead
        | cons v rest =>
          simp at hhead
          subst hhead
          refine ⟨cur.index :: e.dest :: rest, ?_, ?_⟩
          · rw [k3]
            simp [label_of_hasVertex hcur]
          · unfold Graph.FirstRoute
            refine ⟨rfl, ?_, ⟨cur, es1, e, es2, hcur, k1, rfl, k2⟩, k4⟩
            rw [label_of_hasVertex hcur]; exact hlab

/-! ## The selections of the search -/

/-- Dropping the selections of `recursive_dijkstra_log` gives
`recursive_dijkstra`. -/
theorem recursive_dijkstra_log_erase (g : Graph) (target : Vertex) :
    ∀ fuel st sel,
      (recursive_dijkstra_log g target fuel st sel).map Prod.fst =
        recursive_dijkstra g target fuel st := by
  intro fuel
  induction fuel with
  | zero => intro st sel; rfl
  | succ fuel ih =>
    intro st sel
    unfold recursive_dijkstra_log recursive_dijkstra
    cases get_min_distance g st.distance st.visited with
    | none => rfl
    | some cur =>
      simp only
      split
      · rfl
      · exact ih _ _

theorem selInv_length {g : Graph} {st : DState} {sel : List Nat} (h : SelInv g st sel) :
    sel.length ≤ g.nb_vertices := by
  have hsub : sel ⊆ List.range g.nb_vertices := fun i hi => List.mem_range.2 (h.2.2 i hi)
  have := (List.subperm_of_subset h.1 hsub).length_le
  rwa [List.length_range] at this

/-- The search returns within `unvisited_count + 1` units of fuel, whatever the
weights; its selections are pairwise distinct, they are the vertices marked
visited on return, the target can only be the last of them, and the search
stops because the target is visited or `get_min_distance` returns `NULL`. -/
theorem recursive_dijkstra_log_spec {g : Graph} (h : g.WellFormed) (target : Vertex) :
    ∀ fuel st sel, SelInv g st sel → st.visited target.index ≠ 1 →
      unvisited_count g st.visited < fuel →
      ∃ st1 sel1, recursive_dijkstra_log g target fuel st sel = some (st1, sel1) ∧
        SelInv g st1 sel1 ∧ (∃ more, sel1 = sel ++ more) ∧
        (target.index ∈ sel1 → sel1.getLast? = some target.index) ∧
        (st1.visited target.index = 1 ∨
          get_min_distance g st1.distance st1.visited = none) := by
  intro fuel
  induction fuel with
  | zero => intro _ _ _ _ hf; omega
  | succ fuel ih =>
    intro st sel hinv htv hf
    unfold recursive_dijkstra_log
    cases hmin : get_min_distance g st.distance st.visited with
    | none =>
      refine ⟨st, sel, rfl, hinv, ⟨[], by simp⟩, ?_, Or.inr hmin⟩
      intro hmem
      exact absurd ((hinv.2.1 _).2 hmem) htv
    | some cur =>
      simp only
      obtain ⟨-, hlt, hv0, -, -⟩ := get_min_some h hmin
      have hnotin : cur.index ∉ sel := by
        intro hmem
        have := (hinv.2.1 _).2 hmem
        rw [hv0] at this
        exact absurd this (by decide)
      have hinv2 : SelInv g
          { relax_edges cur cur.index cur.edges st with
            visited := Function.update (relax_edges cur cur.index cur.edges st).visited
              cur.index 1 } (sel ++ [cur.index]) := by
        refine ⟨?_, ?_, ?_⟩
        · rw [List.nodup_append]
          refine ⟨hinv.1, List.nodup_singleton _, ?_⟩
          intro a ha hb
          rw [List.mem_singleton.1 hb] at ha
          exact hnotin ha
        · intro i
          simp only
          rw [relax_visited]
          by_cases hic : i = cur.index
          · rw [hic, Function.update_same]
            simp
          · rw [Function.update_noteq hic, hinv.2.1 i]
            simp [hic]
        · intro i hi
          rcases List.mem_append.1 hi with hi | hi
          · exact hinv.2.2 i hi
          · rw [List.mem_singleton.1 hi]; exact hlt
      split
      · rename_i hvis
        refine ⟨_, _, rfl, hinv2, ⟨[cur.index], rfl⟩, ?_, Or.inl hvis⟩
        intro _
        rw [relax_visited] at hvis
        have hct : target.index = cur.index := by
          by_contra hne
          rw [Function.update_noteq hne] at hvis
          exact htv hvis
        rw [hct]
        simp
      · rename_i hvis
        have hcnt := unvisited_count_mark g st.visited cur.index hlt hv0
        obtain ⟨st1, sel1, e1, e2, ⟨more, e3⟩, e4, e5⟩ := ih _ _ hinv2 hvis (by
          simp only
          rw [relax_visited]
          omega)
        exact ⟨st1, sel1, e1, e2, ⟨cur.index :: more, by rw [e3]; simp⟩, e4, e5⟩

theorem selInv_init (g : Graph) (start : Vertex) : SelInv g (init_dijkstra start) [] := by
  refine ⟨List.nodup_nil, ?_, ?_⟩
  · intro i
    simp [init_dijkstra]
  · intro i hi
    cases hi

/-! ## Claims on the grid search -/

/-- No open path crosses a row without open cell. -/
theorem no_open_path_across_row {map : Grid} {rows cols : Int} {start target : Point}
    (k : Int) (hrow : ∀ pt, map.OpenAt rows cols pt → pt.y ≠ k)
    (hside : start.y < k ∧ k < target.y) :
    ∀ q, ¬ map.OpenPath rows cols start target q := by
  rintro q ⟨q1, q2, q3, q4⟩
  obtain ⟨pt, hpt, hk⟩ := trail_crosses_up k q start target q4 q1 q2 hside.1 hside.2
  exact hrow pt (q3 pt hpt) hk

theorem walled_row_closed : ∀ pt, walled.OpenAt 3 3 pt → pt.y ≠ 1 := by
  rintro ⟨x, y⟩ ⟨h1, h2, h3, h4, h5⟩ hy
  simp only at h1 h2 h3 h4 h5 hy
  subst hy
  have hx : x = 0 ∨ x = 1 ∨ x = 2 := by omega
  rcases hx with rfl | rfl | rfl
  · revert h5; decide
  · revert h5; decide
  · revert h5; decide

/-- C11: on a rectangular grid, when no sequence of orthogonally adjacent open
cells leads from start to target (which covers a start or target that is
blocked or outside the grid), `backtracking_array` returns `NULL`. -/
theorem c11_backtracking_array_no_path_is_absent (map : Grid) (rows cols : Int)
    (start target : Point) (h : map.Rect rows cols)
    (hno : ∀ q, ¬ map.OpenPath rows cols start target q) :
    backtracking_array map rows cols start target = some none := by
  rcases backtracking_array_spec h start target with h1 | ⟨q, -, c1, c2, c3, c4, -⟩
  · exact h1
  · exact absurd ⟨c1, c2, c3, c4⟩ (hno q)

/-- Witness of C11 on a grid whose middle row is blocked, from (0, 0) to
(0, 2). -/
theorem c11_backtracking_array_no_path_is_absent_witness :
    (walled.Rect 3 3 ∧ ∀ q, ¬ walled.OpenPath 3 3 ⟨0, 0⟩ ⟨0, 2⟩ q) ∧
    backtracking_array walled 3 3 ⟨0, 0⟩ ⟨0, 2⟩ = some none :=
  ⟨⟨by decide, no_open_path_across_row 1 walled_row_closed (by decide)⟩,
    c11_backtracking_array_no_path_is_absent walled 3 3 ⟨0, 0⟩ ⟨0, 2⟩ (by decide)
      (no_open_path_across_row 1 walled_row_closed (by decide))⟩

/-- C12: when the caller's rectangular grid lies in buffers handed out before
the call, `backtracking_array` returns (with the result it has on the grid as
a value) and every row of the caller's grid holds after the call what it held
before: all marking is done in the buffers of the private copy. -/
theorem c12_caller_grid_is_untouched (mem : Mem) (map : List Nat) (rows cols : Int)
    (start target : Point) (halloc : ∀ a ∈ map, a < mem.next)
    (hrect : (mem.view map).Rect rows cols) :
    ∃ res mem1, backtracking_array_mem mem map rows cols start target = some (res, mem1) ∧
      (∀ a ∈ map, mem1.rows a = mem.rows a) ∧ mem1.view map = mem.view map ∧
      backtracking_array (mem.view map) rows cols start target = some res := by
  obtain ⟨res, mem1, h1, h2, h3⟩ :=
    backtracking_array_mem_spec mem map rows cols start target halloc hrect
  refine ⟨res, mem1, h1, fun a ha => h2 a (halloc a ha), ?_, h3⟩
  unfold Mem.view
  apply List.map_congr_left
  intro a ha
  exact h2 a (halloc a ha)

/-- Witness of C12 on a 2 x 2 grid held at the addresses 0 and 1. -/
theorem c12_caller_grid_is_untouched_witness :
    ((∀ a ∈ [0, 1], a < square_mem.next) ∧ (square_mem.view [0, 1]).Rect 2 2) ∧
    ∃ res mem1, backtracking_array_mem square_mem [0, 1] 2 2 ⟨0, 0⟩ ⟨1, 1⟩ = some (res, mem1) ∧
      (∀ a ∈ [0, 1], mem1.rows a = square_mem.rows a) ∧
      mem1.view [0, 1] = square_mem.view [0, 1] ∧
      backtracking_array (square_mem.view [0, 1]) 2 2 ⟨0, 0⟩ ⟨1, 1⟩ = some res :=
  ⟨by decide, c12_caller_grid_is_untouched square_mem [0, 1] 2 2 ⟨0, 0⟩ ⟨1, 1⟩
    (by decide) (by decide)⟩

theorem open_square_path :
    open_square.OpenPath 2 2 ⟨0, 0⟩ ⟨1, 1⟩ [⟨0, 0⟩, ⟨0, 1⟩, ⟨1, 1⟩] := by
  refine ⟨rfl, rfl, by decide, ?_⟩
  exact List.chain'_cons.2 ⟨by decide, List.chain'_cons.2 ⟨by decide, List.chain'_singleton _⟩⟩

/-- C13, refuted: there is no rectangular grid with a start and a target such
that a sequence of orthogonally adjacent open cells leads from start to target
and `backtracking_array` returns `NULL`. -/
theorem c13_no_grid_loses_a_path :
    ¬ ∃ (map : Grid) (rows cols : Int) (start target : Point) (q : List Point),
      map.Rect rows cols ∧ map.OpenPath rows cols start target q ∧
      backtracking_array map rows cols start target = some none := by
  rintro ⟨map, rows, cols, start, target, q, h, hq, hres⟩
  exact backtracking_array_complete h hq hres

/-- C13, as amended: on a rectangular grid, whenever a sequence of
orthogonally adjacent open cells leads from start to target,
`backtracking_array` returns a path, although a cell claimed on a failed
branch is never reopened. -/
theorem c13_backtracking_array_finds_a_path (map : Grid) (rows cols : Int)
    (start target : Point) (q : List Point) (h : map.Rect rows cols)
    (hq : map.OpenPath rows cols start target q) :
    ∃ p, backtracking_array map rows cols start target = some (some p) := by
  rcases backtracking_array_spec h start target with h1 | ⟨p, h1, -⟩
  · exact absurd h1 (backtracking_array_complete h hq)
  · exact ⟨p, h1⟩

/-- Witness of C13 on an open 2 x 2 grid, from (0, 0) to (1, 1). -/
theorem c13_backtracking_array_finds_a_path_witness :
    (open_square.Rect 2 2 ∧
      open_square.OpenPath 2 2 ⟨0, 0⟩ ⟨1, 1⟩ [⟨0, 0⟩, ⟨0, 1⟩, ⟨1, 1⟩]) ∧
    ∃ p, backtracking_array open_square 2 2 ⟨0, 0⟩ ⟨1, 1⟩ = some (some p) :=
  ⟨⟨by decide, open_square_path⟩,
    c13_backtracking_array_finds_a_path open_square 2 2 ⟨0, 0⟩ ⟨1, 1⟩
      [⟨0, 0⟩, ⟨0, 1⟩, ⟨1, 1⟩] (by decide) open_square_path⟩

/-- C14: on a rectangular grid the recursion of `backtrack` started by
`backtracking_array` returns; the cells it reports as checked are pairwise
distinct, there are at most `rows * cols` of them, and each of them is an
in-grid cell that is open in the caller's grid. -/
theorem c14_backtrack_claims_each_cell_once (map : Grid) (rows cols : Int)
    (start target : Point) (h : map.Rect rows cols) :
    ∃ r log, backtrack_log (map.size + 1) map rows cols target start.x start.y [] [] =
        some (r, log) ∧
      backtrack (map.size + 1) map rows cols target start.x start.y [] = some r ∧
      log.Nodup ∧ (log.length : Int) ≤ rows * cols ∧
      ∀ c ∈ log, map.OpenAt rows cols c := by
  obtain ⟨r, cl, hr, k1, k2, k3, -⟩ := backtrack_log_spec rows cols target (map.size + 1) map
    start.x start.y [] [] (Nat.lt_succ_of_le (zeros_le_size map))
  rw [List.nil_append] at hr
  refine ⟨r, cl, hr, ?_, k1, ?_, fun c hc => (k2 c hc).1⟩
  · have := backtrack_log_erase rows cols target (map.size + 1) map start.x start.y [] []
    rw [hr] at this
    exact this.symm
  · have hz := zeros_le_size map
    have hs := size_rect h
    rw [← hs]
    have : cl.length ≤ map.size := by omega
    exact_mod_cast this

/-- Witness of C14 on a 2 x 2 grid, with a target outside the grid. -/
theorem c14_backtrack_claims_each_cell_once_witness :
    open_square.Rect 2 2 ∧
    ∃ r log, backtrack_log (open_square.size + 1) open_square 2 2 ⟨5, 5⟩ 0 0 [] [] =
        some (r, log) ∧
      backtrack (open_square.size + 1) open_square 2 2 ⟨5, 5⟩ 0 0 [] = some r ∧
      log.Nodup ∧ (log.length : Int) ≤ 2 * 2 ∧
      ∀ c ∈ log, open_square.OpenAt 2 2 c :=
  ⟨by decide, c14_backtrack_claims_each_cell_once open_square 2 2 ⟨0, 0⟩ ⟨5, 5⟩ (by decide)⟩

/-! ## Claims on the graph backtracking search -/

/-- C15: on a well-formed graph, for every `visited` array (an array of flags
0 and 1, as `calloc` and the two assignments of the function make it) and
every current vertex, `recursive_backtrack_graph` returns; on failure the
array and the queue are what they were on entry; on success the labels of a
sequence of vertices that starts at the current vertex and ends at a vertex
with the label of target are put in front of the queue, and the vertices
marked beyond the entry state are exactly the vertices of that sequence other
than the last one. -/
theorem c15_backtrack_marks_are_path_local (g : Graph) (target cur : Vertex) (fuel : Nat)
    (path : List String) (vis : Nat → Int) (h : g.WellFormed)
    (h01 : ∀ i, vis i = 0 ∨ vis i = 1) (hcur : g.HasVertex cur)
    (hf : unmarked_count g vis < fuel) :
    ∃ r, recursive_backtrack_graph g target fuel path vis (some cur) = some r ∧
      (r.found = false → r.visited = vis ∧ r.path = path) ∧
      (r.found = true → ∃ p : List Nat, r.path = p.map g.label ++ path ∧
        p.head? = some cur.index ∧
        (∃ t, p.getLast? = some t ∧ g.label t = target.content) ∧
        (∀ i, (r.visited i = 1 ∧ vis i ≠ 1) ↔ i ∈ p.dropLast) ∧
        (∀ i, i ∉ p.dropLast → r.visited i = vis i)) :=
  recursive_backtrack_graph_frame h target fuel path vis cur h01 hcur hf

/-- Witness of C15 on scenario 2, entered at A with target D and no vertex
marked. -/
theorem c15_backtrack_marks_are_path_local_witness :
    (scenario2.WellFormed ∧ (∀ i : Nat, (fun _ : Nat => (0 : Int)) i = 0 ∨ (fun _ : Nat => (0 : Int)) i = 1) ∧
      scenario2.HasVertex scenario2_A ∧ unmarked_count scenario2 (fun _ => 0) < 5) ∧
    ∃ r, recursive_backtrack_graph scenario2 scenario2_D 5 [] (fun _ => 0)
        (some scenario2_A) = some r ∧
      (r.found = false → r.visited = (fun _ => 0) ∧ r.path = []) ∧
      (r.found = true → ∃ p : List Nat, r.path = p.map scenario2.label ++ [] ∧
        p.head? = some scenario2_A.index ∧
        (∃ t, p.getLast? = some t ∧ scenario2.label t = scenario2_D.content) ∧
        (∀ i, (r.visited i = 1 ∧ (0 : Int) ≠ 1) ↔ i ∈ p.dropLast) ∧
        (∀ i, i ∉ p.dropLast → r.visited i = 0)) :=
  ⟨⟨by decide, fun _ => Or.inl rfl, by decide, by decide⟩,
    c15_backtrack_marks_are_path_local scenario2 scenario2_D scenario2_A 5 [] (fun _ => 0)
      (by decide) (fun _ => Or.inl rfl) (by decide) (by decide)⟩

/-- C16: on a well-formed graph, whatever its cycles, self-loops and duplicate
edges, `backtracking_graph` returns. Every call of
`recursive_backtrack_graph` on an array of flags returns; a call that does not
return at once runs the loop over the edges of its vertex with that vertex
marked, and each nested call of that loop is entered with strictly fewer
unmarked vertices than the call itself was. -/
theorem c16_backtracking_graph_terminates (g : Graph) (start target cur : Vertex)
    (fuel : Nat) (path : List String) (vis : Nat → Int) (h : g.WellFormed)
    (hs : g.HasVertex start) (h01 : ∀ i, vis i = 0 ∨ vis i = 1) (hcur : g.HasVertex cur)
    (hf : unmarked_count g vis < fuel + 1) (hv : vis cur.index ≠ 1) :
    (∃ r, backtracking_graph g start target = some r) ∧
    (∃ r, recursive_backtrack_graph g target (fuel + 1) path vis (some cur) = some r) ∧
    (cur.content ≠ target.content →
      recursive_backtrack_graph g target (fuel + 1) path vis (some cur) =
        explore_edges g (recursive_backtrack_graph g target fuel) cur cur.edges path
          (Function.update vis cur.index 1)) ∧
    ∀ v ∈ nested_entries g (recursive_backtrack_graph g target fuel) cur.edges path
        (Function.update vis cur.index 1),
      unmarked_count g v < unmarked_count g vis := by
  refine ⟨?_, ?_, ?_, nested_entries_measure h target fuel path vis cur h01 hcur hf hv⟩
  · rcases backtracking_graph_spec h target hs with ⟨h1, -⟩ | ⟨p, h1, -⟩
    · exact ⟨_, h1⟩
    · exact ⟨_, h1⟩
  · obtain ⟨r, hr, -⟩ :=
      recursive_backtrack_graph_spec h target (fuel + 1) path vis cur h01 hcur hf
    exact ⟨r, hr⟩
  · intro hne
    simp [recursive_backtrack_graph, hv, hne]

/-- Witness of C16 on scenario 3, whose vertices A and B lie on a cycle,
entered at A with target E and no vertex marked. -/
theorem c16_backtracking_graph_terminates_witness :
    (scenario3.WellFormed ∧ scenario3.HasVertex scenario3_A ∧
      (∀ i : Nat, (fun _ : Nat => (0 : Int)) i = 0 ∨ (fun _ : Nat => (0 : Int)) i = 1) ∧
      unmarked_count scenario3 (fun _ => 0) < 3 + 1 ∧ (0 : Int) ≠ 1) ∧
    ((∃ r, backtracking_graph scenario3 scenario3_A scenario3_E = some r) ∧
    (∃ r, recursive_backtrack_graph scenario3 scenario3_E (3 + 1) [] (fun _ => 0)
        (some scenario3_A) = some r) ∧
    (scenario3_A.content ≠ scenario3_E.content →
      recursive_backtrack_graph scenario3 scenario3_E (3 + 1) [] (fun _ => 0)
          (some scenario3_A) =
        explore_edges scenario3 (recursive_backtrack_graph scenario3 scenario3_E 3)
          scenario3_A scenario3_A.edges [] (Function.update (fun _ => 0) scenario3_A.index 1)) ∧
    ∀ v ∈ nested_entries scenario3 (recursive_backtrack_graph scenario3 scenario3_E 3)
        scenario3_A.edges [] (Function.update (fun _ => 0) scenario3_A.index 1),
      unmarked_count scenario3 v < unmarked_count scenario3 (fun _ => 0)) :=
  ⟨⟨by decide, by decide, fun _ => Or.inl rfl, by decide, by decide⟩,
    c16_backtracking_graph_terminates scenario3 scenario3_A scenario3_E scenario3_A 3 []
      (fun _ => 0) (by decide) (by decide) (fun _ => Or.inl rfl) (by decide) (by decide)
      (by decide)⟩

theorem twins_no_incoming : ∀ u ∈ List.range twins.nb_vertices, ¬ twins.HasEdge u 2 := by
  decide

/-- C20: on a well-formed graph `backtracking_graph` returns a path exactly
when some vertex that carries the label of target can be reached from start,
and a returned path holds the labels of the depth-first route, which ends at
the first vertex with that label met in depth-first edge order. On the graph
`twins`, with two vertices labelled T, the returned path ends at a vertex other
than target although target cannot be reached from start. -/
theorem c20_backtracking_graph_matches_labels (g : Graph) (start target : Vertex)
    (h : g.WellFormed) (hs : g.HasVertex start) :
    ((∃ q, backtracking_graph g start target = some (some q)) ↔
      ∃ t, g.label t = target.content ∧ g.Reachable start.index t) ∧
    (∀ q, backtracking_graph g start target = some (some q) →
      ∃ p : List Nat, q = p.map g.label ∧
        g.FirstRoute target (fun _ => 0) start.index p) ∧
    (∃ (g2 : Graph) (s2 t2 : Vertex) (q : List String) (p : List Nat) (u : Nat),
      g2.WellFormed ∧ g2.HasVertex s2 ∧ g2.HasVertex t2 ∧
      backtracking_graph g2 s2 t2 = some (some q) ∧ q = p.map g2.label ∧
      g2.IsRoute s2.index u p ∧ u ≠ t2.index ∧ g2.label u = t2.content ∧
      ¬ g2.Reachable s2.index t2.index) := by
  refine ⟨?_, ?_, ?_⟩
  · rcases backtracking_graph_spec h target hs with ⟨h1, h2⟩ | ⟨p, h1, h2, -⟩
    · constructor
      · rintro ⟨q, hq⟩
        rw [h1] at hq
        cases hq
      · rintro ⟨t, hlab, p, hp⟩
        exact absurd ⟨hp.1, fun u hu => ⟨hp.2.2.1 u hu, rfl⟩, hp.2.2.2, t, hp.2.1, hlab⟩
          (h2 p)
    · constructor
      · intro _
        obtain ⟨t, hlab, hroute⟩ := openRoute_isRoute h2
        exact ⟨t, hlab, p, hroute⟩
      · intro _
        exact ⟨_, h1⟩
  · intro q hq
    have hf : unmarked_count g (fun _ => 0) < g.nb_vertices + 1 :=
      Nat.lt_succ_of_le (unmarked_count_le g _)
    obtain ⟨r, hr, -⟩ := recursive_backtrack_graph_spec h target (g.nb_vertices + 1) []
      (fun _ => 0) start (fun _ => Or.inl rfl) hs hf
    unfold backtracking_graph at hq
    rw [hr] at hq
    simp only at hq
    by_cases hfound : r.found = true
    · rw [if_pos hfound] at hq
      obtain ⟨p, hp1, hp2⟩ := recursive_backtrack_graph_first h target (g.nb_vertices + 1) []
        (fun _ => 0) start (fun _ => Or.inl rfl) hs hf r hr hfound
      rw [List.append_nil] at hp1
      refine ⟨p, ?_, hp2⟩
      rw [← hp1]
      exact (Option.some.inj (Option.some.inj hq)).symm
    · rw [if_neg hfound] at hq
      cases hq
  · exact ⟨twins, twins_A, twins_T, ["A", "T"], [0, 1], 1, by decide, by decide, by decide,
      by decide, by decide,
      ⟨rfl, rfl, by decide, List.chain'_cons.2 ⟨by decide, List.chain'_singleton _⟩⟩,
      by decide, by decide, not_reachable_of_no_incoming (by decide) twins_no_incoming⟩

/-- Witness of C20 on the graph `twins`, from A to the second vertex labelled
T. -/
theorem c20_backtracking_graph_matches_labels_witness :
    (twins.WellFormed ∧ twins.HasVertex twins_A) ∧
    (((∃ q, backtracking_graph twins twins_A twins_T = some (some q)) ↔
      ∃ t, twins.label t = twins_T.content ∧ twins.Reachable twins_A.index t) ∧
    (∀ q, backtracking_graph twins twins_A twins_T = some (some q) →
      ∃ p : List Nat, q = p.map twins.label ∧
        twins.FirstRoute twins_T (fun _ => 0) twins_A.index p) ∧
    (∃ (g2 : Graph) (s2 t2 : Vertex) (q : List String) (p : List Nat) (u : Nat),
      g2.WellFormed ∧ g2.HasVertex s2 ∧ g2.HasVertex t2 ∧
      backtracking_graph g2 s2 t2 = some (some q) ∧ q = p.map g2.label ∧
      g2.IsRoute s2.index u p ∧ u ≠ t2.index ∧ g2.label u = t2.content ∧
      ¬ g2.Reachable s2.index t2.index)) :=
  ⟨by decide, c20_backtracking_graph_matches_labels twins twins_A twins_T
    (by decide) (by decide)⟩

/-! ## Claims on the Dijkstra search -/

/-- What holds of the selections on a graph of any size: `recursive_dijkstra`
returns; the vertices it selects are pairwise distinct vertices of the graph,
at most `nb_vertices` of them, and they are the vertices marked visited on
return; the target can only be the last selection; and on return the target is
visited or `get_min_distance` has returned `NULL`. With at most `INT_MAX`
vertices that `NULL` means that every unvisited vertex has a distance of
`INT_MAX` or more. -/
theorem recursive_dijkstra_selections (g : Graph) (start target : Vertex)
    (h : g.WellFormed) :
    ∃ st sel, recursive_dijkstra_log g target (g.nb_vertices + 1) (init_dijkstra start) [] =
        some (st, sel) ∧
      recursive_dijkstra g target (g.nb_vertices + 1) (init_dijkstra start) = some st ∧
      sel.Nodup ∧ sel.length ≤ g.nb_vertices ∧ (∀ i ∈ sel, i < g.nb_vertices) ∧
      (∀ i, st.visited i = 1 ↔ i ∈ sel) ∧
      (target.index ∈ sel → sel.getLast? = some target.index) ∧
      (st.visited target.index = 1 ∨
        get_min_distance g st.distance st.visited = none) ∧
      (g.nb_vertices ≤ INT_MAX →
        st.visited target.index = 1 ∨
          ∀ j, j < g.nb_vertices → st.visited j = 0 → INT_MAX ≤ st.distance j) := by
  obtain ⟨st, sel, hrun, hinv, -, hlast, hstop⟩ :=
    recursive_dijkstra_log_spec h target (g.nb_vertices + 1) (init_dijkstra start) []
      (selInv_init g start) (by simp [init_dijkstra])
      (Nat.lt_succ_of_le (unvisited_count_le g _))
  refine ⟨st, sel, hrun, ?_, hinv.1, selInv_length hinv, hinv.2.2, hinv.2.1, hlast, hstop,
    ?_⟩
  · have := recursive_dijkstra_log_erase g target (g.nb_vertices + 1) (init_dijkstra start) []
    rw [hrun] at this
    exact this.symm
  · intro hsize
    rcases hstop with hvis | hmin
    · exact Or.inl hvis
    · exact Or.inr (get_min_none h hsize hmin)

/-- The selections on scenario 2, from A to D. -/
theorem recursive_dijkstra_selections_scenario2 :
    scenario2.WellFormed ∧
    ∃ st sel, recursive_dijkstra_log scenario2 scenario2_D (scenario2.nb_vertices + 1)
        (init_dijkstra scenario2_A) [] = some (st, sel) ∧
      recursive_dijkstra scenario2 scenario2_D (scenario2.nb_vertices + 1)
        (init_dijkstra scenario2_A) = some st ∧
      sel.Nodup ∧ sel.length ≤ scenario2.nb_vertices ∧
      (∀ i ∈ sel, i < scenario2.nb_vertices) ∧
      (∀ i, st.visited i = 1 ↔ i ∈ sel) ∧
      (scenario2_D.index ∈ sel → sel.getLast? = some scenario2_D.index) ∧
      (st.visited scenario2_D.index = 1 ∨
        get_min_distance scenario2 st.distance st.visited = none) ∧
      (scenario2.nb_vertices ≤ INT_MAX →
        st.visited scenario2_D.index = 1 ∨
          ∀ j, j < scenario2.nb_vertices → st.visited j = 0 → INT_MAX ≤ st.distance j) :=
  ⟨by decide, recursive_dijkstra_selections scenario2 scenario2_A scenario2_D (by decide)⟩

/-- C17: the search does not always run until the target is visited or no
unvisited vertex with a distance below `INT_MAX` remains. On the graph `huge`
of `INT_MAX + 1` vertices the search from vertex 0 for vertex 1 returns after
its first selection: `get_min_distance` returns `NULL` on the arrays
`huge_state`, in which the target is not visited and is itself an unvisited
vertex of distance 10, and vertex `INT_MAX` is an unvisited vertex of distance
1. -/
theorem c17_huge_graph_search_stops_early :
    huge.WellFormed ∧ huge.HasVertex (huge_vertex 0) ∧ huge.HasVertex (huge_vertex 1) ∧
    recursive_dijkstra huge (huge_vertex 1) (huge.nb_vertices + 1)
      (init_dijkstra (huge_vertex 0)) = some huge_state ∧
    get_min_distance huge huge_state.distance huge_state.visited = none ∧
    (huge_vertex 1).index < huge.nb_vertices ∧
    huge_state.visited (huge_vertex 1).index = 0 ∧
    huge_state.distance (huge_vertex 1).index = 10 ∧ 10 < INT_MAX ∧
    INT_MAX < huge.nb_vertices ∧ huge_state.visited INT_MAX = 0 ∧
    huge_state.distance INT_MAX = 1 := by
  refine ⟨huge_wf, huge_hasVertex (Nat.succ_pos _), huge_hasVertex (by simp [INT_MAX]),
    huge_run (huge_vertex 1) (by simp [huge_vertex]), huge_select_second, ?_, ?_, ?_,
    by simp [INT_MAX], ?_, ?_, ?_⟩
  · rw [huge_nb]
    simp [huge_vertex, INT_MAX]
  · simp [huge_state, huge_vertex]
  · simp [huge_state, huge_vertex, INT_MAX]
  · rw [huge_nb]
    exact Nat.lt_succ_self _
  · simp [huge_state, INT_MAX]
  · simp [huge_state]

/-- C18: on the graph `negative`, which is well formed and has an edge of
weight -3, `dijkstra_graph` from A to B returns the path A, B of cost 5 although
the route A, C, B costs 1: the distance 0 plus the weight -3 is
`2 ^ 64 - 3` in `size_t` arithmetic, so that C never gets a distance below
`INT_MAX`. -/
theorem c18_negative_weight_gives_costlier_path :
    ∃ (g : Graph) (start target : Vertex) (q : List String) (p1 p2 : List Nat),
      g.WellFormed ∧ g.HasVertex start ∧ g.HasVertex target ∧
      (∃ v ∈ g.vertices, ∃ e ∈ v.edges, e.weight < 0) ∧
      dijkstra_graph g start target = some (some q) ∧ q = p1.map g.label ∧
      g.IsRoute start.index target.index p1 ∧ g.IsRoute start.index target.index p2 ∧
      g.pathCost p2 < g.pathCost p1 ∧
      add_weight ((init_dijkstra start).distance start.index) (-3) = SIZE_MOD - 3 := by
  refine ⟨negative, negative_A, negative_B, ["A", "B"], [0, 1], [0, 2, 1], by decide,
    by decide, by decide, by decide, by decide, by decide, ?_, ?_, by decide, by decide⟩
  · exact ⟨rfl, rfl, by decide, List.chain'_cons.2 ⟨by decide, List.chain'_singleton _⟩⟩
  · exact ⟨rfl, rfl, by decide,
      List.chain'_cons.2 ⟨by decide, List.chain'_cons.2 ⟨by decide, List.chain'_singleton _⟩⟩⟩

theorem huge_weights_max_0 : huge.weights INT_MAX 0 = [1] := by
  rw [huge_weights (Nat.lt_succ_self _)]
  simp [huge_edges, INT_MAX]

theorem huge_cheapest_max_0 : huge.cheapest INT_MAX 0 = 1 := by
  rw [cheapest_of_weights huge_weights_max_0]
  rfl

/-- What holds of the result on a graph of any size with non-negative
weights: `dijkstra_graph` returns; a path is returned only if some route from
start to target costs less than `INT_MAX`, so that the result is `NULL` when
every route costs `INT_MAX` or more. With at most `INT_MAX` vertices and start
different from target the converse holds too: a path is returned if some
route costs less than `INT_MAX`. -/
theorem dijkstra_graph_path_iff (g : Graph) (start target : Vertex)
    (h : g.WellFormed) (hnn : g.NonNeg) (ht : g.HasVertex target) :
    (∃ r, dijkstra_graph g start target = some r) ∧
    ((∃ q, dijkstra_graph g start target = some (some q)) →
      ∃ p, g.IsRoute start.index target.index p ∧ g.pathCost p < (INT_MAX : Int)) ∧
    ((∀ p, g.IsRoute start.index target.index p → (INT_MAX : Int) ≤ g.pathCost p) →
      dijkstra_graph g start target = some none) ∧
    (g.nb_vertices ≤ INT_MAX → start.index ≠ target.index →
      (∃ p, g.IsRoute start.index target.index p ∧ g.pathCost p < (INT_MAX : Int)) →
      ∃ q, dijkstra_graph g start target = some (some q)) := by
  have hconv : g.nb_vertices ≤ INT_MAX → start.index ≠ target.index →
      (∃ p, g.IsRoute start.index target.index p ∧ g.pathCost p < (INT_MAX : Int)) →
      ∃ q, dijkstra_graph g start target = some (some q) := by
    rintro hsize hne ⟨p, hp, hlt⟩
    rcases dijkstra_graph_spec h hnn hsize ht hne with ⟨-, h2⟩ | ⟨p1, h1, -⟩
    · have := h2 p hp
      omega
    · exact ⟨_, h1⟩
  obtain ⟨st, rank, K, -, -, hres⟩ := dijkstra_graph_result h hnn start ht
  rcases hres with ⟨-, hnull⟩ | ⟨hdist, p, hp, hsimple, hcost⟩
  · refine ⟨⟨_, hnull⟩, ?_, fun _ => hnull, hconv⟩
    rintro ⟨q, hq⟩
    rw [hnull] at hq
    cases hq
  · have hlt : g.pathCost p < (INT_MAX : Int) := by
      rw [hcost]
      exact_mod_cast hdist
    refine ⟨⟨_, hp⟩, fun _ => ⟨p, hsimple.1, hlt⟩, ?_, hconv⟩
    intro hall
    have := hall p hsimple.1
    omega

/-- The result on the graph `far`, whose only edge, from A to B, has weight
`INT_MAX`: B can be reached from A, every route costs `INT_MAX` or more, and
the result is `NULL`. -/
theorem dijkstra_graph_path_iff_far :
    (far.WellFormed ∧ far.NonNeg ∧ far.HasVertex far_B) ∧
    far.weights far_A.index far_B.index = [(INT_MAX : Int)] ∧
    far.IsRoute far_A.index far_B.index [far_A.index, far_B.index] ∧
    dijkstra_graph far far_A far_B = some none ∧
    ((∃ r, dijkstra_graph far far_A far_B = some r) ∧
    ((∃ q, dijkstra_graph far far_A far_B = some (some q)) →
      ∃ p, far.IsRoute far_A.index far_B.index p ∧ far.pathCost p < (INT_MAX : Int)) ∧
    ((∀ p, far.IsRoute far_A.index far_B.index p → (INT_MAX : Int) ≤ far.pathCost p) →
      dijkstra_graph far far_A far_B = some none) ∧
    (far.nb_vertices ≤ INT_MAX → far_A.index ≠ far_B.index →
      (∃ p, far.IsRoute far_A.index far_B.index p ∧ far.pathCost p < (INT_MAX : Int)) →
      ∃ q, dijkstra_graph far far_A far_B = some (some q))) :=
  ⟨by decide, by decide,
    ⟨rfl, rfl, by decide, List.chain'_cons.2 ⟨by decide, List.chain'_singleton _⟩⟩,
    by decide,
    dijkstra_graph_path_iff far far_A far_B (by decide) (by decide) (by decide)⟩

/-- C19: a path is not always returned when a route costs less than
`INT_MAX`. On the graph `huge` of `INT_MAX + 1` vertices, whose weights are
non-negative, the route from vertex `INT_MAX` to vertex 0 over the edge between
them costs 1, yet `dijkstra_graph` returns `NULL`: the start, of index
`INT_MAX`, is never selected. -/
theorem c19_huge_graph_reachable_is_absent :
    huge.WellFormed ∧ huge.NonNeg ∧ huge.HasVertex (huge_vertex INT_MAX) ∧
    huge.HasVertex (huge_vertex 0) ∧ (huge_vertex INT_MAX).index ≠ (huge_vertex 0).index ∧
    huge.IsRoute (huge_vertex INT_MAX).index (huge_vertex 0).index [INT_MAX, 0] ∧
    huge.pathCost [INT_MAX, 0] = 1 ∧ (1 : Int) < (INT_MAX : Int) ∧
    dijkstra_graph huge (huge_vertex INT_MAX) (huge_vertex 0) = some none := by
  refine ⟨huge_wf, huge_nonneg, huge_hasVertex (Nat.lt_succ_self _),
    huge_hasVertex (Nat.succ_pos _), by simp [huge_vertex, INT_MAX], ⟨rfl, rfl, ?_, ?_⟩, ?_,
    by simp [INT_MAX], huge_dijkstra_max_0⟩
  · intro u hu
    rw [huge_nb]
    simp [INT_MAX] at hu ⊢
    omega
  · exact List.chain'_cons.2
      ⟨hasEdge_of_weights huge_weights_max_0, List.chain'_singleton _⟩
  · rw [Graph.pathCost, Graph.pathCost, huge_cheapest_max_0]
    rfl

end Pathfinding
